import Mathlib

/-!
Verification development for the chunked subtitle-translation job processor
of the madoka_subs repository.  Strings are modelled as lists of characters;
the SRT codec, the submit handler and the poll handler are embedded as
executable Lean functions, translated from
src/app/api/translate/submit/route.ts and
src/app/api/translate/[jobId]/route.ts.
-/

set_option maxRecDepth 100000
set_option exponentiation.threshold 4000

namespace MadokaSubs

/-! ### Character classes

The code uses JavaScript regular expressions and trimming.  The character
class below is the regex whitespace class (backslash-s), which coincides
with the character set removed by the string trim method. -/

/-- The JavaScript regex whitespace class (and the set trimmed by the string
trim method), decided on the character code. -/
def jsWhitespace (c : Char) : Bool :=
  decide (c.toNat = 9 ∨ c.toNat = 10 ∨ c.toNat = 11 ∨ c.toNat = 12 ∨ c.toNat = 13 ∨
    c.toNat = 32 ∨ c.toNat = 160 ∨ c.toNat = 0x1680 ∨
    (0x2000 ≤ c.toNat ∧ c.toNat ≤ 0x200a) ∨ c.toNat = 0x2028 ∨ c.toNat = 0x2029 ∨
    c.toNat = 0x202f ∨ c.toNat = 0x205f ∨ c.toNat = 0x3000 ∨ c.toNat = 0xfeff)

/-- The regex digit class backslash-d. -/
def isDigit (c : Char) : Bool :=
  decide (48 ≤ c.toNat ∧ c.toNat ≤ 57)

/-- JavaScript string trim on a character list: whitespace removed from both
ends. -/
def jsTrim (l : List Char) : List Char :=
  ((l.dropWhile jsWhitespace).reverse.dropWhile jsWhitespace).reverse

/-! ### Newline handling

Models the replace of CRLF by LF applied by parseSrt, the split on the
newline character, and the split on the blank-line regex
(newline, whitespace-star, newline) used to cut the input into blocks. -/

/-- Models the global replace of a CRLF pair by LF, scanning left to right
without overlap, as the JavaScript replace does. -/
def normalizeCrlf : List Char → List Char
  | [] => []
  | [c] => [c]
  | c₁ :: c₂ :: rest =>
    if c₁ = '\r' ∧ c₂ = '\n' then '\n' :: normalizeCrlf rest
    else c₁ :: normalizeCrlf (c₂ :: rest)

/-- Split on the newline character, keeping empty pieces, as the JavaScript
string split does. -/
def splitLines : List Char → List (List Char)
  | [] => [[]]
  | c :: rest =>
    if c = '\n' then [] :: splitLines rest
    else
      match splitLines rest with
      | [] => [[c]]
      | l :: ls => (c :: l) :: ls

/-- Index of the last newline in a list, if any. -/
def lastNewlineIdx : List Char → Option Nat
  | [] => none
  | c :: rest =>
    match lastNewlineIdx rest with
    | some k => some (k + 1)
    | none => if c = '\n' then some 0 else none

/-- Scanner for the JavaScript split on the regex
newline-whitespace-star-newline.  At each newline the greedy separator
match extends to the last newline inside the following whitespace run.
The fuel argument (always instantiated with the input length, which bounds
the number of scanning steps) makes the recursion structural. -/
def splitBlocksAux : Nat → List Char → List Char → List (List Char)
  | _, acc, [] => [acc.reverse]
  | 0, acc, l => [acc.reverse ++ l]
  | fuel + 1, acc, c :: rest =>
    if c = '\n' then
      match lastNewlineIdx (rest.takeWhile jsWhitespace) with
      | some k => acc.reverse :: splitBlocksAux fuel [] (rest.drop (k + 1))
      | none => splitBlocksAux fuel (c :: acc) rest
    else splitBlocksAux fuel (c :: acc) rest

/-- The JavaScript split of a string on the blank-line regex. -/
def splitBlocks (l : List Char) : List (List Char) :=
  splitBlocksAux l.length [] l

/-- Join a list of character lists with a separator, as the JavaScript array
join does (empty input joins to the empty string). -/
def joinSep (sep : List Char) : List (List Char) → List Char
  | [] => []
  | [l] => l
  | l :: l₂ :: rest => l ++ sep ++ joinSep sep (l₂ :: rest)

/-! ### Numbers

The index line of a block goes through the JavaScript Number conversion and
an isFinite check, and a kept index is later printed back with template
interpolation.  jsNumberInt below covers the optionally signed decimal
integer literals only; it backs the processor-route claims, whose concrete
cues all carry small integer indices, on which it agrees with the full
conversion.  The full JavaScript Number model (fractions, exponents, hex,
octal and binary literals, and float64 rounding) is stringToNumber further
down, and the codec claims are stated over it. -/

/-- Value of a big-endian digit list. -/
def digitsVal : List Char → Nat
  | [] => 0
  | c :: rest => (c.toNat - 48) * 10 ^ rest.length + digitsVal rest

/-- Models the JavaScript Number conversion composed with the isFinite test,
on the signed decimal integer fragment: returns the integer value when the
(already trimmed, nonempty) input is an optionally signed digit string. -/
def jsNumberInt : List Char → Option Int
  | [] => none
  | c :: rest =>
    if c = '+' then
      if rest ≠ [] ∧ rest.all isDigit then some ((digitsVal rest : Nat) : Int) else none
    else if c = '-' then
      if rest ≠ [] ∧ rest.all isDigit then some (-((digitsVal rest : Nat) : Int)) else none
    else if (c :: rest).all isDigit then some ((digitsVal (c :: rest) : Nat) : Int) else none

/-- Decimal digits of a positive natural, accumulator form; the fuel (always
instantiated with the number itself, which bounds the digit count) makes the
recursion structural. -/
def natToCharsAux : Nat → Nat → List Char → List Char
  | 0, _, acc => acc
  | _ + 1, 0, acc => acc
  | fuel + 1, n + 1, acc =>
    natToCharsAux fuel ((n + 1) / 10) (Char.ofNat (48 + (n + 1) % 10) :: acc)

/-- Decimal representation of a natural number, as template interpolation of
a nonnegative JavaScript number prints it. -/
def natToChars (n : Nat) : List Char :=
  if n = 0 then ['0'] else natToCharsAux n n []

/-- Decimal representation of an integer, as template interpolation prints an
integral JavaScript number. -/
def intToChars (i : Int) : List Char :=
  if i < 0 then '-' :: natToChars i.natAbs else natToChars i.toNat

/-! ### The timestamp pattern

The time line must match the anchored regex: a capture of
two digits, colon, two digits, colon, two digits, comma, three digits,
then whitespace-star, the arrow, whitespace-star, and a second capture of
the same shape.  The regex is anchored at the start of the line only; it has
no end anchor. -/

/-- Take exactly n digits from the front of the input. -/
def takeDigits : Nat → List Char → Option (List Char × List Char)
  | 0, l => some ([], l)
  | _ + 1, [] => none
  | n + 1, c :: rest =>
    if isDigit c then (takeDigits n rest).map (fun p => (c :: p.1, p.2))
    else none

/-- Consume one expected literal character. -/
def expectChar (c : Char) : List Char → Option (List Char)
  | [] => none
  | x :: rest => if x = c then some rest else none

/-- Parse one timestamp capture group: two digits, colon, two digits, colon,
two digits, comma, three digits.  Returns the captured characters and the
remaining input. -/
def takeTimestamp (l : List Char) : Option (List Char × List Char) := do
  let p₁ ← takeDigits 2 l
  let r₂ ← expectChar ':' p₁.2
  let p₂ ← takeDigits 2 r₂
  let r₄ ← expectChar ':' p₂.2
  let p₃ ← takeDigits 2 r₄
  let r₆ ← expectChar ',' p₃.2
  let p₄ ← takeDigits 3 r₆
  pure (p₁.1 ++ ':' :: p₂.1 ++ ':' :: p₃.1 ++ ',' :: p₄.1, p₄.2)

/-- Match the anchored time-line regex against a line, returning the two
timestamp captures: a timestamp, greedy whitespace, the two-dash arrow,
greedy whitespace, and a second timestamp.  Characters after the second
capture are ignored, as the regex has no end anchor. -/
def matchTimeLine (l : List Char) : Option (List Char × List Char) := do
  let p₁ ← takeTimestamp l
  let r₂ ← expectChar '-' (p₁.2.dropWhile jsWhitespace)
  let r₃ ← expectChar '-' r₂
  let r₄ ← expectChar '>' r₃
  let p₂ ← takeTimestamp (r₄.dropWhile jsWhitespace)
  pure (p₁.1, p₂.1)

/-! ### The SRT codec -/

/-- One parsed subtitle entry with the index specialized to an integer; the
full-number entry type SrtEntry is declared further down. -/
structure SrtEntryInt where
  index : Int
  start : List Char
  «end» : List Char
  text : List Char
  deriving DecidableEq, Repr

/-- The block parser of the submit route with the index conversion
specialized to jsNumberInt; the faithful parser parseBlock is declared
further down.  This specialization backs the processor-route claims, whose
concrete cues carry integer index lines, on which both parsers agree. -/
def parseBlockInt (block : List Char) : Option SrtEntryInt :=
  let lines := (splitLines block).filter (fun l => decide (0 < (jsTrim l).length))
  match lines with
  | l₀ :: l₁ :: rest =>
    match jsNumberInt (jsTrim l₀), matchTimeLine l₁ with
    | some idx, some (s, e) =>
      some { index := idx, start := s, «end» := e, text := joinSep ['\n'] rest }
    | _, _ => none
  | _ => none

/-- parseSrt of the submit route over the integer-index specialization:
normalize CRLF, split into blocks on blank-line boundaries, and keep the
blocks that parse.  The faithful parseSrt is declared further down. -/
def parseSrtInt (input : List Char) : List SrtEntryInt :=
  (splitBlocks (normalizeCrlf input)).filterMap parseBlockInt

/-- One persisted job entry: the parsed fields plus the optional translated
text. -/
structure TranslateJobEntry where
  index : Int
  start : List Char
  «end» : List Char
  src : List Char
  dst : Option (List Char)
  deriving DecidableEq, Repr

/-- rebuildSrt from the poll route: each entry renders as its index, a
newline, the start, the arrow, the end, a newline, and the translated text
when present, else the source text; blocks joined by a blank line in array
order. -/
def rebuildSrt (entries : List TranslateJobEntry) : List Char :=
  joinSep ['\n', '\n']
    (entries.map fun e =>
      intToChars e.index ++ '\n' :: (e.start ++ ' ' :: '-' :: '-' :: '>' :: ' ' :: e.«end»)
        ++ '\n' :: e.dst.getD e.src)

/-- The submit route turns a parsed entry into a job entry with no translated
text (integer-index specialization). -/
def toJobEntry (e : SrtEntryInt) : TranslateJobEntry :=
  { index := e.index, start := e.start, «end» := e.«end», src := e.text, dst := none }

/-! ### The job record and the submit handler -/

/-- The persisted job record, as stored in the blob store under the job key. -/
structure TranslateJob where
  createdAt : Int
  targetLanguage : List Char
  note : Option (List Char)
  entries : List TranslateJobEntry
  cursor : Nat
  completed : Bool
  total : Nat
  deriving DecidableEq, Repr

/-- Outcome of the submit handler.  missingSrt is the 400 response for an
absent or empty (falsy) srt field; emptySubtitle is the 400 response for an
input that parsed to zero cues; created carries the single job record the
handler persists before returning the fresh job id. -/
inductive SubmitResult where
  | missingSrt : SubmitResult
  | emptySubtitle : SubmitResult
  | created : TranslateJob → SubmitResult
  deriving DecidableEq, Repr

/-- The submit handler control flow: reject a falsy srt field, parse, reject
zero cues, otherwise build and persist the new job at cursor zero.  The cue
indices go through the integer-literal specialization parseSrtInt; this
version backs the processor-route claims, whose submissions carry integer
index lines.  The handler over the full Number conversion is POST further
down. -/
def submit (srt : Option (List Char)) (targetLanguage : Option (List Char))
    (note : Option (List Char)) (now : Int) : SubmitResult :=
  match srt with
  | none => .missingSrt
  | some s =>
    if s = [] then .missingSrt
    else
      let entries := parseSrtInt s
      if entries = [] then .emptySubtitle
      else
        .created
          { createdAt := now
            targetLanguage := targetLanguage.getD ("zh-CN".data)
            note := note
            entries := entries.map toJobEntry
            cursor := 0
            completed := false
            total := entries.length }

/-! ### The poll handler

One poll request loads the record, claims a batch and dispatches one
translateOne call per claimed cue.  The external translation service is
modelled as an oracle from the claimed array position to the settlement of
its call: none when the call rejects, some t when it fulfills with text t.
All claimed calls settle before the record is persisted. -/

/-- The fixed batch width of the poll handler. -/
def concurrency : Nat := 30

/-- Settlement of one dispatched translateOne call on its entry: on
fulfillment the translated text is stored, with fallback to the source text
when the result is the empty string (falsy); on rejection the source text is
stored. -/
def settleEntry (o : Option (List Char)) (e : TranslateJobEntry) : TranslateJobEntry :=
  match o with
  | some t => { e with dst := some (if t = [] then e.src else t) }
  | none => { e with dst := some e.src }

/-- Apply the settlements of the claimed batch: positions lo up to (but not
including) hi are settled against the oracle, other positions are untouched.
The counter p is the array position of the list head. -/
def settleFrom (res : Nat → Option (List Char)) (lo hi : Nat) :
    Nat → List TranslateJobEntry → List TranslateJobEntry
  | _, [] => []
  | p, e :: rest =>
    (if lo ≤ p ∧ p < hi then settleEntry (res p) e else e) :: settleFrom res lo hi (p + 1) rest

/-- What one poll request returns: the record as left in the store, whether a
put was issued, the completed flag of the response, and the serialized srt
when the response carries one. -/
structure PollResponse where
  job : TranslateJob
  persisted : Bool
  statusCompleted : Bool
  srt : Option (List Char)
  deriving DecidableEq, Repr

/-- One poll invocation on a loaded job record (the happy path: record found
and the API key present).  If the record is already completed it is returned
as is, without a put.  Otherwise the loop claims
min(concurrency, length - cursor) cues starting at the cursor; if no cue was
claimed the job completes immediately; else all claimed calls settle, the
completed flag is recomputed and the record is persisted. -/
def pollStep (res : Nat → Option (List Char)) (job : TranslateJob) : PollResponse :=
  if job.completed then
    { job := job, persisted := false, statusCompleted := true
      srt := some (rebuildSrt job.entries) }
  else
    let n := min concurrency (job.entries.length - job.cursor)
    if n = 0 then
      let job' := { job with completed := true }
      { job := job', persisted := true, statusCompleted := true
        srt := some (rebuildSrt job'.entries) }
    else
      let cursor' := job.cursor + n
      let entries' := settleFrom res job.cursor cursor' 0 job.entries
      let completed' := decide (job.entries.length ≤ cursor')
      let job' := { job with entries := entries', cursor := cursor', completed := completed' }
      { job := job', persisted := true, statusCompleted := completed'
        srt := if completed' then some (rebuildSrt entries') else none }

/-- Repeated polling: fold the persisted record through a sequence of poll
invocations, each with its own oracle. -/
def pollSeq : List (Nat → Option (List Char)) → TranslateJob → TranslateJob
  | [], job => job
  | r :: rs, job => pollSeq rs (pollStep r job).job

/-- Invariant maintained by submission and polling: the cursor stays within
the entry count, a completed job has its cursor at the end, and the total
field records the entry count. -/
def JobInv (job : TranslateJob) : Prop :=
  job.cursor ≤ job.entries.length ∧
    (job.completed = true → job.cursor = job.entries.length) ∧
    job.total = job.entries.length

/-! ### Derived definitions used by the verification -/

/-- The shape of a timestamp capture, stated declaratively. -/
def timestampShape (t : List Char) : Prop :=
  ∃ d₁ d₂ d₃ d₄, t = d₁ ++ ':' :: d₂ ++ ':' :: d₃ ++ ',' :: d₄ ∧
    d₁.length = 2 ∧ d₂.length = 2 ∧ d₃.length = 2 ∧ d₄.length = 3 ∧
    (∀ c ∈ d₁, isDigit c = true) ∧ (∀ c ∈ d₂, isDigit c = true) ∧
    (∀ c ∈ d₃, isDigit c = true) ∧ (∀ c ∈ d₄, isDigit c = true)

/-- A head-solid list: its leading whitespace run contains no newline and is
followed by at least one character. -/
def headSolid (l : List Char) : Prop :=
  '\n' ∉ l.takeWhile jsWhitespace ∧ l.dropWhile jsWhitespace ≠ []

/-- No blank-line separator can start inside the list: every newline in it is
followed, within the list, by a head-solid tail. -/
def noSplit : List Char → Prop
  | [] => True
  | c :: rest => (c = '\n' → headSolid rest) ∧ noSplit rest

/-- A good subtitle text line: no newline inside, and not blank. -/
def lineGood (l : List Char) : Prop := '\n' ∉ l ∧ jsTrim l ≠ []

/-- A good cue text: the newline-join of good lines. -/
def textGood (t : List Char) : Prop :=
  ∃ ls, t = joinSep ['\n'] ls ∧ ∀ l ∈ ls, lineGood l

/-- The block of one job entry, as the claimed description of the serializer
renders it: the index, a newline, the start, the arrow, the end, a newline,
then the translated text if present, else the source text. -/
def renderCue (e : TranslateJobEntry) : List Char :=
  intToChars e.index ++ '\n' :: (e.start ++ ' ' :: '-' :: '-' :: '>' :: ' ' :: e.«end»)
    ++ '\n' :: e.dst.getD e.src

/-- The full-line reading of the time-line pattern used by the claim about
parsing: the whole line is exactly a timestamp, optional whitespace, the
arrow, optional whitespace, and a second timestamp, with nothing after. -/
def specTimeLineFull (l : List Char) : Bool :=
  match takeTimestamp l with
  | none => false
  | some p₁ =>
    match p₁.2.dropWhile jsWhitespace with
    | '-' :: '-' :: '>' :: r₂ =>
      match takeTimestamp (r₂.dropWhile jsWhitespace) with
      | none => false
      | some p₂ => p₂.2.isEmpty
    | _ => false

/-- The job record the submit handler builds for a given request
(integer-index specialization, matching submit). -/
def submittedJob (s : List Char) (tl note : Option (List Char)) (now : Int) : TranslateJob :=
  { createdAt := now
    targetLanguage := tl.getD ("zh-CN".data)
    note := note
    entries := (parseSrtInt s).map toJobEntry
    cursor := 0
    completed := false
    total := (parseSrtInt s).length }

/-- The two-cue sample submission from the specification scenario. -/
def sampleSrt : List Char :=
  "1\n00:00:00,000 --> 00:00:02,000\nHello\n\n2\n00:00:02,000 --> 00:00:04,000\nWorld\n".data

/-- A submitted single-cue job used as a concrete instance. -/
def helloJob : TranslateJob :=
  { createdAt := 0
    targetLanguage := "zh-CN".data
    note := none
    entries := [⟨1, "00:00:00,000".data, "00:00:02,000".data, "Hello".data, none⟩]
    cursor := 0
    completed := false
    total := 1 }

/-- A completed single-cue job used as a concrete instance. -/
def doneJob : TranslateJob :=
  { createdAt := 0
    targetLanguage := "zh-CN".data
    note := none
    entries := [⟨1, "00:00:00,000".data, "00:00:02,000".data, "Hello".data,
      some ("Hello-ZH".data)⟩]
    cursor := 1
    completed := true
    total := 1 }

/-- Two job entries, deliberately out of index order, one translated and one
not, used as a concrete instance. -/
def mixedEntries : List TranslateJobEntry :=
  [⟨2, "00:00:00,000".data, "00:00:02,000".data, "Hello".data, none⟩,
   ⟨1, "00:00:02,000".data, "00:00:04,000".data, "World".data, some ("Welt".data)⟩]

/-- A submission whose single cue has empty text. -/
def emptySrcSrt : List Char := "1\n00:00:00,000 --> 00:00:02,000".data

/-- The job record created from the empty-text submission. -/
def emptySrcJob : TranslateJob := submittedJob emptySrcSrt none none 0

/-! ### The full JavaScript Number model

The Number conversion applied to the trimmed index line accepts every string
numeric literal: optionally signed decimal literals with fraction and
exponent parts, unsigned binary, octal and hexadecimal literals, and the
Infinity literals; any other input converts to NaN.  The exact rational
value of a literal is then rounded to the nearest IEEE-754 double
(ties to even), with overflow producing an infinity.  The isFinite test of
the code keeps exactly the finite outcomes.  Finite doubles are modelled as
their exact rational values; the negative zero, which the conversion can
produce and which prints as the string 0, is identified with zero. -/

/-- The hexadecimal digit class. -/
def isHexDigit (c : Char) : Bool :=
  isDigit c || decide (97 ≤ c.toNat ∧ c.toNat ≤ 102) || decide (65 ≤ c.toNat ∧ c.toNat ≤ 70)

/-- The octal digit class. -/
def isOctDigit (c : Char) : Bool := decide (48 ≤ c.toNat ∧ c.toNat ≤ 55)

/-- The binary digit class. -/
def isBinDigit (c : Char) : Bool := decide (c.toNat = 48 ∨ c.toNat = 49)

/-- Value of one hexadecimal digit. -/
def hexDigitVal (c : Char) : Nat :=
  if isDigit c then c.toNat - 48
  else if decide (97 ≤ c.toNat) then c.toNat - 87
  else c.toNat - 55

/-- Value of a big-endian digit list in a given base. -/
def digitsValBase (b : Nat) (val : Char → Nat) : List Char → Nat
  | [] => 0
  | c :: rest => val c * b ^ rest.length + digitsValBase b val rest

/-- Floor of the base-two logarithm of a positive natural, accumulator-free;
the fuel (always instantiated with the number itself, which bounds the
iteration count) makes the recursion structural. -/
def natLog2Aux : Nat → Nat → Nat
  | 0, _ => 0
  | fuel + 1, n => if n ≤ 1 then 0 else natLog2Aux fuel (n / 2) + 1

/-- Floor of the base-two logarithm of a natural number (zero at zero). -/
def natLog2 (n : Nat) : Nat := natLog2Aux n n

/-- Absolute value on the rationals, by case on the sign. -/
def ratAbs (q : ℚ) : ℚ := if q < 0 then -q else q

/-- Two to an integer power on the rationals, computed through natural
powers and a single division so that evaluation stays shallow. -/
def twoPowQ (z : Int) : ℚ :=
  if 0 ≤ z then ((2 ^ z.toNat : Nat) : ℚ) else (1 : ℚ) / ((2 ^ (-z).toNat : Nat) : ℚ)

/-- Ten to an integer power on the rationals, computed through natural
powers and a single division so that evaluation stays shallow. -/
def tenPowQ (z : Int) : ℚ :=
  if 0 ≤ z then ((10 ^ z.toNat : Nat) : ℚ) else (1 : ℚ) / ((10 ^ (-z).toNat : Nat) : ℚ)

/-- Rounding of a rational to the nearest integer, ties to even, computed
through the executable floor on the rationals. -/
def nearestEven (x : ℚ) : Int :=
  if x - (x.floor : ℚ) < 1 / 2 then x.floor
  else if 1 / 2 < x - (x.floor : ℚ) then x.floor + 1
  else if x.floor % 2 = 0 then x.floor else x.floor + 1

/-- Floor of the base-two logarithm of the absolute value of a nonzero
rational, computed from the digit lengths of numerator and denominator with
one comparison correcting the estimate. -/
def ratLog2 (q : ℚ) : Int :=
  let l₀ : Int := (natLog2 q.num.natAbs : Int) - (natLog2 q.den : Int)
  if twoPowQ l₀ ≤ ratAbs q then l₀ else l₀ - 1

/-- The scale of the binade a nonzero rational rounds inside: fifty-two
below its magnitude, clamped below at the subnormal scale. -/
def dblExp (q : ℚ) : Int := max (-1074) (ratLog2 q - 52)

/-- The rounded significand of a rational at its scale. -/
def dblMan (q : ℚ) : Int := nearestEven (ratAbs q / twoPowQ (dblExp q))

/-- Rounding of an exact rational value to the nearest IEEE-754
double-precision value (round to nearest, ties to even), returned as its
exact rational value; none signals overflow to an infinity.  The exponent is
clamped below at the subnormal scale, and a value rounding to a magnitude of
two to the 1024 overflows. -/
def roundDouble (q : ℚ) : Option ℚ :=
  if q = 0 then some 0
  else if (dblMan q : ℚ) * twoPowQ (dblExp q) < twoPowQ 1024 then
    some (((if q < 0 then -dblMan q else dblMan q : Int) : ℚ) * twoPowQ (dblExp q))
  else none

/-- Outcome of the JavaScript Number conversion of a string: not a number,
an infinity, or a finite double carried as its exact rational value. -/
inductive JsNum where
  | nan : JsNum
  | inf : JsNum
  | negInf : JsNum
  | finite : ℚ → JsNum
  deriving DecidableEq, Repr

/-- Rounding of an exact literal value to a Number outcome. -/
def roundToJsNum (q : ℚ) : JsNum :=
  match roundDouble q with
  | some v => .finite v
  | none => if q < 0 then .negInf else .inf

/-- The isFinite test on a Number outcome. -/
def jsIsFinite : JsNum → Bool
  | .finite _ => true
  | _ => false

/-- A signed integer of the exponent part: an optional sign and at least one
digit, consuming the whole input. -/
def parseSignedDigits (l : List Char) : Option Int :=
  match l with
  | '+' :: r => if r ≠ [] ∧ r.all isDigit then some ((digitsVal r : Nat) : Int) else none
  | '-' :: r => if r ≠ [] ∧ r.all isDigit then some (-((digitsVal r : Nat) : Int)) else none
  | r => if r ≠ [] ∧ r.all isDigit then some ((digitsVal r : Nat) : Int) else none

/-- The optional exponent part: empty input means exponent zero, otherwise
the letter e in either case followed by a signed integer. -/
def parseExponentPart (l : List Char) : Option Int :=
  match l with
  | [] => some 0
  | c :: rest => if c = 'e' ∨ c = 'E' then parseSignedDigits rest else none

/-- Exact value of a decimal literal from its integer digits, fraction
digits and exponent. -/
def decLiteralVal (ip fp : List Char) (ex : Int) : ℚ :=
  ((digitsVal (ip ++ fp) : Nat) : ℚ) * tenPowQ (ex - (fp.length : Int))

/-- An unsigned decimal literal: integer digits with an optional fraction
and exponent, a fraction with at least one digit somewhere, or plain digits
with an optional exponent; the whole input must be consumed.  Returns the
exact rational value. -/
def parseUnsignedDecimal (l : List Char) : Option ℚ :=
  match l.dropWhile isDigit with
  | '.' :: rest₂ =>
    if l.takeWhile isDigit = [] ∧ rest₂.takeWhile isDigit = [] then none
    else
      (parseExponentPart (rest₂.dropWhile isDigit)).map
        (decLiteralVal (l.takeWhile isDigit) (rest₂.takeWhile isDigit))
  | rest₁ =>
    if l.takeWhile isDigit = [] then none
    else (parseExponentPart rest₁).map (decLiteralVal (l.takeWhile isDigit) [])

/-- An optionally signed decimal literal, rounded to a Number outcome; an
input that is no literal is NaN. -/
def parseDecimalSigned (l : List Char) : JsNum :=
  match l with
  | '+' :: r =>
    match parseUnsignedDecimal r with
    | some q => roundToJsNum q
    | none => .nan
  | '-' :: r =>
    match parseUnsignedDecimal r with
    | some q => roundToJsNum (-q)
    | none => .nan
  | r =>
    match parseUnsignedDecimal r with
    | some q => roundToJsNum q
    | none => .nan

/-- An unsigned non-decimal integer literal body (after the base prefix): at
least one digit of the base, consuming the whole input, rounded to a Number
outcome. -/
def parseNonDecimal (val : Char → Nat) (pred : Char → Bool) (b : Nat)
    (l : List Char) : JsNum :=
  if l ≠ [] ∧ l.all pred then roundToJsNum ((digitsValBase b val l : Nat) : ℚ) else .nan

/-- The JavaScript Number conversion of an already trimmed string: the empty
string converts to zero; the Infinity literals convert to the infinities; a
zero followed by a base letter starts a binary, octal or hexadecimal
literal (which admits no sign); anything else is read as an optionally
signed decimal literal. -/
def stringToNumber (l : List Char) : JsNum :=
  if l = [] then .finite 0
  else if l = "Infinity".data ∨ l = "+Infinity".data then .inf
  else if l = "-Infinity".data then .negInf
  else
    match l with
    | '0' :: c :: rest =>
      if c = 'x' ∨ c = 'X' then parseNonDecimal hexDigitVal isHexDigit 16 rest
      else if c = 'o' ∨ c = 'O' then parseNonDecimal (fun d => d.toNat - 48) isOctDigit 8 rest
      else if c = 'b' ∨ c = 'B' then parseNonDecimal (fun d => d.toNat - 48) isBinDigit 2 rest
      else parseDecimalSigned l
    | _ => parseDecimalSigned l

/-! ### Printing a double

Template interpolation prints a finite double through the ToString
operation: the shortest digit string that rounds back to the value, laid
out in fixed or exponential notation by the position of the decimal point.
The digit search below scans lengths one to seventeen; for each length it
collects every candidate inside a rational window around the value that
certainly contains the full rounding interval, keeps those that round back
exactly, and picks the closest, ties to the even digit string, as the
specification of ToString prescribes.  Seventeen digits always suffice, so
the exact-expansion fallback after the scan is never reached; it prints the
exact decimal expansion of the value, which also rounds back exactly. -/

/-- The exponent marker of exponential notation: an explicit sign and the
decimal digits of the exponent. -/
def expChars (z : Int) : List Char :=
  if z < 0 then '-' :: natToChars z.natAbs else '+' :: natToChars z.toNat

/-- Lay out a digit string whose value is the digits scaled so that n is
the decimal point position, as ToString prescribes: plain digits with
trailing zeros, digits with an embedded point, a leading zero and point
with padding zeros, or exponential notation. -/
def layoutDigits (ds : List Char) (n : Int) : List Char :=
  if (ds.length : Int) ≤ n ∧ n ≤ 21 then ds ++ List.replicate (n - ds.length).toNat '0'
  else if 0 < n ∧ n ≤ 21 then ds.take n.toNat ++ '.' :: ds.drop n.toNat
  else if -6 < n ∧ n ≤ 0 then '0' :: '.' :: (List.replicate (-n).toNat '0' ++ ds)
  else
    match ds with
    | [d] => d :: 'e' :: expChars (n - 1)
    | _ => ds.take 1 ++ '.' :: ds.drop 1 ++ 'e' :: expChars (n - 1)

/-- Lay out a digit string s with value s times ten to the p. -/
def formatDigits (s : Nat) (p : Int) : List Char :=
  layoutDigits (natToChars s) (p + ((natToChars s).length : Int))

/-- The digit candidates of one length k at one decimal scale p: every digit
string s of length k with s times ten to the p inside the window, kept when
it rounds back exactly to the value. -/
def candRange (v lo hi : ℚ) (k : Nat) (p : Int) : List (Nat × Int) :=
  let a : Int := max ((lo / tenPowQ p).ceil) (((10 : Nat) ^ (k - 1) : Nat) : Int)
  let b : Int := min ((hi / tenPowQ p).floor) (((10 : Nat) ^ k - 1 : Nat) : Int)
  ((List.range (b - a + 1).toNat).map fun i => ((a + (i : Int)).toNat, p)).filter
    fun sp =>
      decide (1 ≤ sp.1) && decide (roundDouble ((sp.1 : ℚ) * tenPowQ sp.2) = some v)

/-- All digit candidates of one length: the scales around the decimal
magnitude of the value, estimated from its binary magnitude with a window
wide enough to cover every scale at which a candidate can exist. -/
def candidatesFor (v lo hi : ℚ) (k : Nat) : List (Nat × Int) :=
  let c : Int := (ratLog2 v * 30103).ediv 100000 - (k : Int)
  candRange v lo hi k (c - 2) ++ candRange v lo hi k (c - 1) ++ candRange v lo hi k c ++
    candRange v lo hi k (c + 1) ++ candRange v lo hi k (c + 2)

/-- Choice between two candidates: strictly closer to the value, or equally
close with an even digit string. -/
def closerCand (v : ℚ) (x y : Nat × Int) : Bool :=
  decide (ratAbs ((x.1 : ℚ) * tenPowQ x.2 - v) < ratAbs ((y.1 : ℚ) * tenPowQ y.2 - v) ∨
    (ratAbs ((x.1 : ℚ) * tenPowQ x.2 - v) = ratAbs ((y.1 : ℚ) * tenPowQ y.2 - v) ∧
      x.1 % 2 = 0))

/-- The best candidate of a list: closest to the value, ties to even. -/
def bestCandidate (v : ℚ) : List (Nat × Int) → Option (Nat × Int)
  | [] => none
  | c :: rest => some (rest.foldl (fun b x => if closerCand v x b then x else b) c)

/-- Scan the digit lengths upward, returning the best candidate of the first
length that has one. -/
def searchDigits (v lo hi : ℚ) : Nat → Nat → Option (Nat × Int)
  | 0, _ => none
  | fuel + 1, k =>
    match bestCandidate v (candidatesFor v lo hi k) with
    | some sp => some sp
    | none => searchDigits v lo hi fuel (k + 1)

/-- ToString of a positive finite double: the shortest round-tripping digit
string laid out by formatDigits, with the exact decimal expansion as the
never-reached fallback of the seventeen-length scan.  The window around the
value is one scale step wide on each side, a superset of the rounding
interval. -/
def toStringPos (v : ℚ) : List Char :=
  match searchDigits v (v - twoPowQ (dblExp v)) (v + twoPowQ (dblExp v)) 17 1 with
  | some (s, p) => formatDigits s p
  | none => formatDigits (v.num.toNat * 5 ^ natLog2 v.den) (-(natLog2 v.den : Int))

/-- ToString of a finite double: zero prints as the single zero digit, a
negative value prints as the minus sign before the print of its negation. -/
def numberToString (v : ℚ) : List Char :=
  if v = 0 then ['0']
  else if v < 0 then '-' :: toStringPos (-v)
  else toStringPos v

/-! ### The faithful SRT codec

The definitions below embed parseSrt of the submit route with the index
conversion modelled in full, and the serializer of the poll route applied to
its output. -/

/-- One parsed subtitle entry, as built by parseSrt in the submit route: the
index is the finite double the Number conversion produced. -/
structure SrtEntry where
  index : ℚ
  start : List Char
  «end» : List Char
  text : List Char
  deriving DecidableEq, Repr

/-- Parse one block: filter out blank lines, require at least two lines, a
first line whose trimmed content converts to a finite number, and a time
line matching the anchored regex; the remaining lines joined with newlines
become the text.  Returns none for a dropped block. -/
def parseBlock (block : List Char) : Option SrtEntry :=
  let lines := (splitLines block).filter (fun l => decide (0 < (jsTrim l).length))
  match lines with
  | l₀ :: l₁ :: rest =>
    match stringToNumber (jsTrim l₀), matchTimeLine l₁ with
    | JsNum.finite idx, some (s, e) =>
      some { index := idx, start := s, «end» := e, text := joinSep ['\n'] rest }
    | _, _ => none
  | _ => none

/-- parseSrt from the submit route: normalize CRLF, split into blocks on
blank-line boundaries, and keep the blocks that parse. -/
def parseSrt (input : List Char) : List SrtEntry :=
  (splitBlocks (normalizeCrlf input)).filterMap parseBlock

/-- One persisted job entry of the submit route record, with the index as
the full number the parser produced. -/
structure JobCue where
  index : ℚ
  start : List Char
  «end» : List Char
  src : List Char
  dst : Option (List Char)
  deriving DecidableEq, Repr

/-- The job record the submit route persists, over full-number cues. -/
structure JobRecord where
  createdAt : Int
  targetLanguage : List Char
  note : Option (List Char)
  entries : List JobCue
  cursor : Nat
  completed : Bool
  total : Nat
  deriving DecidableEq, Repr

/-- The submit route turns a parsed entry into a job entry with no
translated text. -/
def toJobCue (e : SrtEntry) : JobCue :=
  { index := e.index, start := e.start, «end» := e.«end», src := e.text, dst := none }

/-- The store key the submit route derives from a job id. -/
def jobKeyOf (jobId : List Char) : List Char :=
  "translate-jobs/".data ++ jobId ++ ".json".data

/-- Outcome of the POST handler of the submit route.  missingSrt is the 400
response for an absent or empty (falsy) srt field; emptySubtitle is the 400
response for an input that parsed to zero cues; created carries the job id
the handler returns together with the single record it persisted and the
key it persisted it under. -/
inductive PostResult where
  | missingSrt : PostResult
  | emptySubtitle : PostResult
  | created : List Char → List Char → JobRecord → PostResult
  deriving DecidableEq, Repr

/-- The POST handler of the submit route: reject a falsy srt field, parse,
reject zero cues, otherwise persist exactly one new record at cursor zero
under the key of the fresh job id and return that id.  The id generation
and the clock are external inputs. -/
def POST (srt : Option (List Char)) (targetLanguage : Option (List Char))
    (note : Option (List Char)) (now : Int) (jobId : List Char) : PostResult :=
  match srt with
  | none => .missingSrt
  | some s =>
    if s = [] then .missingSrt
    else
      let entries := parseSrt s
      if entries = [] then .emptySubtitle
      else
        .created jobId (jobKeyOf jobId)
          { createdAt := now
            targetLanguage := targetLanguage.getD ("zh-CN".data)
            note := note
            entries := entries.map toJobCue
            cursor := 0
            completed := false
            total := entries.length }

/-- The record the POST handler builds for a given request. -/
def postedJob (s : List Char) (tl note : Option (List Char)) (now : Int) : JobRecord :=
  { createdAt := now
    targetLanguage := tl.getD ("zh-CN".data)
    note := note
    entries := (parseSrt s).map toJobCue
    cursor := 0
    completed := false
    total := (parseSrt s).length }

/-- rebuildSrt of the poll route over full-number cues: each entry renders
as its index printed by ToString, a newline, the start, the arrow, the end,
a newline, and the translated text when present, else the source text;
blocks joined by a blank line in array order. -/
def rebuildSrtQ (entries : List JobCue) : List Char :=
  joinSep ['\n', '\n']
    (entries.map fun e =>
      numberToString e.index ++ '\n' ::
        (e.start ++ ' ' :: '-' :: '-' :: '>' :: ' ' :: e.«end») ++ '\n' :: e.dst.getD e.src)

/-- Serialization of freshly parsed cues, before any translation is set. -/
def serializeParsed (es : List SrtEntry) : List Char :=
  rebuildSrtQ (es.map toJobCue)

/-- The block a parsed cue renders to inside the serialization. -/
def renderOf (e : SrtEntry) : List Char :=
  numberToString e.index ++ '\n' :: (e.start ++ ' ' :: '-' :: '-' :: '>' :: ' ' :: e.«end»)
    ++ '\n' :: e.text

/-- A good parsed entry: timestamp-shaped captures, a good text, and an
index fixed by double rounding (every index the parser produces is). -/
def entryGood (e : SrtEntry) : Prop :=
  timestampShape e.start ∧ timestampShape e.«end» ∧ textGood e.text ∧
    roundDouble e.index = some e.index

/-- The declarative acceptance relation of one block: its non-blank lines
are a line converting to a finite number, a time line that starts with the
anchored timestamp-arrow pattern, and the remaining text lines joined by
newlines. -/
def specAccepts (b : List Char) (e : SrtEntry) : Prop :=
  ∃ l₀ l₁ rest,
    (splitLines b).filter (fun l => decide (0 < (jsTrim l).length)) = l₀ :: l₁ :: rest ∧
    stringToNumber (jsTrim l₀) = JsNum.finite e.index ∧
    (∃ w₁ w₂ tail, l₁ = e.start ++ w₁ ++ '-' :: '-' :: '>' :: (w₂ ++ (e.«end» ++ tail)) ∧
      (∀ c ∈ w₁, jsWhitespace c = true) ∧ (∀ c ∈ w₂, jsWhitespace c = true) ∧
      timestampShape e.start ∧ timestampShape e.«end») ∧
    e.text = joinSep ['\n'] rest

/-! ### Character-class lemmas -/

theorem isDigit_iff {c : Char} : isDigit c = true ↔ 48 ≤ c.toNat ∧ c.toNat ≤ 57 := by
  simp [isDigit]

theorem jsWhitespace_eq_false {c : Char} (h : isDigit c = true) : jsWhitespace c = false := by
  rw [isDigit_iff] at h
  simp only [jsWhitespace, decide_eq_false_iff_not]
  omega

theorem isDigit_ne_nl {c : Char} (h : isDigit c = true) : c ≠ '\n' := by
  rintro rfl; exact absurd h (by decide)

theorem isDigit_ne_cr {c : Char} (h : isDigit c = true) : c ≠ '\r' := by
  rintro rfl; exact absurd h (by decide)

theorem isDigit_ne_plus {c : Char} (h : isDigit c = true) : c ≠ '+' := by
  rintro rfl; exact absurd h (by decide)

theorem isDigit_ne_minus {c : Char} (h : isDigit c = true) : c ≠ '-' := by
  rintro rfl; exact absurd h (by decide)

/-! ### takeWhile and dropWhile helpers -/

theorem dropWhile_append_of_ne_nil {p : Char → Bool} {l : List Char} (r : List Char)
    (h : l.dropWhile p ≠ []) : (l ++ r).dropWhile p = l.dropWhile p ++ r := by
  induction l with
  | nil => simp at h
  | cons c rest ih =>
    by_cases hc : p c
    · simpa [List.dropWhile_cons, hc] using ih (by simpa [List.dropWhile_cons, hc] using h)
    · simp [List.dropWhile_cons, hc]

theorem takeWhile_append_of_ne_nil {p : Char → Bool} {l : List Char} (r : List Char)
    (h : l.dropWhile p ≠ []) : (l ++ r).takeWhile p = l.takeWhile p := by
  induction l with
  | nil => simp at h
  | cons c rest ih =>
    by_cases hc : p c
    · simpa [List.takeWhile_cons, hc] using ih (by simpa [List.dropWhile_cons, hc] using h)
    · simp [List.takeWhile_cons, hc]

theorem dropWhile_append_of_all {p : Char → Bool} {w : List Char} (x : List Char)
    (h : ∀ c ∈ w, p c = true) : (w ++ x).dropWhile p = x.dropWhile p := by
  induction w with
  | nil => rfl
  | cons c rest ih =>
    simp only [List.cons_append, List.dropWhile_cons, h c (by simp)]
    exact ih (fun c hc => h c (by simp [hc]))

theorem dropWhile_eq_self_of_head {p : Char → Bool} {c : Char} {l : List Char}
    (h : p c = false) : (c :: l).dropWhile p = c :: l := by
  simp [List.dropWhile_cons, h]

/-! ### Trim lemmas -/

theorem jsTrim_eq_nil_iff {l : List Char} :
    jsTrim l = [] ↔ ∀ c ∈ l, jsWhitespace c = true := by
  unfold jsTrim
  rw [List.reverse_eq_nil_iff, List.dropWhile_eq_nil_iff]
  simp only [List.mem_reverse]
  constructor
  · intro h c hc
    by_cases hmem : c ∈ l.dropWhile jsWhitespace
    · exact h c hmem
    · have hsplit := List.takeWhile_append_dropWhile (p := jsWhitespace) (l := l)
      have hctk : c ∈ l.takeWhile jsWhitespace := by
        have hmem2 : c ∈ l.takeWhile jsWhitespace ++ l.dropWhile jsWhitespace := by
          rw [hsplit]; exact hc
        rcases List.mem_append.mp hmem2 with h' | h'
        · exact h'
        · exact absurd h' hmem
      exact List.mem_takeWhile_imp hctk
  · intro h c hc
    exact h c ((List.dropWhile_sublist (p := jsWhitespace)).subset hc)

theorem jsTrim_eq_self {l : List Char} (h : ∀ c ∈ l, jsWhitespace c = false) :
    jsTrim l = l := by
  have h₁ : l.dropWhile jsWhitespace = l := by
    cases l with
    | nil => rfl
    | cons c rest => exact dropWhile_eq_self_of_head (h c (by simp))
  have h₂ : l.reverse.dropWhile jsWhitespace = l.reverse := by
    cases hr : l.reverse with
    | nil => rfl
    | cons c rest =>
      refine dropWhile_eq_self_of_head (h c ?_)
      have : c ∈ l.reverse := by rw [hr]; simp
      simpa using this
  simp [jsTrim, h₁, h₂]

theorem jsTrim_ne_nil {l : List Char} {c : Char} (hc : c ∈ l)
    (h : jsWhitespace c = false) : jsTrim l ≠ [] := by
  intro hnil
  have := jsTrim_eq_nil_iff.mp hnil c hc
  rw [this] at h
  exact absurd h (by simp)

/-! ### splitLines lemmas -/

theorem splitLines_ne_nil (l : List Char) : splitLines l ≠ [] := by
  induction l with
  | nil => simp [splitLines]
  | cons c rest ih =>
    by_cases hc : c = '\n'
    · simp [splitLines, hc]
    · simp only [splitLines, if_neg hc]
      cases hsl : splitLines rest with
      | nil => simp
      | cons l ls => simp

theorem no_nl_of_mem_splitLines {l p : List Char} (hp : p ∈ splitLines l) : '\n' ∉ p := by
  induction l generalizing p with
  | nil =>
    simp only [splitLines, List.mem_singleton] at hp
    subst hp; simp
  | cons c rest ih =>
    by_cases hc : c = '\n'
    · simp only [splitLines, if_pos hc, List.mem_cons] at hp
      rcases hp with rfl | hp
      · simp
      · exact ih hp
    · simp only [splitLines, if_neg hc] at hp
      cases hsl : splitLines rest with
      | nil => exact absurd hsl (splitLines_ne_nil rest)
      | cons l₀ ls =>
        rw [hsl] at hp
        rcases List.mem_cons.mp hp with rfl | hp'
        · intro hmem
          rcases List.mem_cons.mp hmem with h' | h'
          · exact hc h'.symm
          · exact ih (by rw [hsl]; simp) h'
        · exact ih (by rw [hsl]; simp [hp'])

theorem splitLines_of_no_nl {l : List Char} (h : '\n' ∉ l) : splitLines l = [l] := by
  induction l with
  | nil => rfl
  | cons c rest ih =>
    have hc : c ≠ '\n' := fun hcc => h (by simp [hcc])
    have hrest : '\n' ∉ rest := fun hr => h (by simp [hr])
    simp only [splitLines, if_neg hc, ih hrest]

theorem splitLines_append_nl {u : List Char} (v : List Char) (h : '\n' ∉ u) :
    splitLines (u ++ '\n' :: v) = u :: splitLines v := by
  induction u with
  | nil => simp [splitLines]
  | cons c rest ih =>
    have hc : c ≠ '\n' := fun hcc => h (by simp [hcc])
    have hrest : '\n' ∉ rest := fun hr => h (by simp [hr])
    simp only [List.cons_append, splitLines, if_neg hc, List.append_eq, ih hrest]

/-! ### joinSep lemmas -/

theorem joinSep_cons_cons (sep l l₂ : List Char) (rest : List (List Char)) :
    joinSep sep (l :: l₂ :: rest) = l ++ sep ++ joinSep sep (l₂ :: rest) := rfl

theorem mem_joinSep {sep : List Char} {ls : List (List Char)} {c : Char}
    (h : c ∈ joinSep sep ls) : c ∈ sep ∨ ∃ l ∈ ls, c ∈ l := by
  induction ls with
  | nil => simp [joinSep] at h
  | cons l rest ih =>
    cases rest with
    | nil =>
      simp only [joinSep] at h
      right; exact ⟨l, by simp, h⟩
    | cons l₂ t =>
      rw [joinSep_cons_cons] at h
      rcases List.mem_append.mp h with h' | h'
      · rcases List.mem_append.mp h' with h'' | h''
        · right; exact ⟨l, by simp, h''⟩
        · left; exact h''
      · rcases ih h' with h'' | ⟨l', hl', hc⟩
        · left; exact h''
        · right; exact ⟨l', by simp [hl'], hc⟩

theorem splitLines_joinSep {ls : List (List Char)} (hne : ls ≠ [])
    (h : ∀ l ∈ ls, '\n' ∉ l) : splitLines (joinSep ['\n'] ls) = ls := by
  induction ls with
  | nil => exact absurd rfl hne
  | cons l rest ih =>
    cases rest with
    | nil => exact splitLines_of_no_nl (h l (by simp))
    | cons l₂ t =>
      rw [joinSep_cons_cons]
      have : l ++ ['\n'] ++ joinSep ['\n'] (l₂ :: t) = l ++ '\n' :: joinSep ['\n'] (l₂ :: t) := by
        simp
      rw [this, splitLines_append_nl _ (h l (by simp))]
      rw [ih (by simp) (fun l' hl' => h l' (by simp [hl']))]

/-! ### Decimal digit lemmas -/

theorem digitsVal_append (l m : List Char) :
    digitsVal (l ++ m) = digitsVal l * 10 ^ m.length + digitsVal m := by
  induction l with
  | nil => simp [digitsVal]
  | cons c rest ih =>
    simp only [List.cons_append, digitsVal, List.append_eq, ih, List.length_append, pow_add]
    ring

theorem toNat_digitChar {r : Nat} (h : r < 10) : (Char.ofNat (48 + r)).toNat = 48 + r := by
  interval_cases r <;> decide

theorem isDigit_digitChar {r : Nat} (h : r < 10) : isDigit (Char.ofNat (48 + r)) = true := by
  interval_cases r <;> decide

theorem natToCharsAux_zero (fuel : Nat) (acc : List Char) :
    natToCharsAux fuel 0 acc = acc := by
  cases fuel <;> rfl

theorem natToCharsAux_spec :
    ∀ n fuel acc, 0 < n → n ≤ fuel →
      ∃ ds, natToCharsAux fuel n acc = ds ++ acc ∧ ds ≠ [] ∧
        (∀ c ∈ ds, isDigit c = true) ∧ digitsVal ds = n := by
  intro n
  induction n using Nat.strong_induction_on with
  | _ n ih =>
    intro fuel acc hpos hle
    obtain ⟨m, rfl⟩ : ∃ m, n = m + 1 := ⟨n - 1, by omega⟩
    obtain ⟨f, rfl⟩ : ∃ f, fuel = f + 1 := ⟨fuel - 1, by omega⟩
    have hstep : natToCharsAux (f + 1) (m + 1) acc =
        natToCharsAux f ((m + 1) / 10) (Char.ofNat (48 + (m + 1) % 10) :: acc) := rfl
    have hdm := Nat.div_add_mod (m + 1) 10
    have hr : (m + 1) % 10 < 10 := Nat.mod_lt _ (by norm_num)
    set q := (m + 1) / 10 with hq
    set r := (m + 1) % 10 with hrdef
    set d := Char.ofNat (48 + r) with hd
    have hdval : digitsVal [d] = r := by
      simp [digitsVal, hd, toNat_digitChar hr]
    have hddig : isDigit d = true := isDigit_digitChar hr
    by_cases hq0 : q = 0
    · refine ⟨[d], ?_, by simp, ?_, ?_⟩
      · rw [hstep, hq0, natToCharsAux_zero]; rfl
      · intro c hc
        rcases List.mem_singleton.mp hc with rfl
        exact hddig
      · rw [hdval]; omega
    · have hqlt : q < m + 1 := Nat.div_lt_self hpos (by norm_num)
      have hqpos : 0 < q := Nat.pos_of_ne_zero hq0
      have hqf : q ≤ f := by omega
      obtain ⟨ds, heq, hne, hdig, hval⟩ := ih q hqlt f (d :: acc) hqpos hqf
      refine ⟨ds ++ [d], ?_, by simp, ?_, ?_⟩
      · rw [hstep, heq]; simp
      · intro c hc
        rcases List.mem_append.mp hc with h' | h'
        · exact hdig c h'
        · rcases List.mem_singleton.mp h' with rfl
          exact hddig
      · rw [digitsVal_append, hdval]
        simp only [List.length_singleton, pow_one]
        omega

theorem natToChars_spec (n : Nat) :
    natToChars n ≠ [] ∧ (∀ c ∈ natToChars n, isDigit c = true) ∧
      digitsVal (natToChars n) = n := by
  by_cases h : n = 0
  · subst h
    refine ⟨by decide, ?_, by decide⟩
    intro c hc
    have h0 : natToChars 0 = ['0'] := rfl
    rw [h0, List.mem_singleton] at hc
    subst hc; decide
  · obtain ⟨ds, heq, hne, hdig, hval⟩ :=
      natToCharsAux_spec n n [] (Nat.pos_of_ne_zero h) le_rfl
    rw [natToChars, if_neg h, heq, List.append_nil]
    exact ⟨hne, hdig, hval⟩

/-! ### Timestamp lemmas -/

theorem takeDigits_sound :
    ∀ n (l d r : List Char), takeDigits n l = some (d, r) →
      l = d ++ r ∧ d.length = n ∧ ∀ c ∈ d, isDigit c = true := by
  intro n
  induction n with
  | zero =>
    intro l d r h
    simp only [takeDigits, Option.some.injEq, Prod.mk.injEq] at h
    obtain ⟨rfl, rfl⟩ := h
    exact ⟨rfl, rfl, by simp⟩
  | succ n ih =>
    intro l d r h
    cases l with
    | nil => simp [takeDigits] at h
    | cons c rest =>
      rw [takeDigits] at h
      by_cases hc : isDigit c
      · rw [if_pos hc, Option.map_eq_some'] at h
        obtain ⟨⟨d', r'⟩, hrec, heq⟩ := h
        obtain ⟨rfl, rfl⟩ := Prod.mk.injEq .. |>.mp heq
        obtain ⟨hl, hlen, hdig⟩ := ih rest d' r' hrec
        refine ⟨by rw [hl]; rfl, by simp [hlen], ?_⟩
        intro x hx
        rcases List.mem_cons.mp hx with rfl | hx'
        · exact hc
        · exact hdig x hx'
      · rw [if_neg hc] at h
        exact absurd h (by simp)

theorem takeDigits_complete {d : List Char} (r : List Char)
    (hdig : ∀ c ∈ d, isDigit c = true) :
    takeDigits d.length (d ++ r) = some (d, r) := by
  induction d with
  | nil => rfl
  | cons c rest ih =>
    rw [List.length_cons, List.cons_append, takeDigits, if_pos (hdig c (by simp)),
      ih (fun x hx => hdig x (by simp [hx]))]
    rfl

theorem expectChar_sound {c : Char} {l r : List Char} (h : expectChar c l = some r) :
    l = c :: r := by
  cases l with
  | nil => simp [expectChar] at h
  | cons x rest =>
    rw [expectChar] at h
    by_cases hx : x = c
    · rw [if_pos hx, Option.some.injEq] at h
      rw [hx, h]
    · rw [if_neg hx] at h
      exact absurd h (by simp)

theorem expectChar_cons (c : Char) (r : List Char) : expectChar c (c :: r) = some r := by
  rw [expectChar, if_pos rfl]

theorem takeTimestamp_eq (l : List Char) :
    takeTimestamp l =
      (takeDigits 2 l).bind fun p₁ =>
        (expectChar ':' p₁.2).bind fun r₂ =>
          (takeDigits 2 r₂).bind fun p₂ =>
            (expectChar ':' p₂.2).bind fun r₄ =>
              (takeDigits 2 r₄).bind fun p₃ =>
                (expectChar ',' p₃.2).bind fun r₆ =>
                  (takeDigits 3 r₆).bind fun p₄ =>
                    some (p₁.1 ++ ':' :: p₂.1 ++ ':' :: p₃.1 ++ ',' :: p₄.1, p₄.2) := rfl

theorem matchTimeLine_eq (l : List Char) :
    matchTimeLine l =
      (takeTimestamp l).bind fun p₁ =>
        (expectChar '-' (p₁.2.dropWhile jsWhitespace)).bind fun r₂ =>
          (expectChar '-' r₂).bind fun r₃ =>
            (expectChar '>' r₃).bind fun r₄ =>
              (takeTimestamp (r₄.dropWhile jsWhitespace)).bind fun p₂ =>
                some (p₁.1, p₂.1) := rfl

theorem takeTimestamp_sound {l t r : List Char} (h : takeTimestamp l = some (t, r)) :
    l = t ++ r ∧ timestampShape t := by
  rw [takeTimestamp_eq] at h
  simp only [Option.bind_eq_some, Option.some.injEq] at h
  obtain ⟨⟨d₁, r₁⟩, h₁, r₂, h₂, ⟨d₂, r₃⟩, h₃, r₄, h₄, ⟨d₃, r₅⟩, h₅, r₆, h₆, ⟨d₄, r₇⟩, h₇, heq⟩ := h
  obtain ⟨ht, hr⟩ := Prod.mk.injEq .. |>.mp heq
  obtain ⟨hl₁, hlen₁, hdig₁⟩ := takeDigits_sound _ _ _ _ h₁
  have he₂ := expectChar_sound h₂
  obtain ⟨hl₃, hlen₂, hdig₂⟩ := takeDigits_sound _ _ _ _ h₃
  have he₄ := expectChar_sound h₄
  obtain ⟨hl₅, hlen₃, hdig₃⟩ := takeDigits_sound _ _ _ _ h₅
  have he₆ := expectChar_sound h₆
  obtain ⟨hl₇, hlen₄, hdig₄⟩ := takeDigits_sound _ _ _ _ h₇
  subst ht hr
  constructor
  · simp only at hl₁ he₂ hl₃ he₄ hl₅ he₆ hl₇
    rw [hl₁, he₂, hl₃, he₄, hl₅, he₆, hl₇]
    simp
  · exact ⟨d₁, d₂, d₃, d₄, rfl, hlen₁, hlen₂, hlen₃, hlen₄, hdig₁, hdig₂, hdig₃, hdig₄⟩

theorem takeTimestamp_complete {t : List Char} (r : List Char) (h : timestampShape t) :
    takeTimestamp (t ++ r) = some (t, r) := by
  obtain ⟨d₁, d₂, d₃, d₄, rfl, hlen₁, hlen₂, hlen₃, hlen₄, hdig₁, hdig₂, hdig₃, hdig₄⟩ := h
  have hassoc :
      (d₁ ++ ':' :: d₂ ++ ':' :: d₃ ++ ',' :: d₄) ++ r =
        d₁ ++ ':' :: (d₂ ++ ':' :: (d₃ ++ ',' :: (d₄ ++ r))) := by
    simp
  rw [hassoc]
  have s₁ : takeDigits 2 (d₁ ++ ':' :: (d₂ ++ ':' :: (d₃ ++ ',' :: (d₄ ++ r)))) =
      some (d₁, ':' :: (d₂ ++ ':' :: (d₃ ++ ',' :: (d₄ ++ r)))) := by
    rw [← hlen₁]; exact takeDigits_complete _ hdig₁
  have s₂ : takeDigits 2 (d₂ ++ ':' :: (d₃ ++ ',' :: (d₄ ++ r))) =
      some (d₂, ':' :: (d₃ ++ ',' :: (d₄ ++ r))) := by
    rw [← hlen₂]; exact takeDigits_complete _ hdig₂
  have s₃ : takeDigits 2 (d₃ ++ ',' :: (d₄ ++ r)) = some (d₃, ',' :: (d₄ ++ r)) := by
    rw [← hlen₃]; exact takeDigits_complete _ hdig₃
  have s₄ : takeDigits 3 (d₄ ++ r) = some (d₄, r) := by
    rw [← hlen₄]; exact takeDigits_complete _ hdig₄
  simp only [takeTimestamp_eq, s₁, Option.some_bind, expectChar_cons, s₂, s₃, s₄]

theorem timestampShape_head {t : List Char} (h : timestampShape t) :
    ∃ c rest, t = c :: rest ∧ isDigit c = true := by
  obtain ⟨d₁, _, _, _, rfl, hlen₁, _, _, _, hdig₁, _, _, _⟩ := h
  obtain ⟨a, b, rfl⟩ := List.length_eq_two.mp hlen₁
  exact ⟨a, _, rfl, hdig₁ a (by simp)⟩

theorem mem_timestampShape {t : List Char} (h : timestampShape t) :
    ∀ c ∈ t, isDigit c = true ∨ c = ':' ∨ c = ',' := by
  obtain ⟨d₁, d₂, d₃, d₄, rfl, _, _, _, _, hdig₁, hdig₂, hdig₃, hdig₄⟩ := h
  intro c hc
  simp only [List.mem_append, List.mem_cons] at hc
  rcases hc with ((h₁ | rfl | h₂) | rfl | h₃) | rfl | h₄
  · exact Or.inl (hdig₁ c h₁)
  · exact Or.inr (Or.inl rfl)
  · exact Or.inl (hdig₂ c h₂)
  · exact Or.inr (Or.inl rfl)
  · exact Or.inl (hdig₃ c h₃)
  · exact Or.inr (Or.inr rfl)
  · exact Or.inl (hdig₄ c h₄)

theorem timestampShape_no_nl {t : List Char} (h : timestampShape t) : '\n' ∉ t := by
  intro hmem
  rcases mem_timestampShape h _ hmem with h' | h' | h' <;> exact absurd h' (by decide)

theorem timestampShape_no_cr {t : List Char} (h : timestampShape t) : '\r' ∉ t := by
  intro hmem
  rcases mem_timestampShape h _ hmem with h' | h' | h' <;> exact absurd h' (by decide)

theorem timestampShape_no_ws {t : List Char} (h : timestampShape t) :
    ∀ c ∈ t, jsWhitespace c = false := by
  intro c hc
  rcases mem_timestampShape h c hc with h' | rfl | rfl
  · exact jsWhitespace_eq_false h'
  · decide
  · decide

theorem matchTimeLine_sound {l t₁ t₂ : List Char}
    (h : matchTimeLine l = some (t₁, t₂)) :
    ∃ w₁ w₂ tail, l = t₁ ++ w₁ ++ '-' :: '-' :: '>' :: (w₂ ++ (t₂ ++ tail)) ∧
      (∀ c ∈ w₁, jsWhitespace c = true) ∧ (∀ c ∈ w₂, jsWhitespace c = true) ∧
      timestampShape t₁ ∧ timestampShape t₂ := by
  rw [matchTimeLine_eq] at h
  simp only [Option.bind_eq_some, Option.some.injEq] at h
  obtain ⟨⟨u₁, r₁⟩, h₁, r₂, h₂, r₃, h₃, r₄, h₄, ⟨u₂, r₅⟩, h₅, heq⟩ := h
  simp only [Prod.mk.injEq] at heq
  obtain ⟨hq₁, hq₂⟩ := heq
  obtain ⟨hl, hshape₁⟩ := takeTimestamp_sound h₁
  simp only at h₂ h₅
  have hd₂ := expectChar_sound h₂
  have hd₃ := expectChar_sound h₃
  have hd₄ := expectChar_sound h₄
  obtain ⟨hl₅, hshape₂⟩ := takeTimestamp_sound h₅
  refine ⟨r₁.takeWhile jsWhitespace, r₄.takeWhile jsWhitespace, r₅, ?_, ?_, ?_, ?_, ?_⟩
  · have hr₁ : r₁ = r₁.takeWhile jsWhitespace ++ '-' :: '-' :: '>' :: r₄ := by
      conv_lhs => rw [← List.takeWhile_append_dropWhile (p := jsWhitespace) (l := r₁)]
      rw [hd₂, hd₃, hd₄]
    have hr₄ : r₄ = r₄.takeWhile jsWhitespace ++ (u₂ ++ r₅) := by
      conv_lhs => rw [← List.takeWhile_append_dropWhile (p := jsWhitespace) (l := r₄)]
      rw [hl₅]
    have hr₁' : r₁ = r₁.takeWhile jsWhitespace ++
        '-' :: '-' :: '>' :: (r₄.takeWhile jsWhitespace ++ (u₂ ++ r₅)) := by
      conv_lhs => rw [hr₁]
      rw [← hr₄]
    rw [← hq₁, ← hq₂, hl]
    conv_lhs => rw [hr₁']
    simp
  · intro c hc; exact List.mem_takeWhile_imp hc
  · intro c hc; exact List.mem_takeWhile_imp hc
  · rw [← hq₁]; exact hshape₁
  · rw [← hq₂]; exact hshape₂

theorem matchTimeLine_complete {t₁ t₂ w₁ w₂ : List Char} (tail : List Char)
    (hs₁ : timestampShape t₁) (hs₂ : timestampShape t₂)
    (hw₁ : ∀ c ∈ w₁, jsWhitespace c = true) (hw₂ : ∀ c ∈ w₂, jsWhitespace c = true) :
    matchTimeLine (t₁ ++ w₁ ++ '-' :: '-' :: '>' :: (w₂ ++ (t₂ ++ tail))) = some (t₁, t₂) := by
  have hassoc : t₁ ++ w₁ ++ '-' :: '-' :: '>' :: (w₂ ++ (t₂ ++ tail)) =
      t₁ ++ (w₁ ++ '-' :: '-' :: '>' :: (w₂ ++ (t₂ ++ tail))) := by simp
  rw [hassoc]
  have s₁ := takeTimestamp_complete (w₁ ++ '-' :: '-' :: '>' :: (w₂ ++ (t₂ ++ tail))) hs₁
  have hdw₁ : (w₁ ++ '-' :: '-' :: '>' :: (w₂ ++ (t₂ ++ tail))).dropWhile jsWhitespace =
      '-' :: '-' :: '>' :: (w₂ ++ (t₂ ++ tail)) := by
    rw [dropWhile_append_of_all _ hw₁]
    exact dropWhile_eq_self_of_head (by decide)
  obtain ⟨c₂, rest₂, hteq, hdig⟩ := timestampShape_head hs₂
  have hdw₂ : (w₂ ++ (t₂ ++ tail)).dropWhile jsWhitespace = t₂ ++ tail := by
    rw [dropWhile_append_of_all _ hw₂, hteq]
    exact dropWhile_eq_self_of_head (jsWhitespace_eq_false hdig)
  have s₂ := takeTimestamp_complete tail hs₂
  simp only [matchTimeLine_eq, s₁, Option.some_bind, hdw₁, expectChar_cons, hdw₂, s₂]

theorem matchTimeLine_self {t₁ t₂ : List Char}
    (hs₁ : timestampShape t₁) (hs₂ : timestampShape t₂) :
    matchTimeLine (t₁ ++ ' ' :: '-' :: '-' :: '>' :: ' ' :: t₂) = some (t₁, t₂) := by
  have hw : ∀ c ∈ [' '], jsWhitespace c = true := by
    intro c hc
    rcases List.mem_singleton.mp hc with rfl
    decide
  have h := matchTimeLine_complete ([] : List Char) hs₁ hs₂ hw hw
  simpa using h

/-! ### Block-splitting lemmas

A scan of the block splitter never starts a separator inside a rendered
block; the predicates below isolate the conditions. -/

theorem lastNewlineIdx_eq_none {l : List Char} (h : '\n' ∉ l) :
    lastNewlineIdx l = none := by
  induction l with
  | nil => rfl
  | cons c rest ih =>
    have hc : c ≠ '\n' := fun hcc => h (by simp [hcc])
    have hrest : '\n' ∉ rest := fun hr => h (by simp [hr])
    rw [lastNewlineIdx, ih hrest, if_neg hc]

theorem splitBlocksAux_nil (fuel : Nat) (acc : List Char) :
    splitBlocksAux fuel acc [] = [acc.reverse] := by
  cases fuel <;> rfl

theorem splitBlocksAux_succ (fuel : Nat) (acc : List Char) (c : Char) (rest : List Char) :
    splitBlocksAux (fuel + 1) acc (c :: rest) =
      if c = '\n' then
        match lastNewlineIdx (rest.takeWhile jsWhitespace) with
        | some k => acc.reverse :: splitBlocksAux fuel [] (rest.drop (k + 1))
        | none => splitBlocksAux fuel (c :: acc) rest
      else splitBlocksAux fuel (c :: acc) rest := rfl

theorem splitBlocksAux_not_nl {c : Char} (fuel : Nat) (acc rest : List Char)
    (hc : c ≠ '\n') :
    splitBlocksAux (fuel + 1) acc (c :: rest) = splitBlocksAux fuel (c :: acc) rest := by
  rw [splitBlocksAux_succ, if_neg hc]

theorem splitBlocksAux_nl_none (fuel : Nat) (acc rest : List Char)
    (h : lastNewlineIdx (rest.takeWhile jsWhitespace) = none) :
    splitBlocksAux (fuel + 1) acc ('\n' :: rest) = splitBlocksAux fuel ('\n' :: acc) rest := by
  rw [splitBlocksAux_succ, if_pos rfl, h]

theorem splitBlocksAux_nl_some {k : Nat} (fuel : Nat) (acc rest : List Char)
    (h : lastNewlineIdx (rest.takeWhile jsWhitespace) = some k) :
    splitBlocksAux (fuel + 1) acc ('\n' :: rest) =
      acc.reverse :: splitBlocksAux fuel [] (rest.drop (k + 1)) := by
  rw [splitBlocksAux_succ, if_pos rfl, h]

theorem splitBlocksAux_fuel :
    ∀ bound (l : List Char) fuel₁ fuel₂ (acc : List Char), l.length ≤ bound →
      l.length ≤ fuel₁ → l.length ≤ fuel₂ →
      splitBlocksAux fuel₁ acc l = splitBlocksAux fuel₂ acc l := by
  intro bound
  induction bound with
  | zero =>
    intro l fuel₁ fuel₂ acc hb _ _
    have : l = [] := List.length_eq_zero.mp (Nat.le_zero.mp hb)
    subst this
    rw [splitBlocksAux_nil, splitBlocksAux_nil]
  | succ b ih =>
    intro l fuel₁ fuel₂ acc hb h₁ h₂
    cases l with
    | nil => rw [splitBlocksAux_nil, splitBlocksAux_nil]
    | cons c rest =>
      simp only [List.length_cons] at hb h₁ h₂
      obtain ⟨g₁, rfl⟩ : ∃ g, fuel₁ = g + 1 := ⟨fuel₁ - 1, by omega⟩
      obtain ⟨g₂, rfl⟩ : ∃ g, fuel₂ = g + 1 := ⟨fuel₂ - 1, by omega⟩
      by_cases hc : c = '\n'
      · subst hc
        cases hidx : lastNewlineIdx (rest.takeWhile jsWhitespace) with
        | none =>
          rw [splitBlocksAux_nl_none _ _ _ hidx, splitBlocksAux_nl_none _ _ _ hidx]
          exact ih rest g₁ g₂ _ (by omega) (by omega) (by omega)
        | some k =>
          rw [splitBlocksAux_nl_some _ _ _ hidx, splitBlocksAux_nl_some _ _ _ hidx]
          have hlen : (rest.drop (k + 1)).length ≤ rest.length := by
            rw [List.length_drop]; omega
          rw [ih (rest.drop (k + 1)) g₁ g₂ [] (by omega) (by omega) (by omega)]
      · rw [splitBlocksAux_not_nl _ _ _ hc, splitBlocksAux_not_nl _ _ _ hc]
        exact ih rest g₁ g₂ _ (by omega) (by omega) (by omega)

theorem splitBlocksAux_append {u : List Char} (hn : noSplit u) :
    ∀ fuel (acc rest : List Char), u.length + rest.length ≤ fuel →
      splitBlocksAux fuel acc (u ++ rest) =
        splitBlocksAux (fuel - u.length) (u.reverse ++ acc) rest := by
  induction u with
  | nil => intro fuel acc rest _; simp
  | cons c u' ih =>
    intro fuel acc rest h
    simp only [List.length_cons] at h
    obtain ⟨g, rfl⟩ : ∃ g, fuel = g + 1 := ⟨fuel - 1, by omega⟩
    obtain ⟨hc, hn'⟩ := hn
    have harr : g + 1 - (u'.length + 1) = g - u'.length := by omega
    by_cases hcn : c = '\n'
    · subst hcn
      obtain ⟨hnl, hne⟩ := hc rfl
      have hnone : lastNewlineIdx ((u' ++ rest).takeWhile jsWhitespace) = none := by
        rw [takeWhile_append_of_ne_nil rest hne]
        exact lastNewlineIdx_eq_none hnl
      rw [List.cons_append, splitBlocksAux_nl_none _ _ _ hnone,
        ih hn' g ('\n' :: acc) rest (by omega)]
      simp only [List.length_cons, List.reverse_cons, List.append_assoc, List.singleton_append]
      rw [harr]
    · rw [List.cons_append, splitBlocksAux_not_nl _ _ _ hcn,
        ih hn' g (c :: acc) rest (by omega)]
      simp only [List.length_cons, List.reverse_cons, List.append_assoc, List.singleton_append]
      rw [harr]

theorem splitBlocksAux_sep (fuel : Nat) (acc s : List Char)
    (hhead : s.takeWhile jsWhitespace = []) :
    splitBlocksAux (fuel + 1) acc ('\n' :: '\n' :: s) =
      acc.reverse :: splitBlocksAux fuel [] s := by
  have htw : ('\n' :: s).takeWhile jsWhitespace = ['\n'] := by
    rw [List.takeWhile_cons, if_pos (by decide), hhead]
  have hidx : lastNewlineIdx (('\n' :: s).takeWhile jsWhitespace) = some 0 := by
    rw [htw]; rfl
  rw [splitBlocksAux_nl_some _ _ _ hidx]
  rfl

theorem splitBlocksAux_sep3 (fuel : Nat) (acc s : List Char)
    (hhead : s.takeWhile jsWhitespace = []) :
    splitBlocksAux (fuel + 1) acc ('\n' :: '\n' :: '\n' :: s) =
      acc.reverse :: splitBlocksAux fuel [] s := by
  have htw : ('\n' :: '\n' :: s).takeWhile jsWhitespace = ['\n', '\n'] := by
    rw [List.takeWhile_cons, if_pos (by decide), List.takeWhile_cons, if_pos (by decide), hhead]
  have hidx : lastNewlineIdx (('\n' :: '\n' :: s).takeWhile jsWhitespace) = some 1 := by
    rw [htw]; rfl
  rw [splitBlocksAux_nl_some _ _ _ hidx]
  rfl

theorem splitBlocksAux_last_nl (fuel : Nat) (acc : List Char) :
    splitBlocksAux (fuel + 1) acc ['\n'] = [acc.reverse ++ ['\n']] := by
  have hidx : lastNewlineIdx (([] : List Char).takeWhile jsWhitespace) = none := rfl
  rw [splitBlocksAux_nl_none _ _ _ hidx, splitBlocksAux_nil]
  simp

/-! ### noSplit construction lemmas -/

theorem noSplit_of_no_nl {l : List Char} (h : '\n' ∉ l) : noSplit l := by
  induction l with
  | nil => trivial
  | cons c rest ih =>
    refine ⟨fun hc => absurd (by simp [hc]) h, ih (fun hr => h (by simp [hr]))⟩

theorem headSolid_append {l : List Char} (x : List Char) (hnl : '\n' ∉ l)
    (hne : l.dropWhile jsWhitespace ≠ []) : headSolid (l ++ x) := by
  constructor
  · rw [takeWhile_append_of_ne_nil x hne]
    intro hmem
    exact hnl ((List.takeWhile_sublist (p := jsWhitespace)).subset hmem)
  · rw [dropWhile_append_of_ne_nil x hne]
    simp [hne]

theorem dropWhile_ne_nil_of_trim {l : List Char} (ht : jsTrim l ≠ []) :
    l.dropWhile jsWhitespace ≠ [] := by
  intro hdrop
  exact ht (jsTrim_eq_nil_iff.mpr (List.dropWhile_eq_nil_iff.mp hdrop))

theorem headSolid_of_line {l : List Char} (hnl : '\n' ∉ l) (ht : jsTrim l ≠ []) :
    headSolid l := by
  constructor
  · intro hmem
    exact hnl ((List.takeWhile_sublist (p := jsWhitespace)).subset hmem)
  · exact dropWhile_ne_nil_of_trim ht

theorem noSplit_append_cons_nl {u v : List Char} (hu : '\n' ∉ u) (hv : headSolid v)
    (hnv : noSplit v) : noSplit (u ++ '\n' :: v) := by
  induction u with
  | nil => exact ⟨fun _ => hv, hnv⟩
  | cons c u' ih =>
    refine ⟨fun hc => absurd (by simp [hc]) hu, ih (fun hr => hu (by simp [hr]))⟩

theorem headSolid_joinSep {ls : List (List Char)} (hne : ls ≠ [])
    (h : ∀ l ∈ ls, lineGood l) : headSolid (joinSep ['\n'] ls) := by
  cases ls with
  | nil => exact absurd rfl hne
  | cons l rest =>
    obtain ⟨hnl, ht⟩ := h l (by simp)
    cases rest with
    | nil => exact headSolid_of_line hnl ht
    | cons l₂ t =>
      rw [joinSep_cons_cons]
      have : l ++ ['\n'] ++ joinSep ['\n'] (l₂ :: t) =
          l ++ ('\n' :: joinSep ['\n'] (l₂ :: t)) := by simp
      rw [this]
      exact headSolid_append _ hnl (dropWhile_ne_nil_of_trim ht)

theorem noSplit_joinSep {ls : List (List Char)} (h : ∀ l ∈ ls, lineGood l) :
    noSplit (joinSep ['\n'] ls) := by
  induction ls with
  | nil => trivial
  | cons l rest ih =>
    obtain ⟨hnl, _⟩ := h l (by simp)
    cases rest with
    | nil => exact noSplit_of_no_nl hnl
    | cons l₂ t =>
      rw [joinSep_cons_cons]
      have heq : l ++ ['\n'] ++ joinSep ['\n'] (l₂ :: t) =
          l ++ '\n' :: joinSep ['\n'] (l₂ :: t) := by simp
      rw [heq]
      exact noSplit_append_cons_nl hnl
        (headSolid_joinSep (by simp) (fun l' hl' => h l' (by simp [hl'])))
        (ih (fun l' hl' => h l' (by simp [hl'])))

theorem lineGood_trim_pos {l : List Char} (h : lineGood l) :
    decide (0 < (jsTrim l).length) = true := by
  simpa [List.length_pos] using h.2

/-! ### Scanning a serialization block by block -/

theorem joinSep_nl2_cons_cons (l l₂ : List Char) (rest : List (List Char)) :
    joinSep ['\n', '\n'] (l :: l₂ :: rest) =
      l ++ ('\n' :: '\n' :: joinSep ['\n', '\n'] (l₂ :: rest)) := by
  rw [joinSep_cons_cons]
  simp

theorem headSolid_cons {c : Char} (r : List Char) (h : jsWhitespace c = false) :
    headSolid (c :: r) := by
  constructor
  · simp [List.takeWhile_cons, h]
  · simp [List.dropWhile_cons, h]

theorem joinSep_cons_decomp (sep l : List Char) (rest : List (List Char)) :
    ∃ z, joinSep sep (l :: rest) = l ++ z := by
  cases rest with
  | nil => exact ⟨[], by simp [joinSep]⟩
  | cons l₂ t => exact ⟨sep ++ joinSep sep (l₂ :: t), by rw [joinSep_cons_cons]; simp⟩

/-! ### Corollaries of the scan lemma at the block level -/

theorem splitBlocksAux_noSplit {u : List Char} (hn : noSplit u) (fuel : Nat)
    (h : u.length ≤ fuel) : splitBlocksAux fuel [] u = [u] := by
  have happ := splitBlocksAux_append hn fuel [] [] (by simpa using h)
  rw [List.append_nil] at happ
  rw [happ, splitBlocksAux_nil]
  simp

theorem splitBlocksAux_noSplit_nl {u : List Char} (hn : noSplit u) (fuel : Nat)
    (h : u.length + 1 ≤ fuel) : splitBlocksAux fuel [] (u ++ ['\n']) = [u ++ ['\n']] := by
  rw [splitBlocksAux_append hn fuel [] ['\n'] (by simpa using h)]
  obtain ⟨g, hgdef⟩ : ∃ g, fuel - u.length = g + 1 := ⟨fuel - u.length - 1, by omega⟩
  rw [hgdef, splitBlocksAux_last_nl]
  simp

theorem splitBlocksAux_block_sep {u s : List Char} (hn : noSplit u) (fuel : Nat)
    (hhead : s.takeWhile jsWhitespace = []) (h : u.length + 2 + s.length ≤ fuel) :
    splitBlocksAux fuel [] (u ++ ('\n' :: '\n' :: s)) =
      u :: splitBlocksAux (fuel - u.length - 1) [] s := by
  rw [splitBlocksAux_append hn fuel [] _ (by simp; omega)]
  obtain ⟨g, hgdef⟩ : ∃ g, fuel - u.length = g + 1 := ⟨fuel - u.length - 1, by omega⟩
  rw [hgdef, splitBlocksAux_sep g _ s hhead]
  have hg2 : g = fuel - u.length - 1 := by omega
  rw [hg2]
  simp

theorem splitBlocksAux_block_sep3 {u s : List Char} (hn : noSplit u) (fuel : Nat)
    (hhead : s.takeWhile jsWhitespace = []) (h : u.length + 3 + s.length ≤ fuel) :
    splitBlocksAux fuel [] (u ++ ('\n' :: '\n' :: '\n' :: s)) =
      u :: splitBlocksAux (fuel - u.length - 1) [] s := by
  rw [splitBlocksAux_append hn fuel [] _ (by simp; omega)]
  obtain ⟨g, hgdef⟩ : ∃ g, fuel - u.length = g + 1 := ⟨fuel - u.length - 1, by omega⟩
  rw [hgdef, splitBlocksAux_sep3 g _ s hhead]
  have hg2 : g = fuel - u.length - 1 := by omega
  rw [hg2]
  simp

/-! ### The codec round trip -/

theorem normalizeCrlf_eq_self {s : List Char} (h : '\r' ∉ s) : normalizeCrlf s = s := by
  induction s with
  | nil => rfl
  | cons c rest ih =>
    cases rest with
    | nil => rfl
    | cons c₂ rest₂ =>
      have hc : c ≠ '\r' := fun hcc => h (by simp [hcc])
      have hstep : normalizeCrlf (c :: c₂ :: rest₂) =
          if c = '\r' ∧ c₂ = '\n' then '\n' :: normalizeCrlf rest₂
          else c :: normalizeCrlf (c₂ :: rest₂) := rfl
      rw [hstep, if_neg (by rintro ⟨h₁, _⟩; exact hc h₁)]
      congr 1
      exact ih (fun hr => h (List.mem_cons_of_mem _ hr))

/-! ### Power and logarithm lemmas -/

theorem twoPowQ_eq (z : Int) : twoPowQ z = (2 : ℚ) ^ z := by
  unfold twoPowQ
  by_cases hz : 0 ≤ z
  · rw [if_pos hz]
    have h1 : ((2 ^ z.toNat : Nat) : ℚ) = (2 : ℚ) ^ z.toNat := by push_cast; ring
    rw [h1, ← zpow_natCast, Int.toNat_of_nonneg hz]
  · rw [if_neg hz]
    have h1 : ((2 ^ (-z).toNat : Nat) : ℚ) = (2 : ℚ) ^ (-z) := by
      push_cast
      rw [← zpow_natCast, Int.toNat_of_nonneg (by omega)]
    rw [h1, one_div, ← zpow_neg, neg_neg]

theorem tenPowQ_eq (z : Int) : tenPowQ z = (10 : ℚ) ^ z := by
  unfold tenPowQ
  by_cases hz : 0 ≤ z
  · rw [if_pos hz]
    have h1 : ((10 ^ z.toNat : Nat) : ℚ) = (10 : ℚ) ^ z.toNat := by push_cast; ring
    rw [h1, ← zpow_natCast, Int.toNat_of_nonneg hz]
  · rw [if_neg hz]
    have h1 : ((10 ^ (-z).toNat : Nat) : ℚ) = (10 : ℚ) ^ (-z) := by
      push_cast
      rw [← zpow_natCast, Int.toNat_of_nonneg (by omega)]
    rw [h1, one_div, ← zpow_neg, neg_neg]

theorem natLog2Aux_spec :
    ∀ n fuel, 1 ≤ n → n ≤ fuel →
      2 ^ natLog2Aux fuel n ≤ n ∧ n < 2 ^ (natLog2Aux fuel n + 1) := by
  intro n
  induction n using Nat.strong_induction_on with
  | _ n ih =>
    intro fuel h1 hle
    obtain ⟨f, rfl⟩ : ∃ f, fuel = f + 1 := ⟨fuel - 1, by omega⟩
    by_cases hn1 : n ≤ 1
    · have hn : n = 1 := by omega
      subst hn
      have hstep : natLog2Aux (f + 1) 1 = 0 := by rw [natLog2Aux, if_pos le_rfl]
      rw [hstep]
      exact ⟨le_rfl, by norm_num⟩
    · have hstep : natLog2Aux (f + 1) n = natLog2Aux f (n / 2) + 1 := by
        rw [natLog2Aux, if_neg hn1]
      have hmod := Nat.div_add_mod n 2
      have hhalf1 : 1 ≤ n / 2 := by omega
      have hlt : n / 2 < n := by omega
      have hlef : n / 2 ≤ f := by omega
      obtain ⟨hl, hr⟩ := ih (n / 2) hlt f hhalf1 hlef
      rw [hstep]
      constructor
      · rw [pow_succ]
        omega
      · rw [pow_succ]
        omega

theorem natLog2_spec {n : Nat} (h : 1 ≤ n) :
    2 ^ natLog2 n ≤ n ∧ n < 2 ^ (natLog2 n + 1) :=
  natLog2Aux_spec n n h le_rfl

theorem natLog2_pow (e : Nat) : natLog2 (2 ^ e) = e := by
  obtain ⟨hl, hr⟩ := natLog2_spec (n := 2 ^ e) (Nat.one_le_two_pow)
  have h₁ := (Nat.pow_le_pow_iff_right (by norm_num : 1 < 2)).mp hl
  have h₂ := (Nat.pow_lt_pow_iff_right (by norm_num : 1 < 2)).mp hr
  omega

theorem ratAbs_eq_abs (q : ℚ) : ratAbs q = |q| := by
  unfold ratAbs
  by_cases h : q < 0
  · rw [if_pos h, abs_of_neg h]
  · rw [if_neg h, abs_of_nonneg (le_of_not_lt h)]

theorem ratFloor_eq (q : ℚ) : q.floor = ⌊q⌋ := by
  rw [Rat.floor_def', Rat.floor_def]

theorem nearestEven_intCast (z : Int) : nearestEven (z : ℚ) = z := by
  unfold nearestEven
  rw [ratFloor_eq, Int.floor_intCast, sub_self, if_pos (by norm_num : (0 : ℚ) < 1 / 2)]

theorem nearestEven_dist (x : ℚ) : |(nearestEven x : ℚ) - x| ≤ 1 / 2 := by
  unfold nearestEven
  have hfl : ((x.floor : Int) : ℚ) ≤ x := by rw [ratFloor_eq]; exact Int.floor_le x
  have hfu : x < ((x.floor : Int) : ℚ) + 1 := by rw [ratFloor_eq]; exact Int.lt_floor_add_one x
  by_cases h₁ : x - (x.floor : ℚ) < 1 / 2
  · rw [if_pos h₁, abs_le]
    constructor <;> linarith
  · rw [if_neg h₁]
    by_cases h₂ : 1 / 2 < x - (x.floor : ℚ)
    · rw [if_pos h₂]
      rw [abs_le]
      push_cast
      constructor <;> linarith
    · rw [if_neg h₂]
      have heq : x - (x.floor : ℚ) = 1 / 2 := by linarith
      by_cases h₃ : x.floor % 2 = 0
      · rw [if_pos h₃, abs_le]
        constructor <;> linarith
      · rw [if_neg h₃, abs_le]
        push_cast
        constructor <;> linarith

theorem nearestEven_nonneg {x : ℚ} (h : 0 ≤ x) : 0 ≤ nearestEven x := by
  have hfl : (0 : Int) ≤ x.floor := by
    rw [ratFloor_eq]
    exact Int.floor_nonneg.mpr h
  unfold nearestEven
  by_cases h₁ : x - (x.floor : ℚ) < 1 / 2
  · rw [if_pos h₁]; exact hfl
  · rw [if_neg h₁]
    by_cases h₂ : 1 / 2 < x - (x.floor : ℚ)
    · rw [if_pos h₂]; omega
    · rw [if_neg h₂]
      by_cases h₃ : x.floor % 2 = 0
      · rw [if_pos h₃]; exact hfl
      · rw [if_neg h₃]; omega

theorem ratLog2_spec {q : ℚ} (hq : q ≠ 0) :
    (2 : ℚ) ^ ratLog2 q ≤ |q| ∧ |q| < (2 : ℚ) ^ (ratLog2 q + 1) := by
  have hna : 1 ≤ q.num.natAbs := by
    have := Rat.num_ne_zero.mpr hq
    omega
  have hd : 1 ≤ q.den := q.pos
  obtain ⟨ha₁, ha₂⟩ := natLog2_spec hna
  obtain ⟨hb₁, hb₂⟩ := natLog2_spec hd
  have hdpos : (0 : ℚ) < (q.den : ℚ) := by exact_mod_cast q.pos
  have habs : |q| = (q.num.natAbs : ℚ) / (q.den : ℚ) := by
    conv_lhs => rw [← Rat.num_div_den q]
    rw [abs_div, abs_of_pos hdpos]
    congr 1
    rw [Int.cast_natAbs, Int.cast_abs]
  set a := natLog2 q.num.natAbs with hadef
  set b := natLog2 q.den with hbdef
  have hqa₁ : (2 : ℚ) ^ (a : Int) ≤ (q.num.natAbs : ℚ) := by
    rw [zpow_natCast]
    exact_mod_cast ha₁
  have hqa₂ : (q.num.natAbs : ℚ) < (2 : ℚ) ^ ((a : Int) + 1) := by
    rw [show ((a : Int) + 1) = ((a + 1 : Nat) : Int) by push_cast; ring, zpow_natCast]
    exact_mod_cast ha₂
  have hqb₁ : (2 : ℚ) ^ (b : Int) ≤ (q.den : ℚ) := by
    rw [zpow_natCast]
    exact_mod_cast hb₁
  have hqb₂ : (q.den : ℚ) < (2 : ℚ) ^ ((b : Int) + 1) := by
    rw [show ((b : Int) + 1) = ((b + 1 : Nat) : Int) by push_cast; ring, zpow_natCast]
    exact_mod_cast hb₂
  set l₀ : Int := (a : Int) - (b : Int) with hldef
  have hbound₁ : |q| < (2 : ℚ) ^ (l₀ + 1) := by
    rw [habs, div_lt_iff₀ hdpos]
    calc (q.num.natAbs : ℚ) < (2 : ℚ) ^ ((a : Int) + 1) := hqa₂
      _ = (2 : ℚ) ^ (l₀ + 1) * (2 : ℚ) ^ (b : Int) := by
          rw [← zpow_add₀ (two_ne_zero : (2 : ℚ) ≠ 0)]
          congr 1
          omega
      _ ≤ (2 : ℚ) ^ (l₀ + 1) * (q.den : ℚ) := by
          exact mul_le_mul_of_nonneg_left hqb₁ (le_of_lt (zpow_pos (by norm_num) _))
  have hbound₂ : (2 : ℚ) ^ (l₀ - 1) ≤ |q| := by
    rw [habs, le_div_iff₀ hdpos]
    calc (2 : ℚ) ^ (l₀ - 1) * (q.den : ℚ)
        ≤ (2 : ℚ) ^ (l₀ - 1) * (2 : ℚ) ^ ((b : Int) + 1) := by
          exact mul_le_mul_of_nonneg_left (le_of_lt hqb₂)
            (le_of_lt (zpow_pos (by norm_num) _))
      _ = (2 : ℚ) ^ (a : Int) := by
          rw [← zpow_add₀ (two_ne_zero : (2 : ℚ) ≠ 0)]
          congr 1
          omega
      _ ≤ (q.num.natAbs : ℚ) := hqa₁
  have hform : ratLog2 q = if twoPowQ l₀ ≤ ratAbs q then l₀ else l₀ - 1 := by
    unfold ratLog2
    rw [← hadef, ← hbdef, ← hldef]
  rw [hform]
  by_cases hcase : twoPowQ l₀ ≤ ratAbs q
  · rw [if_pos hcase]
    rw [twoPowQ_eq, ratAbs_eq_abs] at hcase
    exact ⟨hcase, hbound₁⟩
  · rw [if_neg hcase]
    rw [twoPowQ_eq, ratAbs_eq_abs] at hcase
    have : |q| < (2 : ℚ) ^ l₀ := lt_of_not_le hcase
    constructor
    · exact hbound₂
    · rw [show l₀ - 1 + 1 = l₀ by ring]
      exact this

theorem ratLog2_unique {q : ℚ} {z : Int} (hq : q ≠ 0)
    (h₁ : (2 : ℚ) ^ z ≤ |q|) (h₂ : |q| < (2 : ℚ) ^ (z + 1)) : ratLog2 q = z := by
  obtain ⟨hl, hr⟩ := ratLog2_spec hq
  by_contra hne
  rcases lt_or_gt_of_ne hne with h | h
  · have hle : (2 : ℚ) ^ (ratLog2 q + 1) ≤ (2 : ℚ) ^ z :=
      zpow_le_zpow_right₀ one_le_two (by omega)
    linarith
  · have hle : (2 : ℚ) ^ (z + 1) ≤ (2 : ℚ) ^ ratLog2 q :=
      zpow_le_zpow_right₀ one_le_two (by omega)
    linarith

/-! ### Double rounding is idempotent -/

theorem zpow_int_cast_pow (k : Nat) : (2 : ℚ) ^ (k : Int) = ((2 ^ k : Int) : ℚ) := by
  rw [zpow_natCast]
  push_cast
  ring

theorem roundDouble_zero : roundDouble 0 = some 0 := by
  unfold roundDouble
  rw [if_pos rfl]

theorem abs_signed_pow {c : Prop} [Decidable c] {m : Int} (hm : 0 ≤ m) (E : Int) :
    |(((if c then -m else m : Int)) : ℚ) * (2 : ℚ) ^ E| = (m : ℚ) * (2 : ℚ) ^ E := by
  rw [abs_mul, abs_of_pos (zpow_pos (by norm_num : (0 : ℚ) < 2) E)]
  congr 1
  by_cases h : c
  · rw [if_pos h]
    push_cast
    rw [abs_neg, abs_of_nonneg (by exact_mod_cast hm)]
  · rw [if_neg h]
    rw [abs_of_nonneg (by exact_mod_cast hm)]

theorem two_zpow_cast (k : Nat) : (2 : ℚ) ^ ((k : Nat) : Int) = ((2 ^ k : Int) : ℚ) := by
  rw [zpow_natCast]
  push_cast
  ring

theorem roundDouble_fix {q v : ℚ} (h : roundDouble q = some v) :
    roundDouble v = some v := by
  by_cases hq : q = 0
  · subst hq
    rw [roundDouble_zero] at h
    simp only [Option.some.injEq] at h
    rw [← h, roundDouble_zero]
  · unfold roundDouble at h
    rw [if_neg hq] at h
    by_cases hov : (dblMan q : ℚ) * twoPowQ (dblExp q) < twoPowQ 1024
    case neg => rw [if_neg hov] at h; exact absurd h (by simp)
    rw [if_pos hov] at h
    simp only [Option.some.injEq] at h
    obtain ⟨l, hl⟩ : ∃ z, ratLog2 q = z := ⟨_, rfl⟩
    obtain ⟨E, hE⟩ : ∃ z, dblExp q = z := ⟨_, rfl⟩
    obtain ⟨m, hm⟩ : ∃ z, dblMan q = z := ⟨_, rfl⟩
    rw [hE, hm] at h hov
    have hv : v = (((if q < 0 then -m else m : Int)) : ℚ) * (2 : ℚ) ^ E := by
      rw [← h, twoPowQ_eq]
    rw [twoPowQ_eq, twoPowQ_eq] at hov
    have hEmax : E = max (-1074) (l - 52) := by rw [← hE, ← hl]; rfl
    have hE_lo : (-1074 : Int) ≤ E := by rw [hEmax]; exact le_max_left _ _
    have hE_l : l - 52 ≤ E := by rw [hEmax]; exact le_max_right _ _
    have hEcases : E = l - 52 ∨ (E = -1074 ∧ l ≤ -1023) := by
      by_cases hcmp : (-1074 : Int) ≤ l - 52
      · left
        rw [hEmax]
        exact max_eq_right hcmp
      · right
        refine ⟨by rw [hEmax]; exact max_eq_left (by omega), by omega⟩
    have hspec := ratLog2_spec hq
    rw [hl] at hspec
    obtain ⟨hspec₁, hspec₂⟩ := hspec
    have h2E_pos : (0 : ℚ) < (2 : ℚ) ^ E := zpow_pos (by norm_num) E
    have hq_pos : (0 : ℚ) < |q| := abs_pos.mpr hq
    have hm_ne : m = nearestEven (|q| / (2 : ℚ) ^ E) := by
      rw [← hm]
      unfold dblMan
      rw [ratAbs_eq_abs, twoPowQ_eq, hE]
    have hx_pos : 0 < |q| / (2 : ℚ) ^ E := div_pos hq_pos h2E_pos
    have hm0 : 0 ≤ m := by rw [hm_ne]; exact nearestEven_nonneg (le_of_lt hx_pos)
    have hdist := nearestEven_dist (|q| / (2 : ℚ) ^ E)
    rw [← hm_ne, abs_le] at hdist
    have hx_lo : (2 : ℚ) ^ (l - E) ≤ |q| / (2 : ℚ) ^ E := by
      rw [le_div_iff₀ h2E_pos, ← zpow_add₀ (two_ne_zero : (2 : ℚ) ≠ 0),
        show l - E + E = l by ring]
      exact hspec₁
    have hx_hi : |q| / (2 : ℚ) ^ E < (2 : ℚ) ^ (l + 1 - E) := by
      rw [div_lt_iff₀ h2E_pos, ← zpow_add₀ (two_ne_zero : (2 : ℚ) ≠ 0),
        show l + 1 - E + E = l + 1 by ring]
      exact hspec₂
    obtain ⟨x, hxe⟩ : ∃ x, |q| / (2 : ℚ) ^ E = x := ⟨_, rfl⟩
    rw [hxe] at hm_ne hx_pos hdist hx_lo hx_hi
    by_cases hmz : m = 0
    · have hv0 : v = 0 := by
        rw [hv, hmz]
        by_cases hqs : q < 0 <;> simp [hqs]
      rw [hv0, roundDouble_zero]
    · have hm_pos : 0 < m := lt_of_le_of_ne hm0 (Ne.symm hmz)
      have hmE_pos : (0 : ℚ) < (m : ℚ) * (2 : ℚ) ^ E :=
        mul_pos (by exact_mod_cast hm_pos) h2E_pos
      have habs_v : |v| = (m : ℚ) * (2 : ℚ) ^ E := by
        rw [hv]
        exact abs_signed_pow hm0 E
      have hv_ne : v ≠ 0 := by
        intro h0
        rw [h0, abs_zero] at habs_v
        linarith
      have hsign : v < 0 ↔ q < 0 := by
        constructor
        · intro hvneg
          by_contra hqn
          rw [hv, if_neg hqn] at hvneg
          linarith
        · intro hqneg
          rw [hv, if_pos hqneg]
          push_cast
          nlinarith
      rcases hEcases with hEA | ⟨hEB, hlB⟩
      · have hx_lo52 : ((2 ^ 52 : Int) : ℚ) ≤ x := by
          rw [show l - E = ((52 : Nat) : Int) by omega, two_zpow_cast] at hx_lo
          exact hx_lo
        have hx_hi53 : x < ((2 ^ 53 : Int) : ℚ) := by
          rw [show l + 1 - E = ((53 : Nat) : Int) by omega, two_zpow_cast] at hx_hi
          exact hx_hi
        have hm_lo : (2 ^ 52 : Int) ≤ m := by
          by_contra hcon
          push_neg at hcon
          have hcon2 : m + 1 ≤ 2 ^ 52 := by omega
          have h1 : (m : ℚ) + 1 ≤ ((2 ^ 52 : Int) : ℚ) := by exact_mod_cast hcon2
          linarith [hdist.1]
        have hm_hi : m ≤ 2 ^ 53 := by
          by_contra hcon
          push_neg at hcon
          have hcon2 : 2 ^ 53 + 1 ≤ m := by omega
          have h1 : ((2 ^ 53 : Int) : ℚ) + 1 ≤ (m : ℚ) := by exact_mod_cast hcon2
          linarith [hdist.2]
        by_cases hm53 : m = 2 ^ 53
        · have habs2 : |v| = (2 : ℚ) ^ (l + 1) := by
            rw [habs_v, hm53,
              show ((2 ^ 53 : Int) : ℚ) = (2 : ℚ) ^ ((53 : Nat) : Int) from
                (two_zpow_cast 53).symm,
              ← zpow_add₀ (two_ne_zero : (2 : ℚ) ≠ 0)]
            congr 1
            omega
          have hlog_v : ratLog2 v = l + 1 :=
            ratLog2_unique hv_ne (le_of_eq habs2.symm)
              (by rw [habs2]; exact zpow_lt_zpow_right₀ one_lt_two (by omega))
          have hEv : dblExp v = E + 1 := by
            unfold dblExp
            rw [hlog_v, max_eq_right (by omega)]
            omega
          have hmv : dblMan v = 2 ^ 52 := by
            unfold dblMan
            rw [ratAbs_eq_abs, twoPowQ_eq, hEv, habs2,
              show (2 : ℚ) ^ (l + 1) / (2 : ℚ) ^ (E + 1) = (2 : ℚ) ^ ((52 : Nat) : Int) from by
                rw [← zpow_sub₀ (two_ne_zero : (2 : ℚ) ≠ 0)]; congr 1; omega,
              two_zpow_cast]
            exact nearestEven_intCast _
          unfold roundDouble
          rw [if_neg hv_ne, hmv, hEv, twoPowQ_eq, twoPowQ_eq]
          have hval : ((2 ^ 52 : Int) : ℚ) * (2 : ℚ) ^ (E + 1) = (m : ℚ) * (2 : ℚ) ^ E := by
            rw [hm53]
            push_cast
            rw [zpow_add₀ (two_ne_zero : (2 : ℚ) ≠ 0)]
            ring
          rw [if_pos (by rw [hval]; exact hov)]
          congr 1
          by_cases hqs : q < 0
          · rw [if_pos (hsign.mpr hqs), hv, if_pos hqs, hm53]
            push_cast
            rw [zpow_add₀ (two_ne_zero : (2 : ℚ) ≠ 0)]
            ring
          · rw [if_neg (fun hc => hqs (hsign.mp hc)), hv, if_neg hqs, hm53]
            push_cast
            rw [zpow_add₀ (two_ne_zero : (2 : ℚ) ≠ 0)]
            ring
        · have hm_hi2 : m < 2 ^ 53 := by omega
          have hlog_v : ratLog2 v = l := by
            refine ratLog2_unique hv_ne ?_ ?_
            · rw [habs_v]
              calc (2 : ℚ) ^ l = ((2 ^ 52 : Int) : ℚ) * (2 : ℚ) ^ (l - 52) := by
                    rw [show ((2 ^ 52 : Int) : ℚ) = (2 : ℚ) ^ ((52 : Nat) : Int) from
                        (two_zpow_cast 52).symm,
                      ← zpow_add₀ (two_ne_zero : (2 : ℚ) ≠ 0)]
                    congr 1
                    omega
                _ ≤ (m : ℚ) * (2 : ℚ) ^ (l - 52) :=
                    mul_le_mul_of_nonneg_right (by exact_mod_cast hm_lo)
                      (le_of_lt (zpow_pos (by norm_num) _))
                _ = (m : ℚ) * (2 : ℚ) ^ E := by rw [hEA]
            · rw [habs_v]
              calc (m : ℚ) * (2 : ℚ) ^ E < ((2 ^ 53 : Int) : ℚ) * (2 : ℚ) ^ E :=
                    mul_lt_mul_of_pos_right (by exact_mod_cast hm_hi2) h2E_pos
                _ = (2 : ℚ) ^ (l + 1) := by
                    rw [show ((2 ^ 53 : Int) : ℚ) = (2 : ℚ) ^ ((53 : Nat) : Int) from
                        (two_zpow_cast 53).symm,
                      ← zpow_add₀ (two_ne_zero : (2 : ℚ) ≠ 0)]
                    congr 1
                    omega
          have hEv : dblExp v = E := by
            unfold dblExp
            rw [hlog_v, max_eq_right (by omega)]
            omega
          have hmv : dblMan v = m := by
            unfold dblMan
            rw [ratAbs_eq_abs, twoPowQ_eq, hEv, habs_v,
              mul_div_cancel_right₀ _ (ne_of_gt h2E_pos)]
            exact nearestEven_intCast m
          unfold roundDouble
          rw [if_neg hv_ne, hmv, hEv, twoPowQ_eq, twoPowQ_eq, if_pos hov]
          congr 1
          by_cases hqs : q < 0
          · rw [if_pos (hsign.mpr hqs), hv, if_pos hqs]
          · rw [if_neg (fun hc => hqs (hsign.mp hc)), hv, if_neg hqs]
      · have hx_hi52 : x < ((2 ^ 52 : Int) : ℚ) := by
          have hstep : (2 : ℚ) ^ (l + 1 - E) ≤ (2 : ℚ) ^ ((52 : Nat) : Int) :=
            zpow_le_zpow_right₀ one_le_two (by omega)
          rw [two_zpow_cast] at hstep
          exact lt_of_lt_of_le hx_hi hstep
        have hm_hi : m ≤ 2 ^ 52 := by
          by_contra hcon
          push_neg at hcon
          have hcon2 : 2 ^ 52 + 1 ≤ m := by omega
          have h1 : ((2 ^ 52 : Int) : ℚ) + 1 ≤ (m : ℚ) := by exact_mod_cast hcon2
          linarith [hdist.2]
        have hlog_v_le : ratLog2 v ≤ -1022 := by
          obtain ⟨hv₁, hv₂⟩ := ratLog2_spec hv_ne
          by_contra hcon
          push_neg at hcon
          have hub : |v| ≤ (2 : ℚ) ^ (-1022 : Int) := by
            rw [habs_v, hEB]
            calc (m : ℚ) * (2 : ℚ) ^ (-1074 : Int)
                ≤ ((2 ^ 52 : Int) : ℚ) * (2 : ℚ) ^ (-1074 : Int) :=
                  mul_le_mul_of_nonneg_right (by exact_mod_cast hm_hi)
                    (le_of_lt (zpow_pos (by norm_num) _))
              _ = (2 : ℚ) ^ (-1022 : Int) := by
                  rw [show ((2 ^ 52 : Int) : ℚ) = (2 : ℚ) ^ ((52 : Nat) : Int) from
                      (two_zpow_cast 52).symm,
                    ← zpow_add₀ (two_ne_zero : (2 : ℚ) ≠ 0)]
                  congr 1
          have hge : (2 : ℚ) ^ (-1021 : Int) ≤ (2 : ℚ) ^ ratLog2 v :=
            zpow_le_zpow_right₀ one_le_two (by omega)
          have hlt : (2 : ℚ) ^ (-1022 : Int) < (2 : ℚ) ^ (-1021 : Int) :=
            zpow_lt_zpow_right₀ one_lt_two (by omega)
          linarith
        have hEv : dblExp v = E := by
          unfold dblExp
          rw [max_eq_left (by omega), hEB]
        have hmv : dblMan v = m := by
          unfold dblMan
          rw [ratAbs_eq_abs, twoPowQ_eq, hEv, habs_v,
            mul_div_cancel_right₀ _ (ne_of_gt h2E_pos)]
          exact nearestEven_intCast m
        unfold roundDouble
        rw [if_neg hv_ne, hmv, hEv, twoPowQ_eq, twoPowQ_eq, if_pos hov]
        congr 1
        by_cases hqs : q < 0
        · rw [if_pos (hsign.mpr hqs), hv, if_pos hqs]
        · rw [if_neg (fun hc => hqs (hsign.mp hc)), hv, if_neg hqs]

/-! ### The digit layout parses back to its exact value -/

theorem takeWhile_all {p : Char → Bool} {l : List Char} (h : ∀ c ∈ l, p c = true) :
    l.takeWhile p = l := by
  induction l with
  | nil => rfl
  | cons c rest ih =>
    simp only [List.takeWhile_cons, h c (by simp), if_true]
    rw [ih (fun d hd => h d (by simp [hd]))]

theorem dropWhile_all {p : Char → Bool} {l : List Char} (h : ∀ c ∈ l, p c = true) :
    l.dropWhile p = [] := by
  induction l with
  | nil => rfl
  | cons c rest ih =>
    simp only [List.dropWhile_cons, h c (by simp)]
    exact ih (fun d hd => h d (by simp [hd]))

theorem takeWhile_append_stop {p : Char → Bool} {w : List Char} (hw : ∀ c ∈ w, p c = true)
    {c : Char} (hc : p c = false) (x : List Char) :
    (w ++ c :: x).takeWhile p = w := by
  induction w with
  | nil => simp [List.takeWhile_cons, hc]
  | cons d rest ih =>
    simp only [List.cons_append, List.takeWhile_cons, hw d (by simp), if_true]
    rw [ih (fun e he => hw e (by simp [he]))]

theorem dropWhile_append_stop {p : Char → Bool} {w : List Char} (hw : ∀ c ∈ w, p c = true)
    {c : Char} (hc : p c = false) (x : List Char) :
    (w ++ c :: x).dropWhile p = c :: x := by
  rw [dropWhile_append_of_all _ hw]
  exact dropWhile_eq_self_of_head hc

theorem digitsVal_replicate_zero (z : Nat) : digitsVal (List.replicate z '0') = 0 := by
  induction z with
  | zero => rfl
  | succ m ih =>
    rw [List.replicate_succ, digitsVal, ih, show '0'.toNat - 48 = 0 from rfl]
    ring

theorem digitsVal_cons_zero (y : List Char) : digitsVal ('0' :: y) = digitsVal y := by
  rw [digitsVal, show '0'.toNat - 48 = 0 from rfl]
  ring

theorem replicate_zero_digits (z : Nat) : ∀ c ∈ List.replicate z '0', isDigit c = true := by
  intro c hc
  rw [List.eq_of_mem_replicate hc]
  decide

theorem parseSignedDigits_expChars (z : Int) : parseSignedDigits (expChars z) = some z := by
  by_cases hz : z < 0
  · obtain ⟨hne, hdig, hval⟩ := natToChars_spec z.natAbs
    have he : expChars z = '-' :: natToChars z.natAbs := by rw [expChars, if_pos hz]
    rw [he]
    show (if natToChars z.natAbs ≠ [] ∧ (natToChars z.natAbs).all isDigit
        then some (-((digitsVal (natToChars z.natAbs) : Nat) : Int)) else none) = some z
    rw [if_pos ⟨hne, List.all_eq_true.mpr hdig⟩, hval]
    congr 1
    omega
  · obtain ⟨hne, hdig, hval⟩ := natToChars_spec z.toNat
    have he : expChars z = '+' :: natToChars z.toNat := by rw [expChars, if_neg hz]
    rw [he]
    show (if natToChars z.toNat ≠ [] ∧ (natToChars z.toNat).all isDigit
        then some ((digitsVal (natToChars z.toNat) : Nat) : Int) else none) = some z
    rw [if_pos ⟨hne, List.all_eq_true.mpr hdig⟩, hval]
    congr 1
    omega

theorem parseExponentPart_nil : parseExponentPart [] = some 0 := rfl

theorem parseExponentPart_e (l : List Char) :
    parseExponentPart ('e' :: l) = parseSignedDigits l := by
  show (if 'e' = 'e' ∨ 'e' = 'E' then parseSignedDigits l else none) = parseSignedDigits l
  rw [if_pos (Or.inl rfl)]

theorem parseUnsignedDecimal_none {l : List Char} (hdp : l.dropWhile isDigit = []) :
    parseUnsignedDecimal l =
      if l.takeWhile isDigit = [] then none
      else (parseExponentPart []).map (decLiteralVal (l.takeWhile isDigit) []) := by
  unfold parseUnsignedDecimal
  rw [hdp]

theorem parseUnsignedDecimal_dot {l : List Char} {r : List Char}
    (hdp : l.dropWhile isDigit = '.' :: r) :
    parseUnsignedDecimal l =
      if l.takeWhile isDigit = [] ∧ r.takeWhile isDigit = [] then none
      else
        (parseExponentPart (r.dropWhile isDigit)).map
          (decLiteralVal (l.takeWhile isDigit) (r.takeWhile isDigit)) := by
  unfold parseUnsignedDecimal
  rw [hdp]
  split
  · next rest₂ heq =>
    injection heq with h1 h2
    subst h2
    rfl
  · next hno => exact absurd rfl (hno r)

theorem parseUnsignedDecimal_not_dot {l : List Char} {c : Char} {r : List Char}
    (hdp : l.dropWhile isDigit = c :: r) (hc : c ≠ '.') :
    parseUnsignedDecimal l =
      if l.takeWhile isDigit = [] then none
      else (parseExponentPart (c :: r)).map (decLiteralVal (l.takeWhile isDigit) []) := by
  unfold parseUnsignedDecimal
  rw [hdp]
  split
  · next rest₂ heq =>
    exact absurd (List.head_eq_of_cons_eq heq) hc
  · rfl

theorem parseUnsignedDecimal_layout {ds : List Char} (hne : ds ≠ [])
    (hdig : ∀ c ∈ ds, isDigit c = true) (n : Int) :
    parseUnsignedDecimal (layoutDigits ds n) =
      some ((digitsVal ds : ℚ) * (10 : ℚ) ^ (n - (ds.length : Int))) := by
  unfold layoutDigits
  by_cases hb1 : (ds.length : Int) ≤ n ∧ n ≤ 21
  · rw [if_pos hb1]
    have hall : ∀ c ∈ ds ++ List.replicate (n - (ds.length : Int)).toNat '0',
        isDigit c = true := by
      intro c hc
      rcases List.mem_append.mp hc with h | h
      · exact hdig c h
      · exact replicate_zero_digits _ c h
    rw [parseUnsignedDecimal_none (dropWhile_all hall), takeWhile_all hall,
      if_neg (by simp [hne]), parseExponentPart_nil, Option.map_some']
    congr 1
    unfold decLiteralVal
    rw [List.append_nil, digitsVal_append, digitsVal_replicate_zero,
      List.length_replicate, List.length_nil, tenPowQ_eq]
    push_cast
    rw [show n - (ds.length : Int) = (((n - (ds.length : Int)).toNat : Nat) : Int) by omega,
      zpow_natCast]
    simp
  · rw [if_neg hb1]
    by_cases hb2 : 0 < n ∧ n ≤ 21
    · rw [if_pos hb2]
      have hnk : n < (ds.length : Int) := by
        by_contra hge
        push_neg at hge
        exact hb1 ⟨hge, hb2.2⟩
      have hnt1 : 1 ≤ n.toNat := by omega
      have hntk : n.toNat < ds.length := by omega
      have htake_dig : ∀ c ∈ ds.take n.toNat, isDigit c = true :=
        fun c hc => hdig c (List.mem_of_mem_take hc)
      have hdrop_dig : ∀ c ∈ ds.drop n.toNat, isDigit c = true :=
        fun c hc => hdig c (List.mem_of_mem_drop hc)
      have hdp : (ds.take n.toNat ++ '.' :: ds.drop n.toNat).dropWhile isDigit =
          '.' :: ds.drop n.toNat := dropWhile_append_stop htake_dig (by decide) _
      rw [parseUnsignedDecimal_dot hdp, takeWhile_append_stop htake_dig (by decide),
        takeWhile_all hdrop_dig, dropWhile_all hdrop_dig]
      have hipne : ds.take n.toNat ≠ [] := by
        intro h0
        have hlen := congrArg List.length h0
        simp only [List.length_take, List.length_nil] at hlen
        omega
      rw [if_neg (by rintro ⟨h1, _⟩; exact hipne h1), parseExponentPart_nil, Option.map_some']
      congr 1
      unfold decLiteralVal
      rw [List.take_append_drop, tenPowQ_eq, List.length_drop]
      rw [show (0 : Int) - ((ds.length - n.toNat : Nat) : Int) = n - (ds.length : Int) by omega]
    · rw [if_neg hb2]
      by_cases hb3 : -6 < n ∧ n ≤ 0
      · rw [if_pos hb3]
        have h0dig : isDigit '0' = true := by decide
        have hdotdig : isDigit '.' = false := by decide
        have hydig : ∀ c ∈ List.replicate (-n).toNat '0' ++ ds, isDigit c = true := by
          intro c hc
          rcases List.mem_append.mp hc with h | h
          · exact replicate_zero_digits _ c h
          · exact hdig c h
        have hdp : ('0' :: '.' :: (List.replicate (-n).toNat '0' ++ ds)).dropWhile isDigit =
            '.' :: (List.replicate (-n).toNat '0' ++ ds) := by
          rw [List.dropWhile_cons, if_pos h0dig, List.dropWhile_cons, if_neg (by rw [hdotdig]; simp)]
        have htk : ('0' :: '.' :: (List.replicate (-n).toNat '0' ++ ds)).takeWhile isDigit =
            ['0'] := by
          rw [List.takeWhile_cons, if_pos h0dig, List.takeWhile_cons, if_neg (by rw [hdotdig]; simp)]
        rw [parseUnsignedDecimal_dot hdp, htk, takeWhile_all hydig, dropWhile_all hydig]
        rw [if_neg (by rintro ⟨h1, _⟩; exact absurd h1 (by simp)), parseExponentPart_nil,
          Option.map_some']
        congr 1
        unfold decLiteralVal
        rw [show ['0'] ++ (List.replicate (-n).toNat '0' ++ ds) =
            '0' :: (List.replicate (-n).toNat '0' ++ ds) from rfl,
          digitsVal_cons_zero, digitsVal_append, digitsVal_replicate_zero,
          List.length_append, List.length_replicate, tenPowQ_eq]
        push_cast
        rw [show (0 : Int) - (((-n).toNat : Int) + (ds.length : Int)) = n - (ds.length : Int)
          by omega]
        ring
      · rw [if_neg hb3]
        have hedig : isDigit 'e' = false := by decide
        cases ds with
        | nil => exact absurd rfl hne
        | cons d₁ t =>
          have hd₁ : isDigit d₁ = true := hdig d₁ (by simp)
          cases t with
          | nil =>
            have hdp : (d₁ :: 'e' :: expChars (n - 1)).dropWhile isDigit =
                'e' :: expChars (n - 1) := by
              rw [List.dropWhile_cons, if_pos hd₁, List.dropWhile_cons,
                if_neg (by rw [hedig]; simp)]
            have htk : (d₁ :: 'e' :: expChars (n - 1)).takeWhile isDigit = [d₁] := by
              rw [List.takeWhile_cons, if_pos hd₁, List.takeWhile_cons,
                if_neg (by rw [hedig]; simp)]
            rw [parseUnsignedDecimal_not_dot hdp (by decide), htk,
              if_neg (by simp), parseExponentPart_e, parseSignedDigits_expChars,
              Option.map_some']
            congr 1
            unfold decLiteralVal
            rw [List.append_nil, List.length_nil, tenPowQ_eq]
            rw [show n - 1 - ((0 : Nat) : Int) = n - (([d₁] : List Char).length : Int) by
              simp]
          | cons d₂ t₂ =>
            have htake1 : (d₁ :: d₂ :: t₂).take 1 = [d₁] := rfl
            have hdrop1 : (d₁ :: d₂ :: t₂).drop 1 = d₂ :: t₂ := rfl
            have hassoc : ((d₁ :: d₂ :: t₂).take 1 ++ '.' :: (d₁ :: d₂ :: t₂).drop 1) ++
                'e' :: expChars (n - 1) =
                [d₁] ++ '.' :: (d₂ :: t₂ ++ 'e' :: expChars (n - 1)) := by
              rw [htake1, hdrop1]
              simp
            have hd1dig : ∀ c ∈ [d₁], isDigit c = true := by
              intro c hc
              rw [List.mem_singleton.mp hc]
              exact hd₁
            have hd2dig : ∀ c ∈ d₂ :: t₂, isDigit c = true :=
              fun c hc => hdig c (by simp [List.mem_cons.mp hc])
            have hdp : (([d₁] ++ '.' :: (d₂ :: t₂ ++ 'e' :: expChars (n - 1)))).dropWhile
                isDigit = '.' :: (d₂ :: t₂ ++ 'e' :: expChars (n - 1)) :=
              dropWhile_append_stop hd1dig (by decide) _
            have hdp2 : (d₂ :: t₂ ++ 'e' :: expChars (n - 1)).dropWhile isDigit =
                'e' :: expChars (n - 1) := dropWhile_append_stop hd2dig hedig _
            have htk2 : (d₂ :: t₂ ++ 'e' :: expChars (n - 1)).takeWhile isDigit =
                d₂ :: t₂ := takeWhile_append_stop hd2dig hedig _
            rw [show ((d₁ :: d₂ :: t₂).take 1 ++ '.' :: (d₁ :: d₂ :: t₂).drop 1) ++
                'e' :: expChars (n - 1) =
                [d₁] ++ '.' :: (d₂ :: t₂ ++ 'e' :: expChars (n - 1)) from hassoc]
            rw [parseUnsignedDecimal_dot hdp, takeWhile_append_stop hd1dig (by decide),
              htk2, hdp2, if_neg (by rintro ⟨h1, _⟩; exact absurd h1 (by simp)),
              parseExponentPart_e, parseSignedDigits_expChars, Option.map_some']
            congr 1
            unfold decLiteralVal
            rw [show ([d₁] ++ d₂ :: t₂ : List Char) = d₁ :: d₂ :: t₂ from rfl, tenPowQ_eq]
            rw [show n - 1 - ((d₂ :: t₂ : List Char).length : Int) =
                n - ((d₁ :: d₂ :: t₂ : List Char).length : Int) by
              simp only [List.length_cons]
              push_cast
              ring]

theorem parseUnsignedDecimal_formatDigits {s : Nat} (p : Int) :
    parseUnsignedDecimal (formatDigits s p) = some ((s : ℚ) * (10 : ℚ) ^ p) := by
  obtain ⟨hne, hdig, hval⟩ := natToChars_spec s
  unfold formatDigits
  rw [parseUnsignedDecimal_layout hne hdig, hval,
    show p + ((natToChars s).length : Int) - ((natToChars s).length : Int) = p by ring]

/-! ### Soundness of the digit search -/

theorem candRange_sound {v lo hi : ℚ} {k : Nat} {p : Int} {sp : Nat × Int}
    (h : sp ∈ candRange v lo hi k p) :
    1 ≤ sp.1 ∧ roundDouble ((sp.1 : ℚ) * tenPowQ sp.2) = some v := by
  unfold candRange at h
  simp only [List.mem_filter, Bool.and_eq_true, decide_eq_true_eq] at h
  exact h.2

theorem candidatesFor_sound {v lo hi : ℚ} {k : Nat} {sp : Nat × Int}
    (h : sp ∈ candidatesFor v lo hi k) :
    1 ≤ sp.1 ∧ roundDouble ((sp.1 : ℚ) * tenPowQ sp.2) = some v := by
  simp only [candidatesFor, List.mem_append] at h
  rcases h with (((h | h) | h) | h) | h <;> exact candRange_sound h

theorem foldl_closer_mem (v : ℚ) (c : Nat × Int) (rest : List (Nat × Int)) :
    rest.foldl (fun b x => if closerCand v x b then x else b) c ∈ c :: rest := by
  induction rest generalizing c with
  | nil => simp
  | cons y t ih =>
    simp only [List.foldl_cons]
    by_cases hf : closerCand v y c
    · rw [if_pos hf]
      have h := ih y
      simp only [List.mem_cons] at h ⊢
      tauto
    · rw [if_neg hf]
      have h := ih c
      simp only [List.mem_cons] at h ⊢
      tauto

theorem bestCandidate_mem {v : ℚ} {L : List (Nat × Int)} {sp : Nat × Int}
    (h : bestCandidate v L = some sp) : sp ∈ L := by
  cases L with
  | nil => exact absurd h (by simp [bestCandidate])
  | cons c rest =>
    rw [bestCandidate, Option.some_inj] at h
    rw [← h]
    exact foldl_closer_mem v c rest

theorem searchDigits_sound {v lo hi : ℚ} :
    ∀ (fuel k : Nat) {sp : Nat × Int}, searchDigits v lo hi fuel k = some sp →
      1 ≤ sp.1 ∧ roundDouble ((sp.1 : ℚ) * tenPowQ sp.2) = some v := by
  intro fuel
  induction fuel with
  | zero =>
    intro k sp h
    exact absurd h (by rw [searchDigits]; simp)
  | succ f ih =>
    intro k sp h
    rw [searchDigits] at h
    rcases hb : bestCandidate v (candidatesFor v lo hi k) with _ | sp'
    · rw [hb] at h
      have h' : searchDigits v lo hi f (k + 1) = some sp := h
      exact ih (k + 1) h'
    · rw [hb] at h
      have h' : some sp' = some sp := h
      injection h' with h''
      subst h''
      exact candidatesFor_sound (bestCandidate_mem hb)

/-! ### Negating a rational commutes with double rounding -/

theorem ratAbs_neg (q : ℚ) : ratAbs (-q) = ratAbs q := by
  rw [ratAbs_eq_abs, ratAbs_eq_abs, abs_neg]

theorem ratLog2_neg (q : ℚ) : ratLog2 (-q) = ratLog2 q := by
  simp only [ratLog2, Rat.neg_num, Rat.neg_den, Int.natAbs_neg, ratAbs_neg]

theorem dblExp_neg (q : ℚ) : dblExp (-q) = dblExp q := by
  unfold dblExp
  rw [ratLog2_neg]

theorem dblMan_neg (q : ℚ) : dblMan (-q) = dblMan q := by
  unfold dblMan
  rw [ratAbs_neg, dblExp_neg]

theorem roundDouble_neg (q : ℚ) : roundDouble (-q) = (roundDouble q).map Neg.neg := by
  by_cases h0 : q = 0
  · subst h0
    simp [roundDouble]
  · unfold roundDouble
    rw [if_neg h0, if_neg (fun h => h0 (neg_eq_zero.mp h)), dblMan_neg, dblExp_neg]
    by_cases hov : (dblMan q : ℚ) * twoPowQ (dblExp q) < twoPowQ 1024
    · rw [if_pos hov, if_pos hov, Option.map_some']
      congr 1
      rcases lt_trichotomy q 0 with h | h | h
      · rw [if_neg (by linarith), if_pos h]
        push_cast
        ring
      · exact absurd h h0
      · rw [if_pos (by linarith), if_neg (by linarith)]
        push_cast
        ring
    · rw [if_neg hov, if_neg hov]
      rfl

/-! ### The denominator of a rounded double is a power of two -/

theorem den_dvd_two_pow {v : ℚ} (hv : roundDouble v = some v) :
    ∃ i, v.den = 2 ^ i := by
  by_cases h0 : v = 0
  · exact ⟨0, by rw [h0]; rfl⟩
  · unfold roundDouble at hv
    rw [if_neg h0] at hv
    by_cases hov : (dblMan v : ℚ) * twoPowQ (dblExp v) < twoPowQ 1024
    · rw [if_pos hov, Option.some_inj] at hv
      obtain ⟨E, hE'⟩ : ∃ z, dblExp v = z := ⟨_, rfl⟩
      obtain ⟨c, hc'⟩ : ∃ z : Int, (if v < 0 then -dblMan v else dblMan v) = z := ⟨_, rfl⟩
      rw [hE', hc'] at hv
      by_cases hE : 0 ≤ E
      · refine ⟨0, ?_⟩
        have hint : v = ((c * ((2 ^ E.toNat : Nat) : Int) : Int) : ℚ) := by
          rw [← hv, twoPowQ, if_pos hE]
          push_cast
          ring
        rw [hint]
        exact Rat.den_intCast _
      · have hveq : v = Rat.divInt c (((2 ^ (-E).toNat : Nat) : Int)) := by
          rw [Rat.divInt_eq_div, ← hv, twoPowQ, if_neg hE]
          push_cast
          ring
        have hdvd : (v.den : Int) ∣ ((2 ^ (-E).toNat : Nat) : Int) := by
          rw [hveq]
          exact Rat.den_dvd _ _
        have hdvd' : v.den ∣ 2 ^ (-E).toNat := by exact_mod_cast hdvd
        obtain ⟨i, _, hi⟩ := (Nat.dvd_prime_pow Nat.prime_two).mp hdvd'
        exact ⟨i, hi⟩
    · rw [if_neg hov] at hv
      exact absurd hv (by simp)

theorem roundDouble_den_log {v : ℚ} (hv : roundDouble v = some v) :
    v.den = 2 ^ natLog2 v.den := by
  obtain ⟨i, hi⟩ := den_dvd_two_pow hv
  rw [hi, natLog2_pow]

theorem fallback_value {v : ℚ} (hv0 : 0 < v) (hv : roundDouble v = some v) :
    ((v.num.toNat * 5 ^ natLog2 v.den : Nat) : ℚ) * tenPowQ (-(natLog2 v.den : Int)) = v ∧
      1 ≤ v.num.toNat * 5 ^ natLog2 v.den := by
  have hden : v.den = 2 ^ natLog2 v.den := roundDouble_den_log hv
  have hnum : 0 < v.num := Rat.num_pos.mpr hv0
  have hdq : ((v.den : ℚ)) = 2 ^ natLog2 v.den := by
    conv_lhs => rw [hden]
    push_cast
    ring
  have hd0 : ((v.den : ℚ)) ≠ 0 := Nat.cast_ne_zero.mpr v.den_nz
  have hvd : v * (v.den : ℚ) = (v.num : ℚ) :=
    ((div_eq_iff hd0).mp (Rat.num_div_den v)).symm
  have key : v * (10 : ℚ) ^ natLog2 v.den = (v.num : ℚ) * 5 ^ natLog2 v.den := by
    calc v * (10 : ℚ) ^ natLog2 v.den
        = v * ((2 : ℚ) ^ natLog2 v.den * 5 ^ natLog2 v.den) := by
          rw [← mul_pow]
          norm_num
      _ = (v * (v.den : ℚ)) * 5 ^ natLog2 v.den := by rw [hdq]; ring
      _ = (v.num : ℚ) * 5 ^ natLog2 v.den := by rw [hvd]
  constructor
  · have h10pos : (0 : ℚ) < (10 : ℚ) ^ natLog2 v.den := by positivity
    have htn : ((v.num.toNat * 5 ^ natLog2 v.den : Nat) : ℚ) =
        (v.num : ℚ) * 5 ^ natLog2 v.den := by
      push_cast
      rw [show ((v.num.toNat : Nat) : ℚ) = ((v.num.toNat : Int) : ℚ) from by push_cast; ring,
        Int.toNat_of_nonneg hnum.le]
    rw [tenPowQ_eq, zpow_neg, zpow_natCast, htn, ← key]
    exact mul_inv_cancel_right₀ h10pos.ne' v
  · have : 0 < v.num.toNat * 5 ^ natLog2 v.den :=
      Nat.mul_pos (by omega) (Nat.pow_pos (by norm_num))
    omega

theorem toStringPos_spec {v : ℚ} (hv0 : 0 < v) (hv : roundDouble v = some v) :
    ∃ s p, toStringPos v = formatDigits s p ∧ 1 ≤ s ∧
      roundDouble ((s : ℚ) * tenPowQ p) = some v := by
  unfold toStringPos
  rcases hsd : searchDigits v (v - twoPowQ (dblExp v)) (v + twoPowQ (dblExp v)) 17 1 with
    _ | ⟨s, p⟩
  · obtain ⟨hval, hpos⟩ := fallback_value hv0 hv
    refine ⟨v.num.toNat * 5 ^ natLog2 v.den, -(natLog2 v.den : Int), rfl, hpos, ?_⟩
    rw [hval]
    exact hv
  · obtain ⟨h1, h2⟩ := searchDigits_sound 17 1 hsd
    exact ⟨s, p, rfl, h1, h2⟩

/-! ### The shape and character classes of a printed double -/

theorem layoutDigits_head {ds : List Char} (hne : ds ≠ [])
    (hdig : ∀ c ∈ ds, isDigit c = true) (n : Int) :
    ∃ d r, layoutDigits ds n = d :: r ∧ isDigit d = true := by
  cases ds with
  | nil => exact absurd rfl hne
  | cons d₁ t =>
    have hd₁ : isDigit d₁ = true := hdig d₁ (by simp)
    unfold layoutDigits
    by_cases hb1 : ((d₁ :: t : List Char).length : Int) ≤ n ∧ n ≤ 21
    · rw [if_pos hb1]
      exact ⟨d₁, t ++ List.replicate (n - (d₁ :: t : List Char).length).toNat '0',
        by simp, hd₁⟩
    · rw [if_neg hb1]
      by_cases hb2 : 0 < n ∧ n ≤ 21
      · rw [if_pos hb2]
        rw [show n.toNat = (n.toNat - 1) + 1 by omega, List.take_succ_cons]
        exact ⟨d₁, t.take (n.toNat - 1) ++
          '.' :: (d₁ :: t).drop ((n.toNat - 1) + 1), by simp, hd₁⟩
      · rw [if_neg hb2]
        by_cases hb3 : -6 < n ∧ n ≤ 0
        · rw [if_pos hb3]
          exact ⟨'0', '.' :: (List.replicate (-n).toNat '0' ++ d₁ :: t), rfl, by decide⟩
        · rw [if_neg hb3]
          cases t with
          | nil => exact ⟨d₁, 'e' :: expChars (n - 1), rfl, hd₁⟩
          | cons d₂ t₂ =>
            exact ⟨d₁, ('.' :: (d₂ :: t₂)) ++ 'e' :: expChars (n - 1), by simp, hd₁⟩

theorem expChars_chars (z : Int) :
    ∀ c ∈ expChars z, isDigit c = true ∨ c = '+' ∨ c = '-' := by
  intro c hc
  unfold expChars at hc
  by_cases hz : z < 0
  · rw [if_pos hz] at hc
    rcases List.mem_cons.mp hc with h | h
    · exact Or.inr (Or.inr h)
    · exact Or.inl ((natToChars_spec z.natAbs).2.1 c h)
  · rw [if_neg hz] at hc
    rcases List.mem_cons.mp hc with h | h
    · exact Or.inr (Or.inl h)
    · exact Or.inl ((natToChars_spec z.toNat).2.1 c h)

theorem layoutDigits_chars {ds : List Char} (hdig : ∀ c ∈ ds, isDigit c = true) (n : Int) :
    ∀ c ∈ layoutDigits ds n,
      isDigit c = true ∨ c = '.' ∨ c = 'e' ∨ c = '+' ∨ c = '-' := by
  intro c hc
  unfold layoutDigits at hc
  by_cases hb1 : ((ds.length : Int)) ≤ n ∧ n ≤ 21
  · rw [if_pos hb1] at hc
    rcases List.mem_append.mp hc with h | h
    · exact Or.inl (hdig c h)
    · exact Or.inl (replicate_zero_digits _ c h)
  · rw [if_neg hb1] at hc
    by_cases hb2 : 0 < n ∧ n ≤ 21
    · rw [if_pos hb2] at hc
      rcases List.mem_append.mp hc with h | h
      · exact Or.inl (hdig c (List.mem_of_mem_take h))
      · rcases List.mem_cons.mp h with h' | h'
        · exact Or.inr (Or.inl h')
        · exact Or.inl (hdig c (List.mem_of_mem_drop h'))
    · rw [if_neg hb2] at hc
      by_cases hb3 : -6 < n ∧ n ≤ 0
      · rw [if_pos hb3] at hc
        rcases List.mem_cons.mp hc with h' | h'
        · exact Or.inl (by rw [h']; decide)
        · rcases List.mem_cons.mp h' with h'' | h''
          · exact Or.inr (Or.inl h'')
          · rcases List.mem_append.mp h'' with h₃ | h₃
            · exact Or.inl (replicate_zero_digits _ c h₃)
            · exact Or.inl (hdig c h₃)
      · rw [if_neg hb3] at hc
        have hexp : c ∈ expChars (n - 1) →
            isDigit c = true ∨ c = '.' ∨ c = 'e' ∨ c = '+' ∨ c = '-' := by
          intro h
          rcases expChars_chars (n - 1) c h with h' | h' | h'
          · exact Or.inl h'
          · exact Or.inr (Or.inr (Or.inr (Or.inl h')))
          · exact Or.inr (Or.inr (Or.inr (Or.inr h')))
        rcases hds : ds with _ | ⟨d₁, t⟩
        · rw [hds] at hc
          have hc' : c ∈ ('.' :: 'e' :: expChars (n - 1)) := hc
          rcases List.mem_cons.mp hc' with h | h
          · exact Or.inr (Or.inl h)
          · rcases List.mem_cons.mp h with h' | h'
            · exact Or.inr (Or.inr (Or.inl h'))
            · exact hexp h'
        · rw [hds] at hc
          cases t with
          | nil =>
            rcases List.mem_cons.mp hc with h | h
            · exact Or.inl (hdig c (by rw [hds, h]; simp))
            · rcases List.mem_cons.mp h with h' | h'
              · exact Or.inr (Or.inr (Or.inl h'))
              · exact hexp h'
          | cons d₂ t₂ =>
            rcases List.mem_append.mp hc with h | h
            · rcases List.mem_append.mp h with h' | h'
              · exact Or.inl (hdig c (by rw [hds]; exact List.mem_of_mem_take h'))
              · rcases List.mem_cons.mp h' with h'' | h''
                · exact Or.inr (Or.inl h'')
                · exact Or.inl (hdig c (by rw [hds]; exact List.mem_of_mem_drop h''))
            · rcases List.mem_cons.mp h with h' | h'
              · exact Or.inr (Or.inr (Or.inl h'))
              · exact hexp h'

/-! ### Dispatching the Number conversion on a printed string -/

theorem stringToNumber_decimal {l : List Char}
    (hne : l ≠ []) (hinf : ¬(l = "Infinity".data ∨ l = "+Infinity".data))
    (hninf : l ≠ "-Infinity".data)
    (hpre : ∀ c rest, l = '0' :: c :: rest →
      ¬(c = 'x' ∨ c = 'X') ∧ ¬(c = 'o' ∨ c = 'O') ∧ ¬(c = 'b' ∨ c = 'B')) :
    stringToNumber l = parseDecimalSigned l := by
  unfold stringToNumber
  rw [if_neg hne, if_neg hinf, if_neg hninf]
  split
  · next c rest =>
    obtain ⟨h1, h2, h3⟩ := hpre c rest rfl
    rw [if_neg h1, if_neg h2, if_neg h3]
  · rfl

theorem roundToJsNum_finite {q v : ℚ} (h : roundDouble q = some v) :
    roundToJsNum q = JsNum.finite v := by
  unfold roundToJsNum
  rw [h]

theorem parseDecimalSigned_some {l : List Char} {q : ℚ}
    (hl : ∀ r, l ≠ '+' :: r) (hl2 : ∀ r, l ≠ '-' :: r)
    (h : parseUnsignedDecimal l = some q) :
    parseDecimalSigned l = roundToJsNum q := by
  unfold parseDecimalSigned
  split
  · next r' => exact absurd rfl (hl r')
  · next r' => exact absurd rfl (hl2 r')
  · rw [h]

theorem parseDecimalSigned_neg_some {r : List Char} {q : ℚ}
    (h : parseUnsignedDecimal r = some q) :
    parseDecimalSigned ('-' :: r) = roundToJsNum (-q) := by
  have hstep : parseDecimalSigned ('-' :: r) =
      match parseUnsignedDecimal r with
      | some q => roundToJsNum (-q)
      | none => JsNum.nan := rfl
  rw [hstep, h]

theorem isDigit_ne {d x : Char} (hd : isDigit d = true) (hx : isDigit x = false) :
    d ≠ x := by
  intro h
  rw [h, hx] at hd
  exact Bool.false_ne_true hd

theorem stringToNumber_format (s : Nat) (p : Int) :
    stringToNumber (formatDigits s p) = roundToJsNum ((s : ℚ) * (10 : ℚ) ^ p) := by
  obtain ⟨hne, hdig, hval⟩ := natToChars_spec s
  obtain ⟨d, r, hdr, hd⟩ :=
    layoutDigits_head hne hdig (p + ((natToChars s).length : Int))
  have hfd : formatDigits s p = d :: r := hdr
  have hguard : ∀ c, formatDigits s p = '0' :: c :: r → True := fun _ _ => trivial
  rw [stringToNumber_decimal (by rw [hfd]; simp)
    (by
      rintro (h | h)
      · rw [hfd, show ("Infinity".data : List Char) = 'I' :: "nfinity".data from rfl] at h
        injection h with h1 h2
        exact isDigit_ne hd (by decide) h1
      · rw [hfd, show ("+Infinity".data : List Char) = '+' :: "Infinity".data from rfl] at h
        injection h with h1 h2
        exact isDigit_ne hd (by decide) h1)
    (by
      intro h
      rw [hfd, show ("-Infinity".data : List Char) = '-' :: "Infinity".data from rfl] at h
      injection h with h1 h2
      exact isDigit_ne hd (by decide) h1)
    (by
      intro c rest heq
      have hcmem : c ∈ layoutDigits (natToChars s) (p + ((natToChars s).length : Int)) := by
        have : c ∈ formatDigits s p := by
          rw [heq]
          simp
        exact this
      have hclass := layoutDigits_chars hdig (p + ((natToChars s).length : Int)) c hcmem
      refine ⟨?_, ?_, ?_⟩ <;> rintro (rfl | rfl) <;> exact absurd hclass (by decide))]
  rw [parseDecimalSigned_some
    (by
      intro r' h
      rw [hfd] at h
      injection h with h1 h2
      exact isDigit_ne hd (by decide) h1)
    (by
      intro r' h
      rw [hfd] at h
      injection h with h1 h2
      exact isDigit_ne hd (by decide) h1)
    (parseUnsignedDecimal_formatDigits p)]

theorem stringToNumber_neg_format (s : Nat) (p : Int) :
    stringToNumber ('-' :: formatDigits s p) =
      roundToJsNum (-((s : ℚ) * (10 : ℚ) ^ p)) := by
  obtain ⟨hne, hdig, hval⟩ := natToChars_spec s
  obtain ⟨d, r, hdr, hd⟩ :=
    layoutDigits_head hne hdig (p + ((natToChars s).length : Int))
  have hfd : formatDigits s p = d :: r := hdr
  rw [stringToNumber_decimal (by simp)
    (by
      rintro (h | h)
      · rw [show ("Infinity".data : List Char) = 'I' :: "nfinity".data from rfl] at h
        injection h with h1 h2
        exact absurd h1 (by decide)
      · rw [show ("+Infinity".data : List Char) = '+' :: "Infinity".data from rfl] at h
        injection h with h1 h2
        exact absurd h1 (by decide))
    (by
      intro h
      rw [show ("-Infinity".data : List Char) = '-' :: "Infinity".data from rfl] at h
      injection h with h1 h2
      rw [hfd] at h2
      injection h2 with h3 h4
      exact isDigit_ne hd (by decide) h3)
    (by
      intro c rest heq
      injection heq with h1 h2
      exact absurd h1 (by decide))]
  exact parseDecimalSigned_neg_some (parseUnsignedDecimal_formatDigits p)

section

attribute [local semireducible] Rat.add Rat.mul Rat.inv Rat.sub Rat.ofScientific

/-- Printing a finite double and converting the print back with the Number
conversion recovers the double exactly. -/
theorem numberToString_stringToNumber {v : ℚ} (hv : roundDouble v = some v) :
    stringToNumber (numberToString v) = JsNum.finite v := by
  by_cases h0 : v = 0
  · subst h0
    decide
  · by_cases hneg : v < 0
    · have hnum : numberToString v = '-' :: toStringPos (-v) := by
        unfold numberToString
        rw [if_neg h0, if_pos hneg]
      have hvneg : roundDouble (-v) = some (-v) := by
        rw [roundDouble_neg, hv]
        rfl
      obtain ⟨s, p, hts, hs, hrd⟩ := toStringPos_spec (by linarith) hvneg
      rw [hnum, hts, stringToNumber_neg_format]
      apply roundToJsNum_finite
      rw [roundDouble_neg,
        show (s : ℚ) * (10 : ℚ) ^ p = (s : ℚ) * tenPowQ p from by rw [tenPowQ_eq], hrd]
      simp
    · have hpos : 0 < v := lt_of_le_of_ne (not_lt.mp hneg) (Ne.symm h0)
      have hnum : numberToString v = toStringPos v := by
        unfold numberToString
        rw [if_neg h0, if_neg hneg]
      obtain ⟨s, p, hts, hs, hrd⟩ := toStringPos_spec hpos hv
      rw [hnum, hts, stringToNumber_format]
      apply roundToJsNum_finite
      rw [show (s : ℚ) * (10 : ℚ) ^ p = (s : ℚ) * tenPowQ p from by rw [tenPowQ_eq]]
      exact hrd

end

/-! ### Every finite Number outcome is a fixed point of double rounding -/

theorem roundToJsNum_finite_fix {q x : ℚ} (h : roundToJsNum q = JsNum.finite x) :
    roundDouble x = some x := by
  unfold roundToJsNum at h
  rcases hr : roundDouble q with _ | w
  · rw [hr] at h
    have h' : (if q < 0 then JsNum.negInf else JsNum.inf) = JsNum.finite x := h
    by_cases hq : q < 0
    · rw [if_pos hq] at h'
      exact absurd h' (by simp)
    · rw [if_neg hq] at h'
      exact absurd h' (by simp)
  · rw [hr] at h
    have h' : JsNum.finite w = JsNum.finite x := h
    injection h' with h''
    subst h''
    exact roundDouble_fix hr

theorem parseNonDecimal_finite_fix {val : Char → Nat} {pred : Char → Bool} {b : Nat}
    {l : List Char} {x : ℚ} (h : parseNonDecimal val pred b l = JsNum.finite x) :
    roundDouble x = some x := by
  unfold parseNonDecimal at h
  split at h
  · exact roundToJsNum_finite_fix h
  · exact absurd h (by simp)

theorem parseDecimalSigned_finite_fix {l : List Char} {x : ℚ}
    (h : parseDecimalSigned l = JsNum.finite x) : roundDouble x = some x := by
  unfold parseDecimalSigned at h
  split at h
  · next r =>
    rcases hp : parseUnsignedDecimal r with _ | q
    · rw [hp] at h
      have h' : JsNum.nan = JsNum.finite x := h
      exact absurd h' (by simp)
    · rw [hp] at h
      exact roundToJsNum_finite_fix h
  · next r =>
    rcases hp : parseUnsignedDecimal r with _ | q
    · rw [hp] at h
      have h' : JsNum.nan = JsNum.finite x := h
      exact absurd h' (by simp)
    · rw [hp] at h
      exact roundToJsNum_finite_fix h
  · rcases hp : parseUnsignedDecimal l with _ | q
    · rw [hp] at h
      have h' : JsNum.nan = JsNum.finite x := h
      exact absurd h' (by simp)
    · rw [hp] at h
      exact roundToJsNum_finite_fix h

theorem stringToNumber_finite_fix {l : List Char} {x : ℚ}
    (h : stringToNumber l = JsNum.finite x) : roundDouble x = some x := by
  unfold stringToNumber at h
  by_cases h0 : l = []
  · rw [if_pos h0] at h
    have h' : JsNum.finite 0 = JsNum.finite x := h
    injection h' with h''
    subst h''
    exact roundDouble_zero
  · rw [if_neg h0] at h
    by_cases hinf : l = "Infinity".data ∨ l = "+Infinity".data
    · rw [if_pos hinf] at h
      exact absurd h (by simp)
    · rw [if_neg hinf] at h
      by_cases hninf : l = "-Infinity".data
      · rw [if_pos hninf] at h
        exact absurd h (by simp)
      · rw [if_neg hninf] at h
        split at h
        · next c rest =>
          by_cases hx : c = 'x' ∨ c = 'X'
          · rw [if_pos hx] at h
            exact parseNonDecimal_finite_fix h
          · rw [if_neg hx] at h
            by_cases ho : c = 'o' ∨ c = 'O'
            · rw [if_pos ho] at h
              exact parseNonDecimal_finite_fix h
            · rw [if_neg ho] at h
              by_cases hb : c = 'b' ∨ c = 'B'
              · rw [if_pos hb] at h
                exact parseNonDecimal_finite_fix h
              · rw [if_neg hb] at h
                exact parseDecimalSigned_finite_fix h
        · exact parseDecimalSigned_finite_fix h

/-! ### Character classes of a printed double -/

theorem toStringPos_shape (v : ℚ) : ∃ s p, toStringPos v = formatDigits s p := by
  unfold toStringPos
  rcases hsd : searchDigits v (v - twoPowQ (dblExp v)) (v + twoPowQ (dblExp v)) 17 1 with
    _ | ⟨s, p⟩
  · exact ⟨_, _, rfl⟩
  · exact ⟨s, p, rfl⟩

theorem mem_formatDigits {s : Nat} {p : Int} {c : Char} (h : c ∈ formatDigits s p) :
    isDigit c = true ∨ c = '.' ∨ c = 'e' ∨ c = '+' ∨ c = '-' := by
  obtain ⟨hne, hdig, hval⟩ := natToChars_spec s
  exact layoutDigits_chars hdig _ c h

theorem mem_numberToString {v : ℚ} {c : Char} (h : c ∈ numberToString v) :
    isDigit c = true ∨ c = '.' ∨ c = 'e' ∨ c = '+' ∨ c = '-' := by
  unfold numberToString at h
  by_cases h0 : v = 0
  · rw [if_pos h0] at h
    rcases List.mem_singleton.mp h with rfl
    exact Or.inl (by decide)
  · rw [if_neg h0] at h
    by_cases hneg : v < 0
    · rw [if_pos hneg] at h
      rcases List.mem_cons.mp h with rfl | h'
      · exact Or.inr (Or.inr (Or.inr (Or.inr rfl)))
      · obtain ⟨s, p, hts⟩ := toStringPos_shape (-v)
        rw [hts] at h'
        exact mem_formatDigits h'
    · rw [if_neg hneg] at h
      obtain ⟨s, p, hts⟩ := toStringPos_shape v
      rw [hts] at h
      exact mem_formatDigits h

theorem numberToString_no_ws {v : ℚ} : ∀ c ∈ numberToString v, jsWhitespace c = false := by
  intro c hc
  rcases mem_numberToString hc with h | h | h | h | h
  · exact jsWhitespace_eq_false h
  all_goals (subst h; decide)

theorem numberToString_no_nl (v : ℚ) : '\n' ∉ numberToString v := by
  intro h
  rcases mem_numberToString h with h' | h' | h' | h' | h' <;> exact absurd h' (by decide)

theorem numberToString_no_cr (v : ℚ) : '\r' ∉ numberToString v := by
  intro h
  rcases mem_numberToString h with h' | h' | h' | h' | h' <;> exact absurd h' (by decide)

theorem formatDigits_ne_nil (s : Nat) (p : Int) : formatDigits s p ≠ [] := by
  obtain ⟨hne, hdig, hval⟩ := natToChars_spec s
  obtain ⟨d, r, heq, hd⟩ := layoutDigits_head hne hdig (p + ((natToChars s).length : Int))
  rw [show formatDigits s p =
    layoutDigits (natToChars s) (p + ((natToChars s).length : Int)) from rfl, heq]
  simp

theorem numberToString_ne_nil (v : ℚ) : numberToString v ≠ [] := by
  unfold numberToString
  by_cases h0 : v = 0
  · rw [if_pos h0]
    simp
  · rw [if_neg h0]
    by_cases hneg : v < 0
    · rw [if_pos hneg]
      simp
    · rw [if_neg hneg]
      obtain ⟨s, p, hts⟩ := toStringPos_shape v
      rw [hts]
      exact formatDigits_ne_nil s p

theorem idxQ_trim_pos (v : ℚ) :
    decide (0 < (jsTrim (numberToString v)).length) = true := by
  rw [jsTrim_eq_self numberToString_no_ws]
  simpa [List.length_pos] using numberToString_ne_nil v

/-! ### Rendered blocks of parsed cues -/

theorem serializeParsed_eq (es : List SrtEntry) :
    serializeParsed es = joinSep ['\n', '\n'] (es.map renderOf) := by
  unfold serializeParsed rebuildSrtQ
  rw [List.map_map]
  congr 1

theorem renderOf_eq (e : SrtEntry) :
    renderOf e = numberToString e.index ++
      ('\n' :: ((e.start ++ (' ' :: '-' :: '-' :: '>' :: ' ' :: e.«end»)) ++
        ('\n' :: e.text))) := by
  unfold renderOf
  rw [List.append_assoc, List.cons_append]

theorem mid_no_nl {e : SrtEntry} (hg : entryGood e) :
    '\n' ∉ e.start ++ ' ' :: '-' :: '-' :: '>' :: ' ' :: e.«end» := by
  intro hmem
  rcases List.mem_append.mp hmem with h | h
  · exact timestampShape_no_nl hg.1 h
  · simp only [List.mem_cons] at h
    rcases h with h | h | h | h | h | h
    · exact absurd h (by decide)
    · exact absurd h (by decide)
    · exact absurd h (by decide)
    · exact absurd h (by decide)
    · exact absurd h (by decide)
    · exact timestampShape_no_nl hg.2.1 h

theorem mid_head {e : SrtEntry} (hg : entryGood e) :
    ∃ c r, e.start ++ ' ' :: '-' :: '-' :: '>' :: ' ' :: e.«end» = c :: r ∧
      isDigit c = true := by
  obtain ⟨c, r, heq, hdig⟩ := timestampShape_head hg.1
  exact ⟨c, r ++ ' ' :: '-' :: '-' :: '>' :: ' ' :: e.«end», by rw [heq]; rfl, hdig⟩

theorem mid_trim_pos {e : SrtEntry} (hg : entryGood e) :
    decide
      (0 < (jsTrim (e.start ++ ' ' :: '-' :: '-' :: '>' :: ' ' :: e.«end»)).length) = true := by
  obtain ⟨c, r, heq, hdig⟩ := mid_head hg
  rw [heq]
  have := jsTrim_ne_nil (l := c :: r) (by simp) (jsWhitespace_eq_false hdig)
  simpa [List.length_pos] using this

theorem splitLines_render (e : SrtEntry) (hg : entryGood e) :
    splitLines (renderOf e) =
      numberToString e.index :: (e.start ++ ' ' :: '-' :: '-' :: '>' :: ' ' :: e.«end»)
        :: splitLines e.text := by
  rw [renderOf_eq]
  rw [splitLines_append_nl _ (numberToString_no_nl e.index),
    splitLines_append_nl _ (mid_no_nl hg)]

theorem parseBlock_render {e : SrtEntry} (hg : entryGood e) :
    parseBlock (renderOf e) = some e := by
  obtain ⟨ls, htext, hlines⟩ := hg.2.2.1
  unfold parseBlock
  rw [splitLines_render e hg]
  rw [List.filter_cons_of_pos (p := fun l => decide (0 < (jsTrim l).length))
      (idxQ_trim_pos e.index),
    List.filter_cons_of_pos (p := fun l => decide (0 < (jsTrim l).length)) (mid_trim_pos hg)]
  cases ls with
  | nil =>
    have ht : e.text = [] := by rw [htext]; rfl
    rw [ht]
    have hsl : splitLines ([] : List Char) = [[]] := rfl
    rw [hsl]
    have hfl : List.filter (fun l => decide (0 < (jsTrim l).length)) [[]] = [] := rfl
    rw [hfl]
    simp only [jsTrim_eq_self numberToString_no_ws,
      numberToString_stringToNumber hg.2.2.2, matchTimeLine_self hg.1 hg.2.1]
    have : e = { index := e.index, start := e.start, «end» := e.«end», text := [] } := by
      cases e
      simp_all
    conv_rhs => rw [this]
    rfl
  | cons l₀ ls' =>
    rw [htext, splitLines_joinSep (by simp) (fun l hl => (hlines l hl).1)]
    rw [List.filter_eq_self.mpr (fun l hl => lineGood_trim_pos (hlines l hl))]
    simp only [jsTrim_eq_self numberToString_no_ws,
      numberToString_stringToNumber hg.2.2.2, matchTimeLine_self hg.1 hg.2.1]
    have : e = { index := e.index, start := e.start, «end» := e.«end», text := joinSep ['\n'] (l₀ :: ls') } := by
      cases e
      simp_all
    conv_rhs => rw [this]

theorem parseBlock_good {b : List Char} {e : SrtEntry} (h : parseBlock b = some e) :
    entryGood e := by
  unfold parseBlock at h
  rcases hl : (splitLines b).filter (fun l => decide (0 < (jsTrim l).length)) with
    _ | ⟨l₀, _ | ⟨l₁, rest⟩⟩
  · rw [hl] at h
    exact absurd h (by simp)
  · rw [hl] at h
    exact absurd h (by simp)
  · rw [hl] at h
    have h₂ : (match stringToNumber (jsTrim l₀), matchTimeLine l₁ with
        | JsNum.finite idx, some (s, en) =>
          some { index := idx, start := s, «end» := en, text := joinSep ['\n'] rest }
        | _, _ => none) = some e := h
    cases hn : stringToNumber (jsTrim l₀) with
    | nan =>
      rw [hn] at h₂
      have h' : (none : Option SrtEntry) = some e := h₂
      exact absurd h' (by simp)
    | inf =>
      rw [hn] at h₂
      have h' : (none : Option SrtEntry) = some e := h₂
      exact absurd h' (by simp)
    | negInf =>
      rw [hn] at h₂
      have h' : (none : Option SrtEntry) = some e := h₂
      exact absurd h' (by simp)
    | finite idx =>
      cases hm : matchTimeLine l₁ with
      | none =>
        rw [hn, hm] at h₂
        have h' : (none : Option SrtEntry) = some e := h₂
        exact absurd h' (by simp)
      | some p =>
        obtain ⟨s, en⟩ := p
        rw [hn, hm] at h₂
        have h' : some { index := idx, start := s, «end» := en, text := joinSep ['\n'] rest } = some e := h₂
        injection h' with h''
        subst h''
        obtain ⟨w₁, w₂, tail, _, _, _, hs₁, hs₂⟩ := matchTimeLine_sound hm
        refine ⟨hs₁, hs₂, ⟨rest, rfl, ?_⟩, stringToNumber_finite_fix hn⟩
        intro l hlmem
        have hmem : l ∈ (splitLines b).filter (fun l => decide (0 < (jsTrim l).length)) := by
          rw [hl]
          simp [hlmem]
        obtain ⟨hspl, hpred⟩ := List.mem_filter.mp hmem
        refine ⟨no_nl_of_mem_splitLines hspl, ?_⟩
        simp only [decide_eq_true_eq, List.length_pos] at hpred
        exact hpred

theorem parseSrt_good {input : List Char} :
    ∀ e ∈ parseSrt input, entryGood e := by
  intro e he
  obtain ⟨b, _, hb⟩ := List.mem_filterMap.mp he
  exact parseBlock_good hb

/-! ### Scanning a serialization of parsed cues block by block -/

theorem mid_dropWhile_ne {e : SrtEntry} (hg : entryGood e) :
    (e.start ++ ' ' :: '-' :: '-' :: '>' :: ' ' :: e.«end»).dropWhile jsWhitespace ≠ [] := by
  obtain ⟨c, r, heq, hdig⟩ := mid_head hg
  rw [heq, dropWhile_eq_self_of_head (jsWhitespace_eq_false hdig)]
  simp

theorem noSplit_render_head {e : SrtEntry} (hg : entryGood e) :
    noSplit (numberToString e.index ++
      ('\n' :: (e.start ++ (' ' :: '-' :: '-' :: '>' :: ' ' :: e.«end»)))) := by
  obtain ⟨c, r, heq, hdig⟩ := mid_head hg
  refine noSplit_append_cons_nl (numberToString_no_nl e.index) ?_ ?_
  · rw [heq]
    exact headSolid_cons _ (jsWhitespace_eq_false hdig)
  · exact noSplit_of_no_nl (mid_no_nl hg)

theorem noSplit_render {e : SrtEntry} (hg : entryGood e) (hne : e.text ≠ []) :
    noSplit (renderOf e) := by
  obtain ⟨ls, htext, hlines⟩ := hg.2.2.1
  have hlsne : ls ≠ [] := by
    rintro rfl
    exact hne (by rw [htext]; rfl)
  rw [renderOf_eq]
  refine noSplit_append_cons_nl (numberToString_no_nl e.index) ?_ ?_
  · exact headSolid_append _ (mid_no_nl hg) (mid_dropWhile_ne hg)
  · refine noSplit_append_cons_nl (mid_no_nl hg) ?_ ?_
    · rw [htext]
      exact headSolid_joinSep hlsne hlines
    · rw [htext]
      exact noSplit_joinSep hlines

theorem renderOf_empty_text {e : SrtEntry} (ht : e.text = []) :
    renderOf e = (numberToString e.index ++
      ('\n' :: (e.start ++ (' ' :: '-' :: '-' :: '>' :: ' ' :: e.«end»)))) ++ ['\n'] := by
  rw [renderOf_eq, ht]
  simp

theorem renderOf_head (e : SrtEntry) :
    ∃ c r, renderOf e = c :: r ∧ jsWhitespace c = false := by
  rcases hi : numberToString e.index with _ | ⟨c, r⟩
  · exact absurd hi (numberToString_ne_nil e.index)
  · refine ⟨c, r ++ ('\n' :: ((e.start ++ (' ' :: '-' :: '-' :: '>' :: ' ' :: e.«end»))
      ++ ('\n' :: e.text))), ?_, ?_⟩
    · rw [renderOf_eq, hi]
      rfl
    · exact numberToString_no_ws c (by rw [hi]; simp)

theorem joinSep_render_takeWhile {es : List SrtEntry} (hne : es ≠ []) :
    (joinSep ['\n', '\n'] (es.map renderOf)).takeWhile jsWhitespace = [] := by
  cases es with
  | nil => exact absurd rfl hne
  | cons e t =>
    obtain ⟨c, r, heq, hws⟩ := renderOf_head e
    obtain ⟨z, hz⟩ := joinSep_cons_decomp ['\n', '\n'] (renderOf e) (t.map renderOf)
    rw [List.map_cons, hz, heq]
    simp [List.takeWhile_cons, hws]

theorem parseBlock_render_head {e : SrtEntry} (hg : entryGood e) (ht : e.text = []) :
    parseBlock (numberToString e.index ++
      ('\n' :: (e.start ++ (' ' :: '-' :: '-' :: '>' :: ' ' :: e.«end»)))) = some e := by
  unfold parseBlock
  rw [splitLines_append_nl _ (numberToString_no_nl e.index),
    splitLines_of_no_nl (mid_no_nl hg)]
  rw [List.filter_cons_of_pos (p := fun l => decide (0 < (jsTrim l).length))
      (idxQ_trim_pos e.index),
    List.filter_cons_of_pos (p := fun l => decide (0 < (jsTrim l).length)) (mid_trim_pos hg),
    List.filter_nil]
  simp only [jsTrim_eq_self numberToString_no_ws,
    numberToString_stringToNumber hg.2.2.2, matchTimeLine_self hg.1 hg.2.1]
  rw [show joinSep ['\n'] ([] : List (List Char)) = e.text from by rw [ht]; rfl]

/-- Splitting the serialization of good parsed cues recovers exactly the
parsed cues. -/
theorem scan_render : ∀ (es : List SrtEntry), es ≠ [] → (∀ e ∈ es, entryGood e) →
    ∀ fuel, (joinSep ['\n', '\n'] (es.map renderOf)).length ≤ fuel →
    List.filterMap parseBlock (splitBlocksAux fuel [] (joinSep ['\n', '\n'] (es.map renderOf)))
      = es := by
  intro es
  induction es with
  | nil =>
    intro h
    exact absurd rfl h
  | cons e rest ih =>
    intro _ hgood fuel hfuel
    have hg : entryGood e := hgood e (by simp)
    cases rest with
    | nil =>
      have hsing : joinSep ['\n', '\n'] ((e :: []).map renderOf) = renderOf e := rfl
      rw [hsing] at hfuel ⊢
      by_cases htne : e.text = []
      · rw [renderOf_empty_text htne] at hfuel ⊢
        rw [splitBlocksAux_noSplit_nl (noSplit_render_head hg) fuel (by simpa using hfuel)]
        rw [← renderOf_empty_text htne]
        simp [List.filterMap_cons, parseBlock_render hg]
      · rw [splitBlocksAux_noSplit (noSplit_render hg htne) fuel hfuel]
        simp [List.filterMap_cons, parseBlock_render hg]
    | cons e₂ t =>
      rw [List.map_cons, List.map_cons, joinSep_nl2_cons_cons,
        ← List.map_cons renderOf e₂ t] at hfuel ⊢
      have hhead : (joinSep ['\n', '\n'] ((e₂ :: t).map renderOf)).takeWhile jsWhitespace
          = [] := joinSep_render_takeWhile (by simp)
      have hlen : (renderOf e).length + 2 +
          (joinSep ['\n', '\n'] ((e₂ :: t).map renderOf)).length ≤ fuel := by
        simp only [List.length_append, List.length_cons] at hfuel
        omega
      by_cases htne : e.text = []
      · have hsplit3 : renderOf e ++
            ('\n' :: '\n' :: joinSep ['\n', '\n'] ((e₂ :: t).map renderOf)) =
            (numberToString e.index ++
              ('\n' :: (e.start ++ (' ' :: '-' :: '-' :: '>' :: ' ' :: e.«end»)))) ++
              ('\n' :: '\n' :: '\n' :: joinSep ['\n', '\n'] ((e₂ :: t).map renderOf)) := by
          rw [renderOf_empty_text htne]
          simp
        rw [hsplit3]
        have hlen3 : (numberToString e.index ++
            ('\n' :: (e.start ++ (' ' :: '-' :: '-' :: '>' :: ' ' :: e.«end»)))).length + 3 +
            (joinSep ['\n', '\n'] ((e₂ :: t).map renderOf)).length ≤ fuel := by
          rw [renderOf_empty_text htne] at hlen
          simp only [List.length_append, List.length_cons, List.length_singleton] at hlen ⊢
          omega
        rw [splitBlocksAux_block_sep3 (noSplit_render_head hg) fuel hhead hlen3]
        rw [List.filterMap_cons, parseBlock_render_head hg htne]
        rw [ih (by simp) (fun e' he' => hgood e' (by simp [he'])) _ (by omega)]
      · rw [splitBlocksAux_block_sep (noSplit_render hg htne) fuel hhead hlen]
        rw [List.filterMap_cons, parseBlock_render hg]
        rw [ih (by simp) (fun e' he' => hgood e' (by simp [he'])) _ (by omega)]

theorem serializeParsed_no_cr {es : List SrtEntry} (hgood : ∀ e ∈ es, entryGood e)
    (hcr : ∀ e ∈ es, '\r' ∉ e.text) : '\r' ∉ serializeParsed es := by
  rw [serializeParsed_eq]
  intro hmem
  rcases mem_joinSep hmem with h | ⟨l, hl, hcl⟩
  · exact absurd h (by decide)
  · obtain ⟨e, he, rfl⟩ := List.mem_map.mp hl
    rw [renderOf_eq] at hcl
    rcases List.mem_append.mp hcl with h | h
    · exact numberToString_no_cr e.index h
    · rcases List.mem_cons.mp h with h | h
      · exact absurd h (by decide)
      · rcases List.mem_append.mp h with h | h
        · rcases List.mem_append.mp h with h | h
          · exact timestampShape_no_cr (hgood e he).1 h
          · simp only [List.mem_cons] at h
            rcases h with h | h | h | h | h | h
            · exact absurd h (by decide)
            · exact absurd h (by decide)
            · exact absurd h (by decide)
            · exact absurd h (by decide)
            · exact absurd h (by decide)
            · exact timestampShape_no_cr (hgood e he).2.1 h
        · rcases List.mem_cons.mp h with h | h
          · exact absurd h (by decide)
          · exact hcr e he h

theorem parseSrt_serializeParsed {es : List SrtEntry} (hgood : ∀ e ∈ es, entryGood e)
    (hcr : ∀ e ∈ es, '\r' ∉ e.text) :
    parseSrt (serializeParsed es) = es := by
  unfold parseSrt splitBlocks
  rw [normalizeCrlf_eq_self (serializeParsed_no_cr hgood hcr)]
  cases es with
  | nil => rfl
  | cons e t =>
    rw [serializeParsed_eq]
    exact scan_render (e :: t) (by simp) hgood _ le_rfl

/-! ### Job processor lemmas -/

theorem settleFrom_length (res : Nat → Option (List Char)) (lo hi : Nat) :
    ∀ p entries, (settleFrom res lo hi p entries).length = entries.length := by
  intro p entries
  induction entries generalizing p with
  | nil => rfl
  | cons e rest ih => simp [settleFrom, ih]

theorem settleFrom_getElem (res : Nat → Option (List Char)) (lo hi : Nat) :
    ∀ p (entries : List TranslateJobEntry) k, (settleFrom res lo hi p entries)[k]? =
      entries[k]?.map (fun e =>
        if lo ≤ p + k ∧ p + k < hi then settleEntry (res (p + k)) e else e) := by
  intro p entries
  induction entries generalizing p with
  | nil => intro k; simp [settleFrom]
  | cons e rest ih =>
    intro k
    cases k with
    | zero => simp [settleFrom]
    | succ k' =>
      simp only [settleFrom, List.getElem?_cons_succ]
      rw [ih (p + 1) k']
      have harith : p + 1 + k' = p + (k' + 1) := by omega
      rw [harith]

theorem pollStep_of_completed {job : TranslateJob} (res : Nat → Option (List Char))
    (h : job.completed = true) :
    pollStep res job =
      { job := job, persisted := false, statusCompleted := true
        srt := some (rebuildSrt job.entries) } := by
  unfold pollStep
  rw [if_pos h]

theorem pollStep_of_done {job : TranslateJob} (res : Nat → Option (List Char))
    (hc : job.completed = false) (hn : job.entries.length ≤ job.cursor) :
    pollStep res job =
      { job := { job with completed := true }, persisted := true, statusCompleted := true
        srt := some (rebuildSrt job.entries) } := by
  unfold pollStep
  rw [if_neg (by rw [hc]; exact Bool.false_ne_true)]
  have hmin : min concurrency (job.entries.length - job.cursor) = 0 := by
    have : job.entries.length - job.cursor = 0 := by omega
    rw [this]
    exact Nat.min_zero concurrency
  simp only [hmin]
  simp

theorem pollStep_of_claim {job : TranslateJob} (res : Nat → Option (List Char))
    (hc : job.completed = false) (hlt : job.cursor < job.entries.length) :
    pollStep res job =
      let n := min concurrency (job.entries.length - job.cursor)
      let cursor' := job.cursor + n
      let entries' := settleFrom res job.cursor cursor' 0 job.entries
      let completed' := decide (job.entries.length ≤ cursor')
      { job := { job with entries := entries', cursor := cursor', completed := completed' }
        persisted := true, statusCompleted := completed'
        srt := if completed' then some (rebuildSrt entries') else none } := by
  unfold pollStep
  rw [if_neg (by rw [hc]; exact Bool.false_ne_true)]
  have hne : ¬ min concurrency (job.entries.length - job.cursor) = 0 := by
    have h30 : concurrency = 30 := rfl
    omega
  rw [if_neg hne]

theorem pollStep_cursor_mono (res : Nat → Option (List Char)) (job : TranslateJob) :
    job.cursor ≤ (pollStep res job).job.cursor := by
  by_cases hc : job.completed = true
  · rw [pollStep_of_completed res hc]
  · have hc' : job.completed = false := by
      cases h : job.completed
      · rfl
      · exact absurd h hc
    by_cases hlt : job.cursor < job.entries.length
    · rw [pollStep_of_claim res hc' hlt]
      dsimp only
      omega
    · rw [pollStep_of_done res hc' (by omega)]

theorem pollStep_inv {job : TranslateJob} (res : Nat → Option (List Char))
    (hinv : JobInv job) : JobInv (pollStep res job).job := by
  obtain ⟨hle, hcomp, htot⟩ := hinv
  by_cases hc : job.completed = true
  · rw [pollStep_of_completed res hc]
    exact ⟨hle, hcomp, htot⟩
  · have hc' : job.completed = false := by
      cases h : job.completed
      · rfl
      · exact absurd h hc
    by_cases hlt : job.cursor < job.entries.length
    · rw [pollStep_of_claim res hc' hlt]
      have h30 : concurrency = 30 := rfl
      refine ⟨?_, ?_, ?_⟩
      · dsimp only
        simp only [settleFrom_length]
        omega
      · dsimp only
        simp only [settleFrom_length, decide_eq_true_eq]
        intro hdec
        omega
      · dsimp only
        simp only [settleFrom_length]
        exact htot
    · rw [pollStep_of_done res hc' (by omega)]
      refine ⟨hle, fun _ => ?_, htot⟩
      show job.cursor = job.entries.length
      omega

theorem pollStep_cursor_strict {job : TranslateJob} (res : Nat → Option (List Char))
    (hinv : JobInv job) (hlt : job.cursor < job.total) :
    job.cursor < (pollStep res job).job.cursor := by
  obtain ⟨hle, hcomp, htot⟩ := hinv
  have hltl : job.cursor < job.entries.length := by omega
  have hc' : job.completed = false := by
    cases h : job.completed
    · rfl
    · exact absurd (hcomp h) (by omega)
  rw [pollStep_of_claim res hc' hltl]
  have h30 : concurrency = 30 := rfl
  dsimp only
  omega

theorem pollSeq_of_completed {job : TranslateJob} (h : job.completed = true) :
    ∀ ress, pollSeq ress job = job := by
  intro ress
  induction ress with
  | nil => rfl
  | cons r rs ih =>
    unfold pollSeq
    rw [pollStep_of_completed r h]
    exact ih

theorem pollSeq_inv {job : TranslateJob} (hinv : JobInv job) :
    ∀ ress, JobInv (pollSeq ress job) := by
  intro ress
  induction ress generalizing job with
  | nil => exact hinv
  | cons r rs ih => exact ih (pollStep_inv r hinv)

theorem pollSeq_cursor_mono (job : TranslateJob) :
    ∀ ress, job.cursor ≤ (pollSeq ress job).cursor := by
  intro ress
  induction ress generalizing job with
  | nil => exact le_rfl
  | cons r rs ih => exact le_trans (pollStep_cursor_mono r job) (ih (pollStep r job).job)

/-- Any sufficiently long sequence of polls completes the job: each poll on a
non-completed job advances the cursor, and a poll at the end flips the
completed flag, which then absorbs. -/
theorem pollSeq_completes {job : TranslateJob} (hinv : JobInv job) :
    ∀ ress, job.entries.length - job.cursor + 1 ≤ ress.length →
      (pollSeq ress job).completed = true := by
  intro ress
  induction ress generalizing job with
  | nil => intro h; simp at h
  | cons r rs ih =>
    intro hlen
    obtain ⟨hle, hcomp, htot⟩ := hinv
    by_cases hc : job.completed = true
    · rw [pollSeq_of_completed hc]
      exact hc
    · have hc' : job.completed = false := by
        cases h : job.completed
        · rfl
        · exact absurd h hc
      by_cases hlt : job.cursor < job.entries.length
      · have hinvj : JobInv job := ⟨hle, hcomp, htot⟩
        have hnext := pollStep_cursor_strict r hinvj (by omega)
        have hinv' := pollStep_inv r hinvj
        have hlen' : (pollStep r job).job.entries.length - (pollStep r job).job.cursor + 1 ≤
            rs.length := by
          have h₁ := hinv'.1
          have h₂ : (pollStep r job).job.entries.length = job.entries.length := by
            by_cases hl2 : job.cursor < job.entries.length
            · rw [pollStep_of_claim r hc' hl2]
              simp [settleFrom_length]
            · rw [pollStep_of_done r hc' (by omega)]
          simp only [List.length_cons] at hlen
          omega
        exact ih hinv' hlen'
      · unfold pollSeq
        rw [pollStep_of_done r hc' (by omega)]
        have habs : (pollSeq rs { job with completed := true }).completed = true := by
          rw [pollSeq_of_completed
            (show ({ job with completed := true } : TranslateJob).completed = true from rfl) rs]
        exact habs

theorem pollStep_entry_claimed {job : TranslateJob} (res : Nat → Option (List Char))
    (hc : job.completed = false) (p : Nat) (hp₁ : job.cursor ≤ p)
    (hp₂ : p < job.cursor + min concurrency (job.entries.length - job.cursor)) :
    (pollStep res job).job.entries[p]? = job.entries[p]?.map (settleEntry (res p)) := by
  have h30 : concurrency = 30 := rfl
  have hlt : job.cursor < job.entries.length := by omega
  rw [pollStep_of_claim res hc hlt]
  dsimp only
  rw [settleFrom_getElem]
  cases hep : job.entries[p]? with
  | none => rfl
  | some e =>
    simp only [Option.map_some']
    rw [if_pos (by constructor <;> omega), Nat.zero_add]

theorem pollStep_entry_unclaimed {job : TranslateJob} (res : Nat → Option (List Char))
    (hc : job.completed = false) (p : Nat)
    (hp : p < job.cursor ∨
      job.cursor + min concurrency (job.entries.length - job.cursor) ≤ p) :
    (pollStep res job).job.entries[p]? = job.entries[p]? := by
  by_cases hlt : job.cursor < job.entries.length
  · rw [pollStep_of_claim res hc hlt]
    dsimp only
    rw [settleFrom_getElem]
    cases hep : job.entries[p]? with
    | none => rfl
    | some e =>
      simp only [Option.map_some']
      rw [if_neg (by omega)]
  · rw [pollStep_of_done res hc (by omega)]

theorem pollStep_total (res : Nat → Option (List Char)) (job : TranslateJob) :
    (pollStep res job).job.total = job.total ∧
      (pollStep res job).job.entries.length = job.entries.length := by
  by_cases hc : job.completed = true
  · rw [pollStep_of_completed res hc]
    exact ⟨rfl, rfl⟩
  · have hc' : job.completed = false := by
      cases h : job.completed
      · rfl
      · exact absurd h hc
    by_cases hlt : job.cursor < job.entries.length
    · rw [pollStep_of_claim res hc' hlt]
      exact ⟨rfl, by dsimp only; rw [settleFrom_length]⟩
    · rw [pollStep_of_done res hc' (by omega)]
      exact ⟨rfl, rfl⟩

theorem pollStep_status {job : TranslateJob} (res : Nat → Option (List Char))
    (h : (pollStep res job).statusCompleted = true) :
    (pollStep res job).job.completed = true ∧
      (pollStep res job).srt = some (rebuildSrt (pollStep res job).job.entries) := by
  by_cases hc : job.completed = true
  · rw [pollStep_of_completed res hc]
    exact ⟨hc, rfl⟩
  · have hc' : job.completed = false := by
      cases hb : job.completed
      · rfl
      · exact absurd hb hc
    by_cases hlt : job.cursor < job.entries.length
    · rw [pollStep_of_claim res hc' hlt] at h ⊢
      dsimp only at h ⊢
      rw [h]
      exact ⟨rfl, by rw [if_pos rfl]⟩
    · rw [pollStep_of_done res hc' (by omega)]
      exact ⟨rfl, rfl⟩

theorem submit_eq_created {s : List Char} (tl note : Option (List Char)) (now : Int)
    (hs : s ≠ []) (hp : parseSrtInt s ≠ []) :
    submit (some s) tl note now = .created (submittedJob s tl note now) := by
  unfold submit submittedJob
  dsimp only
  rw [if_neg hs, if_neg hp]

theorem submit_created_inv {s : List Char} {tl note : Option (List Char)} {now : Int}
    {job : TranslateJob} (h : submit (some s) tl note now = .created job) :
    job = submittedJob s tl note now ∧ JobInv job := by
  unfold submit at h
  dsimp only at h
  by_cases hs : s = []
  · rw [if_pos hs] at h
    exact absurd h (by simp)
  · rw [if_neg hs] at h
    by_cases hp : parseSrtInt s = []
    · rw [if_pos hp] at h
      exact absurd h (by simp)
    · rw [if_neg hp] at h
      simp only [SubmitResult.created.injEq] at h
      subst h
      refine ⟨by rw [submittedJob], ?_, ?_, ?_⟩
      · show 0 ≤ (List.map toJobEntry (parseSrtInt s)).length
        exact Nat.zero_le _
      · intro hcomp
        exact absurd hcomp (by simp)
      · show (parseSrtInt s).length = (List.map toJobEntry (parseSrtInt s)).length
        rw [List.length_map]

/-! ### The claims -/

/-- C1 counterexample: submitting a one-cue file and polling it with a
failing translator resolves the cue with translatedText set to the source
text, not left unset (absent) as the claim states. -/
theorem claim_C1_counterexample :
    submit (some ("1\n00:00:00,000 --> 00:00:02,000\nHello".data)) none none 0 =
        .created helloJob ∧
      (pollStep (fun _ => none) helloJob).job.entries.map TranslateJobEntry.dst =
        [some ("Hello".data)] ∧
      (pollStep (fun _ => none) helloJob).job.entries.map TranslateJobEntry.dst ≠ [none] := by
  decide

/-- C1 (amended): for every claimed cue whose translateOne call rejects, the
poll resolves the cue by setting its translatedText to the cue sourceText
(equivalent in serialized output to the unset fallback); no job failure is
surfaced, the record is persisted, and continued polling reaches completed. -/
theorem claim_C1 (job : TranslateJob) (res : Nat → Option (List Char)) (p : Nat)
    (hinv : JobInv job) (hc : job.completed = false)
    (hp₁ : job.cursor ≤ p)
    (hp₂ : p < job.cursor + min concurrency (job.total - job.cursor))
    (hfail : res p = none) :
    (pollStep res job).job.entries[p]? =
      job.entries[p]?.map (fun e => { e with dst := some e.src }) ∧
    (pollStep res job).persisted = true ∧
    ∀ ress : List (Nat → Option (List Char)), job.total + 1 ≤ ress.length →
      (pollSeq ress (pollStep res job).job).completed = true := by
  obtain ⟨hle, hcomp, htot⟩ := hinv
  have h30 : concurrency = 30 := rfl
  have hp₂' : p < job.cursor + min concurrency (job.entries.length - job.cursor) := by
    rw [← htot]; exact hp₂
  have hlt : job.cursor < job.entries.length := by omega
  refine ⟨?_, ?_, ?_⟩
  · rw [pollStep_entry_claimed res hc p hp₁ hp₂', hfail]
    cases hep : job.entries[p]? with
    | none => rfl
    | some e => simp [settleEntry]
  · rw [pollStep_of_claim res hc hlt]
  · intro ress hlen
    have hinv' : JobInv (pollStep res job).job := pollStep_inv res ⟨hle, hcomp, htot⟩
    have hlen' : (pollStep res job).job.entries.length - (pollStep res job).job.cursor + 1 ≤
        ress.length := by
      have hl := (pollStep_total res job).2
      omega
    exact pollSeq_completes hinv' ress hlen'

/-- C1 witness: the amended statement evaluated on the one-cue job with a
failing translator. -/
theorem claim_C1_witness :
    (pollStep (fun _ => none) helloJob).job.entries[0]? =
      helloJob.entries[0]?.map (fun e => { e with dst := some e.src }) ∧
    (pollStep (fun _ => none) helloJob).persisted = true ∧
    (pollSeq [fun _ => none, fun _ => none]
      (pollStep (fun _ => none) helloJob).job).completed = true := by
  have h := claim_C1 helloJob (fun _ => none) 0
    ⟨by decide, by decide, by decide⟩ (by decide) (by decide) (by decide) rfl
  exact ⟨h.1, h.2.1, h.2.2 [fun _ => none, fun _ => none] (by decide)⟩

/-- C2: for a submitted job the cursor starts at zero and, along any sequence
of polls, stays within the total, never decreases, strictly increases while
below the total, and advances by at most the number of remaining cues. -/
theorem claim_C2 {s : List Char} {tl note : Option (List Char)} {now : Int}
    (job₀ : TranslateJob) (hsub : submit (some s) tl note now = .created job₀) :
    job₀.cursor = 0 ∧
    ∀ (ress : List (Nat → Option (List Char))) (res : Nat → Option (List Char)),
      (pollSeq ress job₀).cursor ≤ (pollSeq ress job₀).total ∧
      (pollSeq ress job₀).cursor ≤ (pollStep res (pollSeq ress job₀)).job.cursor ∧
      ((pollSeq ress job₀).cursor < (pollSeq ress job₀).total →
        (pollSeq ress job₀).cursor < (pollStep res (pollSeq ress job₀)).job.cursor) ∧
      (pollStep res (pollSeq ress job₀)).job.cursor ≤
        (pollSeq ress job₀).cursor +
          ((pollSeq ress job₀).total - (pollSeq ress job₀).cursor) := by
  obtain ⟨hjob, hinv⟩ := submit_created_inv hsub
  constructor
  · rw [hjob]; rfl
  · intro ress res
    have hinvs : JobInv (pollSeq ress job₀) := pollSeq_inv hinv ress
    obtain ⟨hle, hcomp, htot⟩ := hinvs
    have hinvs' : JobInv (pollSeq ress job₀) := ⟨hle, hcomp, htot⟩
    refine ⟨by omega, pollStep_cursor_mono res _,
      pollStep_cursor_strict res hinvs', ?_⟩
    have hinv' := pollStep_inv res hinvs'
    have htotp := pollStep_total res (pollSeq ress job₀)
    obtain ⟨hle', _, htot'⟩ := hinv'
    omega

/-- C2 witness: the cursor facts evaluated on the submitted one-cue job with
no polls yet and one further failing poll. -/
theorem claim_C2_witness :
    helloJob.cursor = 0 ∧
    (pollSeq [] helloJob).cursor ≤ (pollSeq [] helloJob).total ∧
    (pollSeq [] helloJob).cursor ≤ (pollStep (fun _ => none) (pollSeq [] helloJob)).job.cursor ∧
    ((pollSeq [] helloJob).cursor < (pollSeq [] helloJob).total →
      (pollSeq [] helloJob).cursor <
        (pollStep (fun _ => none) (pollSeq [] helloJob)).job.cursor) ∧
    (pollStep (fun _ => none) (pollSeq [] helloJob)).job.cursor ≤
      (pollSeq [] helloJob).cursor +
        ((pollSeq [] helloJob).total - (pollSeq [] helloJob).cursor) := by
  have h := claim_C2 helloJob
    ((by decide : submit (some ("1\n00:00:00,000 --> 00:00:02,000\nHello".data)) none none 0 =
      .created helloJob))
  exact ⟨h.1, h.2 [] (fun _ => none)⟩

/-- C3: once a poll reports completed, the record is final: later polls return
completed with the byte-identical srt and never write the record back. -/
theorem claim_C3 {job : TranslateJob} (res₀ : Nat → Option (List Char))
    (hobs : (pollStep res₀ job).statusCompleted = true) :
    ∀ (ress : List (Nat → Option (List Char))) (res : Nat → Option (List Char)),
      pollSeq ress (pollStep res₀ job).job = (pollStep res₀ job).job ∧
      pollStep res (pollSeq ress (pollStep res₀ job).job) =
        { job := (pollStep res₀ job).job
          persisted := false
          statusCompleted := true
          srt := (pollStep res₀ job).srt } ∧
      (pollStep res₀ job).srt = some (rebuildSrt (pollStep res₀ job).job.entries) := by
  obtain ⟨hcomp, hsrt⟩ := pollStep_status res₀ hobs
  intro ress res
  have habs := pollSeq_of_completed hcomp ress
  refine ⟨habs, ?_, hsrt⟩
  rw [habs, pollStep_of_completed res hcomp, hsrt]

/-- C3 witness: completion stability evaluated on the one-cue job completed
by a successful poll. -/
theorem claim_C3_witness :
    pollSeq [] (pollStep (fun _ => some ("Hi".data)) helloJob).job =
        (pollStep (fun _ => some ("Hi".data)) helloJob).job ∧
      pollStep (fun _ => none)
          (pollSeq [] (pollStep (fun _ => some ("Hi".data)) helloJob).job) =
        { job := (pollStep (fun _ => some ("Hi".data)) helloJob).job
          persisted := false
          statusCompleted := true
          srt := (pollStep (fun _ => some ("Hi".data)) helloJob).srt } ∧
      (pollStep (fun _ => some ("Hi".data)) helloJob).srt =
        some (rebuildSrt (pollStep (fun _ => some ("Hi".data)) helloJob).job.entries) :=
  claim_C3 (fun _ => some ("Hi".data)) (by decide) [] (fun _ => none)

/-- C5 counterexample: polling an already-completed job returns without
persisting, contradicting the claim that every successful load persists the
record before returning. -/
theorem claim_C5_counterexample :
    doneJob.completed = true ∧ (pollStep (fun _ => none) doneJob).persisted = false := by
  decide

/-- C5 (amended): a poll persists the record exactly when the loaded record
was not already completed; the completed re-read path returns without a
write and leaves the record untouched. -/
theorem claim_C5 (res : Nat → Option (List Char)) (job : TranslateJob) :
    (pollStep res job).persisted = !job.completed ∧
    (job.completed = true → (pollStep res job).job = job) := by
  by_cases hc : job.completed = true
  · rw [pollStep_of_completed res hc, hc]
    exact ⟨rfl, fun _ => rfl⟩
  · have hc' : job.completed = false := by
      cases hb : job.completed
      · rfl
      · exact absurd hb hc
    rw [hc']
    refine ⟨?_, fun hcomp => absurd hcomp Bool.false_ne_true⟩
    by_cases hlt : job.cursor < job.entries.length
    · rw [pollStep_of_claim res hc' hlt]
      rfl
    · rw [pollStep_of_done res hc' (by omega)]
      rfl

/-- C5 witness: the persist behavior evaluated on the completed one-cue
job. -/
theorem claim_C5_witness :
    (pollStep (fun _ => none) doneJob).persisted = !doneJob.completed ∧
      (pollStep (fun _ => none) doneJob).job = doneJob :=
  ⟨(claim_C5 (fun _ => none) doneJob).1, (claim_C5 (fun _ => none) doneJob).2 rfl⟩

/-- C6: the serializer renders each cue as its index, a newline, the start,
the arrow, the end, a newline, and the translatedText if present else the
sourceText verbatim; blocks are joined by one blank line in array order,
one block per cue, and a cue left on the fallback (translatedText absent,
or set to the sourceText by the failure path) shows its sourceText. -/
theorem claim_C6 (entries : List TranslateJobEntry) :
    rebuildSrt entries = joinSep ['\n', '\n'] (entries.map renderCue) ∧
    (entries.map renderCue).length = entries.length ∧
    (∀ e ∈ entries, renderCue e =
      intToChars e.index ++ '\n' :: (e.start ++ ' ' :: '-' :: '-' :: '>' :: ' ' :: e.«end»)
        ++ '\n' :: e.dst.getD e.src) ∧
    (∀ e ∈ entries, e.dst = none → ∃ pre, renderCue e = pre ++ e.src) ∧
    (∀ e ∈ entries, e.dst = some e.src → ∃ pre, renderCue e = pre ++ e.src) := by
  refine ⟨rfl, List.length_map .., fun e _ => rfl, fun e _ hdst => ?_, fun e _ hdst => ?_⟩
  · refine ⟨intToChars e.index ++
      '\n' :: (e.start ++ ' ' :: '-' :: '-' :: '>' :: ' ' :: e.«end») ++ ['\n'], ?_⟩
    simp [renderCue, hdst]
  · refine ⟨intToChars e.index ++
      '\n' :: (e.start ++ ' ' :: '-' :: '-' :: '>' :: ' ' :: e.«end») ++ ['\n'], ?_⟩
    simp [renderCue, hdst]

/-- C6 witness: the serializer facts evaluated on two out-of-order entries,
one untranslated. -/
theorem claim_C6_witness :
    rebuildSrt mixedEntries = joinSep ['\n', '\n'] (mixedEntries.map renderCue) ∧
    (mixedEntries.map renderCue).length = mixedEntries.length ∧
    ∃ pre, renderCue (⟨2, "00:00:00,000".data, "00:00:02,000".data, "Hello".data, none⟩ :
        TranslateJobEntry) = pre ++ ("Hello".data) := by
  have h := claim_C6 mixedEntries
  refine ⟨h.1, h.2.1, ?_⟩
  exact h.2.2.2.1 (⟨2, "00:00:00,000".data, "00:00:02,000".data, "Hello".data, none⟩ :
    TranslateJobEntry) (by decide) rfl

/-- C8: with the batch width fixed at 30, one poll on a non-completed job
advances the cursor by exactly min(30, total - cursor), settles exactly the
distinct positions of that batch once each, and leaves every other entry
untouched. -/
theorem claim_C8 (job : TranslateJob) (res : Nat → Option (List Char))
    (hc : job.completed = false) (htot : job.total = job.entries.length) :
    concurrency = 30 ∧
    min concurrency (job.total - job.cursor) ≤ concurrency ∧
    (pollStep res job).job.cursor = job.cursor + min concurrency (job.total - job.cursor) ∧
    (List.range' job.cursor (min concurrency (job.total - job.cursor))).Nodup ∧
    (∀ p, job.cursor ≤ p → p < job.cursor + min concurrency (job.total - job.cursor) →
      (pollStep res job).job.entries[p]? = job.entries[p]?.map (settleEntry (res p))) ∧
    (∀ p, p < job.cursor ∨ job.cursor + min concurrency (job.total - job.cursor) ≤ p →
      (pollStep res job).job.entries[p]? = job.entries[p]?) := by
  have h30 : concurrency = 30 := rfl
  rw [htot]
  have hcur : (pollStep res job).job.cursor =
      job.cursor + min concurrency (job.entries.length - job.cursor) := by
    by_cases hlt : job.cursor < job.entries.length
    · rw [pollStep_of_claim res hc hlt]
    · rw [pollStep_of_done res hc (by omega)]
      show job.cursor = job.cursor + min concurrency (job.entries.length - job.cursor)
      omega
  refine ⟨rfl, Nat.min_le_left .., hcur, List.nodup_range' _ _,
    fun p hp₁ hp₂ => pollStep_entry_claimed res hc p hp₁ hp₂,
    fun p hp => pollStep_entry_unclaimed res hc p hp⟩

/-- C8 witness: the batch facts evaluated on the one-cue job with a failing
translator. -/
theorem claim_C8_witness :
    (pollStep (fun _ => none) helloJob).job.cursor =
        helloJob.cursor + min concurrency (helloJob.total - helloJob.cursor) ∧
      (pollStep (fun _ => none) helloJob).job.entries[0]? =
        helloJob.entries[0]?.map (settleEntry none) := by
  have h := claim_C8 helloJob (fun _ => none) (by decide) (by decide)
  exact ⟨h.2.2.1, h.2.2.2.2.1 0 (by decide) (by decide)⟩

/-- C10 counterexample: a submitted cue with empty sourceText, settled by a
call fulfilling with the empty string, ends holding an empty-string
translatedText, although the claim says no cue ever does. -/
theorem claim_C10_counterexample :
    submit (some emptySrcSrt) none none 0 = .created emptySrcJob ∧
    (pollStep (fun _ => some []) emptySrcJob).job.entries.map TranslateJobEntry.dst =
      [some []] := by
  decide

/-- C10 (amended): a call that fulfills with the empty string stores the cue
sourceText as its translatedText; consequently a claimed cue holds an
empty-string translatedText after its batch settles only when its sourceText
is itself empty. -/
theorem claim_C10 (job : TranslateJob) (res : Nat → Option (List Char)) (p : Nat)
    (hc : job.completed = false) (hp₁ : job.cursor ≤ p)
    (hp₂ : p < job.cursor + min concurrency (job.entries.length - job.cursor)) :
    (res p = some [] →
      (pollStep res job).job.entries[p]? =
        job.entries[p]?.map (fun e => { e with dst := some e.src })) ∧
    (∀ e e', job.entries[p]? = some e → (pollStep res job).job.entries[p]? = some e' →
      e'.dst = some [] → e.src = []) := by
  have hpoll := pollStep_entry_claimed res hc p hp₁ hp₂
  constructor
  · intro hres
    rw [hpoll, hres]
    cases hep : job.entries[p]? with
    | none => rfl
    | some e => simp [settleEntry]
  · intro e e' he he' hdst
    rw [hpoll, he] at he'
    simp only [Option.map_some', Option.some.injEq] at he'
    subst he'
    cases hres : res p with
    | none =>
      rw [hres] at hdst
      simp only [settleEntry, Option.some.injEq] at hdst
      exact hdst
    | some t =>
      rw [hres] at hdst
      simp only [settleEntry, Option.some.injEq] at hdst
      by_cases ht : t = []
      · rw [if_pos ht] at hdst
        exact hdst
      · rw [if_neg ht] at hdst
        exact absurd hdst ht

/-- C10 witness: the empty-fulfillment fallback evaluated on the submitted
empty-text cue. -/
theorem claim_C10_witness :
    (pollStep (fun _ => some []) emptySrcJob).job.entries[0]? =
      emptySrcJob.entries[0]?.map (fun e => { e with dst := some e.src }) :=
  (claim_C10 emptySrcJob (fun _ => some []) 0
    (by decide) (by decide) (by decide)).1 rfl

section

attribute [local semireducible] Rat.add Rat.mul Rat.inv Rat.sub Rat.ofScientific

/-- C7 counterexample: the parser accepts a block whose time line carries
trailing characters after the second timestamp, although that line does not
match the full timestamp-arrow-timestamp pattern required by the claim. -/
theorem claim_C7_counterexample :
    parseSrt ("1\n00:00:00,000 --> 00:00:01,000junk\nHello".data) =
      [⟨1, "00:00:00,000".data, "00:00:01,000".data, "Hello".data⟩] ∧
    specTimeLineFull ("00:00:00,000 --> 00:00:01,000junk".data) = false := by
  decide

/-- C7 (amended): parse splits the normalized input into blocks on blank-line
boundaries and keeps exactly the blocks accepted by the declarative relation:
the non-blank lines are a line converting to a finite number, a time line
that starts with the anchored timestamp-arrow-timestamp pattern with
optional whitespace around the arrow (trailing characters after the second
timestamp are permitted), and text lines joined by newlines; every other
block is silently dropped. -/
theorem claim_C7 (input : List Char) :
    parseSrt input = (splitBlocks (normalizeCrlf input)).filterMap parseBlock ∧
    ∀ b e, parseBlock b = some e ↔ specAccepts b e := by
  refine ⟨rfl, fun b e => ⟨?_, ?_⟩⟩
  · intro h
    unfold parseBlock at h
    rcases hl : (splitLines b).filter (fun l => decide (0 < (jsTrim l).length)) with
      _ | ⟨l₀, _ | ⟨l₁, rest⟩⟩
    · rw [hl] at h; exact absurd h (by simp)
    · rw [hl] at h; exact absurd h (by simp)
    · rw [hl] at h
      dsimp only at h
      cases hn : stringToNumber (jsTrim l₀) with
      | nan => rw [hn] at h; exact absurd h (by simp)
      | inf => rw [hn] at h; exact absurd h (by simp)
      | negInf => rw [hn] at h; exact absurd h (by simp)
      | finite idx =>
        cases hm : matchTimeLine l₁ with
        | none => rw [hn, hm] at h; exact absurd h (by simp)
        | some pr =>
          obtain ⟨s, en⟩ := pr
          rw [hn, hm] at h
          simp only [Option.some.injEq] at h
          subst h
          obtain ⟨w₁, w₂, tail, hline, hw₁, hw₂, hs₁, hs₂⟩ := matchTimeLine_sound hm
          exact ⟨l₀, l₁, rest, hl, hn, ⟨w₁, w₂, tail, hline, hw₁, hw₂, hs₁, hs₂⟩, rfl⟩
  · intro h
    obtain ⟨l₀, l₁, rest, hl, hn, ⟨w₁, w₂, tail, hline, hw₁, hw₂, hs₁, hs₂⟩, htext⟩ := h
    unfold parseBlock
    rw [hl]
    dsimp only
    rw [hn, hline, matchTimeLine_complete tail hs₁ hs₂ hw₁ hw₂, ← htext]

/-- C7 witness: the acceptance relation established for the concrete sample
block through the characterization. -/
theorem claim_C7_witness :
    specAccepts ("1\n00:00:00,000 --> 00:00:02,000\nHello".data)
      ⟨1, "00:00:00,000".data, "00:00:02,000".data, "Hello".data⟩ :=
  ((claim_C7 []).2 ("1\n00:00:00,000 --> 00:00:02,000\nHello".data)
    ⟨1, "00:00:00,000".data, "00:00:02,000".data, "Hello".data⟩).mp (by decide)

/-- C9 counterexample: the empty string parses to zero cues but is rejected
by the falsy-field check with the missing-input error, not with the
empty-subtitle error the claim requires. -/
theorem claim_C9_counterexample :
    parseSrt [] = [] ∧ POST (some []) none none 0 [] = .missingSrt ∧
      PostResult.missingSrt ≠ PostResult.emptySubtitle := by
  decide

/-- C9 (amended): a missing or empty srt field is rejected as missing input
before parsing; a nonempty input that parses to zero cues is rejected with
the empty-subtitle error and nothing is created; otherwise exactly one
record is created and persisted under the key of the fresh job id, with
cursor zero, completed false, total equal to the parsed cue count and every
translatedText absent, and the handler returns that job id. -/
theorem claim_C9 (s : List Char) (tl note : Option (List Char)) (now : Int)
    (jobId : List Char) :
    POST none tl note now jobId = .missingSrt ∧
    (s = [] → POST (some s) tl note now jobId = .missingSrt) ∧
    (s ≠ [] → parseSrt s = [] → POST (some s) tl note now jobId = .emptySubtitle) ∧
    (s ≠ [] → parseSrt s ≠ [] →
      POST (some s) tl note now jobId =
        .created jobId (jobKeyOf jobId) (postedJob s tl note now) ∧
      (postedJob s tl note now).cursor = 0 ∧
      (postedJob s tl note now).completed = false ∧
      (postedJob s tl note now).total = (parseSrt s).length ∧
      ∀ e ∈ (postedJob s tl note now).entries, e.dst = none) := by
  refine ⟨rfl, ?_, ?_, ?_⟩
  · intro hs
    unfold POST
    dsimp only
    rw [if_pos hs]
  · intro hs hp
    unfold POST
    dsimp only
    rw [if_neg hs, if_pos hp]
  · intro hs hp
    refine ⟨?_, rfl, rfl, rfl, ?_⟩
    · unfold POST postedJob
      dsimp only
      rw [if_neg hs, if_neg hp]
    · intro e he
      obtain ⟨e', _, rfl⟩ := List.mem_map.mp (by simpa [postedJob] using he)
      rfl

/-- C4 counterexample: a cue text holding a bare carriage return is changed
by the round trip, because re-parsing runs CRLF normalization on the
serialized text again. -/
theorem claim_C4_counterexample :
    (parseSrt (serializeParsed
        (parseSrt ("1\n00:00:00,000 --> 00:00:01,000\na\r\r\nb".data)))).map SrtEntry.text ≠
      (parseSrt ("1\n00:00:00,000 --> 00:00:01,000\na\r\r\nb".data)).map SrtEntry.text := by
  decide

/-- C4 (amended): whenever no parsed sourceText contains a carriage return,
re-parsing the serialization reproduces every cue (index, start, end and
sourceText), and serializing again yields the identical text. -/
theorem claim_C4 (input : List Char)
    (hcr : ∀ e ∈ parseSrt input, '\r' ∉ e.text) :
    parseSrt (serializeParsed (parseSrt input)) = parseSrt input ∧
    serializeParsed (parseSrt (serializeParsed (parseSrt input))) =
      serializeParsed (parseSrt input) := by
  have h := @parseSrt_serializeParsed (parseSrt input) parseSrt_good hcr
  exact ⟨h, by rw [h]⟩

/-- C4 witness: the round trip evaluated on the two-cue sample submission. -/
theorem claim_C4_witness :
    parseSrt (serializeParsed (parseSrt sampleSrt)) = parseSrt sampleSrt ∧
    serializeParsed (parseSrt (serializeParsed (parseSrt sampleSrt))) =
      serializeParsed (parseSrt sampleSrt) :=
  claim_C4 sampleSrt (by decide)

/-- C9 witness: the creation path evaluated on the two-cue sample. -/
theorem claim_C9_witness :
    POST (some sampleSrt) none none 0 ("job-1".data) =
        .created ("job-1".data) (jobKeyOf ("job-1".data)) (postedJob sampleSrt none none 0) ∧
      (postedJob sampleSrt none none 0).cursor = 0 ∧
      (postedJob sampleSrt none none 0).total = (parseSrt sampleSrt).length := by
  have h := (claim_C9 sampleSrt none none 0 ("job-1".data)).2.2.2 (by decide) (by decide)
  exact ⟨h.1, h.2.1, h.2.2.2.1⟩

end

end MadokaSubs
